import Mathlib

/-!
# diana-Tucker: distributed tensor kernels

A shallow embedding of `src/template/function/tensor.tpp` (ring `ttm`, `gram`,
`ttt_except`, `gather`, `scatter`, `fnorm`) and of the reduce-scatter `ttm` of
`src/template/function.tpp`.

Conventions of the embedding.

* Extents, sizes and offsets into allocated buffers are natural numbers.  The
  `size_t` arithmetic on the block boundaries of the ring `ttm` (the products
  `row_M * i` and `col_M * kCoordN`, the differences of two boundaries, the
  block index `k`) is evaluated modulo `2 ^ 64`.  Every conversion of a size
  to `int` (the counts and displacements handed to MPI) keeps the low 32 bits
  in two's complement, and the sums of the `int` array `displs` wrap in 32
  bits.  A theorem that needs a size to fit its machine type carries the bound
  as a hypothesis.
* A call that has no result in C++ (a division by zero, a null pointer
  dereference, a failed assertion, `error(...)`) returns `Except.error`.
* A buffer (`Ty *`) is a map from offsets to elements.  Freshly allocated
  memory has arbitrary contents, so allocation takes the contents as an
  argument.
* The processes of the SPMD program are indexed by their world rank; a
  distributed object is a family indexed by rank, and a collective or a ring
  of point-to-point messages is a function of that family.
* Tensors are addressed first-index-fastest: the kernels in the sources use
  `size_dim1_n = shape[0] * ... * shape[n-1]` as the stride of mode `n`.
* The order in which one process issues its communication calls is a list of
  events, in program order.
-/

namespace DianaTucker

open Finset

/-! ## Definitions -/

/-- Modelled from the spec: the macro `DIANA_CEILDIV` (its header is not among
the sources) is the ceiling division of the block map
`[⌈S·c/P⌉, ⌈S·(c+1)/P⌉)`; it returns the exact ceiling of the quotient of the
values it is given. -/
def DIANA_CEILDIV (x y : Nat) : Nat := (x + y - 1) / y

/-- The 64-bit unsigned subtraction of `size_t`. -/
def size_t_sub (a b : Nat) : Nat := (a + 2 ^ 64 - b % 2 ^ 64) % 2 ^ 64

/-- The 64-bit unsigned addition of `size_t`. -/
def size_t_add (a b : Nat) : Nat := (a + b) % 2 ^ 64

/-- The 64-bit unsigned multiplication of `size_t`. -/
def size_t_mul (a b : Nat) : Nat := (a * b) % 2 ^ 64

/-- The value of the conversion `(int) x` of a `size_t` value `x`: the low 32
bits of `x` read in two's complement. -/
def int_cast (x : Nat) : Int :=
  if x % 4294967296 < 2147483648 then ((x % 4294967296 : Nat) : Int)
  else ((x % 4294967296 : Nat) : Int) - 4294967296

/-- The sum of two `int` values as a 32-bit machine computes it.  (An overflow
of this sum is undefined in C++; the embedding takes the two's complement
result.) -/
def int_add (a b : Int) : Int :=
  if a + b < -2147483648 then a + b + 4294967296
  else if 2147483648 ≤ a + b then a + b - 4294967296
  else a + b

/-- The `displs` loops of `gather`, `scatter` and `ttt_except` on their `int`
arrays: `displs[0] = 0`, `displs[i] = displs[i-1] + counts[i-1]`. -/
def int_displs (counts : Nat → Int) : Nat → Int
  | 0 => 0
  | i + 1 => int_add (int_displs counts i) (counts i)

/-- The loop of `ttm` that fills `row_local_begin` and `row_local_max`
(tensor.tpp, lines 301-308): the state after the iterations `1, ..., i`.  The
product `row_M * i` and the difference of two boundaries are computed in
`size_t`. -/
def row_local_loop (row_M kParN : Nat) : Nat → List Nat × Nat
  | 0 => ([0], 0)
  | i + 1 =>
    let st := row_local_loop row_M kParN i
    let b := st.1 ++ [DIANA_CEILDIV (size_t_mul row_M (i + 1)) kParN]
    let d := size_t_sub (b.getD (i + 1) 0) (b.getD i 0)
    (b, if d > st.2 then d else st.2)

/-- The vector `row_local_begin` of `ttm` after its loop. -/
def row_local_begin (row_M kParN : Nat) : List Nat :=
  (row_local_loop row_M kParN kParN).1

/-- The value of `row_local_max` in `ttm` after its loop. -/
def row_local_max (row_M kParN : Nat) : Nat :=
  (row_local_loop row_M kParN kParN).2

/-- Modelled from the spec: first index owned, along a mode of global extent
`S` split over `P` grid positions, by the position with coordinate `c`
(§3, local block bounds; `Distribution` is not among the sources). -/
def block_begin (S P c : Nat) : Nat := DIANA_CEILDIV (S * c) P

/-- Modelled from the spec: number of indices owned by coordinate `c`,
`⌈S·(c+1)/P⌉ − ⌈S·c/P⌉`. -/
def block_len (S P c : Nat) : Nat := block_begin S P (c + 1) - block_begin S P c

/-- Modelled from the spec: the grid coordinate that owns global index `g`,
the largest `c` with `⌈S·c/P⌉ ≤ g`. -/
def block_owner (S P g : Nat) : Nat := g * P / S

/-- A buffer `Ty *`: the element stored at each offset. -/
abbrev Buf (α : Type) := Nat → α

/-- The effect of `mcpy(dst + off, src, cnt)` on `dst`. -/
def write {α : Type} (dst : Buf α) (off : Nat) (src : Buf α) (cnt : Nat) : Buf α :=
  fun p => if off ≤ p ∧ p < off + cnt then src (p - off) else dst p

/-- Offset of a multi-index in a buffer addressed first-index-fastest. -/
def lin : List Nat → List Nat → Nat
  | s :: ss, i :: is => i + s * lin ss is
  | _, _ => 0

/-- The multi-index stored at an offset (inverse of `lin`). -/
def unlin : List Nat → Nat → List Nat
  | [], _ => []
  | s :: ss, p => (p % s) :: unlin ss (p / s)

/-- Modelled from the spec: `coord(r)`, the row-major unravel of the rank `r`
over the partition `par` (§3, §4.1). -/
def coord : List Nat → Nat → List Nat
  | [], _ => []
  | _ :: ps, r => (r / ps.prod) :: coord ps (r % ps.prod)

/-- Modelled from the spec: the rank whose coordinate is `c` (row-major
ravel, the inverse of `coord`). -/
def rank_of : List Nat → List Nat → Nat
  | _ :: ps, c :: cs => c * ps.prod + rank_of ps cs
  | _, _ => 0

/-- Modelled from the spec: `local_shape`, the per-mode block lengths of the
process with coordinate `c` for the global shape `I`. -/
def local_shape : List Nat → List Nat → List Nat → List Nat
  | P :: ps, c :: cs, S :: ss => block_len S P c :: local_shape ps cs ss
  | _, _, _ => []

/-- Modelled from the spec: the first global index of each mode owned by the
process with coordinate `c`. -/
def local_begin : List Nat → List Nat → List Nat → List Nat
  | P :: ps, c :: cs, S :: ss => block_begin S P c :: local_begin ps cs ss
  | _, _, _ => []

/-- Modelled from the spec: the coordinate of the process that owns the global
multi-index `g`. -/
def owner_coord : List Nat → List Nat → List Nat → List Nat
  | P :: ps, S :: ss, g :: gs => block_owner S P g :: owner_coord ps ss gs
  | _, _, _ => []

/-- Modelled from the spec: `local_size(r, I)`, the product of the local
shape of rank `r`. -/
def local_size (par : List Nat) (r : Nat) (I : List Nat) : Nat :=
  (local_shape par (coord par r) I).prod

/-- The distribution descriptors: `Distribution::Type::kLocal`, `kGlobal` and
`kCartesianBlock`; a `DistributionCartesianBlock` is built from the partition
and the rank of the process (main.cpp). -/
inductive Distribution
  | kLocal
  | kGlobal
  | kCartesianBlock (partition : List Nat) (rank : Nat)
  deriving DecidableEq, Repr

/-- The method `coordinate()` of a `DistributionCartesianBlock`. -/
def Distribution.coordinate : Distribution → List Nat
  | .kCartesianBlock par r => coord par r
  | _ => []

/-- The method `partition()` of a `DistributionCartesianBlock`. -/
def Distribution.partition : Distribution → List Nat
  | .kCartesianBlock par _ => par
  | _ => []

/-- A tensor object held by one process: its distribution pointer (`none` is
`nullptr`), global shape, local shape and local buffer. -/
structure Tensor (α : Type) where
  distribution : Option Distribution
  shape_global : List Nat
  shape : List Nat
  data : Buf α

/-- The method `size()`: number of elements of the local buffer. -/
def Tensor.size {α : Type} (T : Tensor α) : Nat := T.shape.prod

/-- The method `ndim()`. -/
def Tensor.ndim {α : Type} (T : Tensor α) : Nat := T.shape.length

/-- Modelled from the spec: the constructor `Tensor(distribution, shape, false)`
(§4.2): a block-distributed tensor of global shape `I`; the process allocates
its local block, whose contents `mem` are not initialised. -/
def Tensor.new_distributed {α : Type} (d : Distribution) (I : List Nat) (mem : Buf α) :
    Tensor α :=
  { distribution := some d
    shape_global := I
    shape := match d with
      | .kCartesianBlock par r => local_shape par (coord par r) I
      | _ => I
    data := mem }

/-- Modelled from the spec: the constructor `Tensor(shape, false)` (§4.2): a
Global (replicated) tensor; every process allocates the full product. -/
def Tensor.new_global {α : Type} (I : List Nat) (mem : Buf α) : Tensor α :=
  { distribution := some .kGlobal, shape_global := I, shape := I, data := mem }

/-- The loops that fill `gram_buf_start` in `gram` and `ttt_except`
(tensor.tpp, lines 48-52 and 178-182): `start[0] = 0`,
`start[i] = start[i-1] + counts[i-1]`, sums of `size_t` values. -/
def size_t_displs (counts : Nat → Nat) : Nat → Nat
  | 0 => 0
  | i + 1 => size_t_add (size_t_displs counts i) (counts i)

/-- The prefix sums `counts 0 + ... + counts (i-1)` of natural numbers, the
values that the arrays `gram_buf_start` and `displs` hold as long as no sum
overflows (used to state and prove the theorems; not part of the program). -/
def displs_of (counts : Nat → Nat) : Nat → Nat
  | 0 => 0
  | i + 1 => displs_of counts i + counts i

/-- Modelled from the spec: the receive buffer of the root after `gatherv`
(and the send buffer layout of `scatterv`): the block of rank `i`, of
`counts[i]` elements, lies at offset `displs[i]`.  The blocks of the ranks
`0, ..., W-1` are placed in turn. -/
def place_blocks {α : Type} (blocks : Nat → Buf α) (counts displs : Nat → Nat)
    (recvbuf : Buf α) : Nat → Buf α
  | 0 => recvbuf
  | i + 1 => write (place_blocks blocks counts displs recvbuf i) (displs i) (blocks i) (counts i)

/-- Modelled from the spec: `reorder_from_gather_cartesian_block` (§4.6),
the permutation from per-rank contiguous blocks to the global order of the
tensor, applied in place to the first `shape.prod` elements. -/
def reorder_from_gather_cartesian_block {α : Type} (data : Buf α) (shape par : List Nat)
    (displs : Nat → Nat) : Buf α :=
  fun pos =>
    if pos < shape.prod then
      let g := unlin shape pos
      let c := owner_coord par shape g
      let l := List.zipWith (· - ·) g (local_begin par c shape)
      data (displs (rank_of par c) + lin (local_shape par c shape) l)
    else data pos

/-- Modelled from the spec: element `p` of the block of rank `r` cut out of a
buffer in global order. -/
def cut_block {α : Type} (data : Buf α) (shape par : List Nat) (r : Nat) : Buf α :=
  fun p =>
    let c := coord par r
    let l := unlin (local_shape par c shape) p
    data (lin shape (List.zipWith (· + ·) (local_begin par c shape) l))

/-- Modelled from the spec: `reorder_for_scatter_cartesian_block` (§4.6), the
permutation from the global order to per-rank contiguous blocks, applied in
place. -/
def reorder_for_scatter_cartesian_block {α : Type} (data : Buf α) (shape par : List Nat)
    (displs : Nat → Nat) : Buf α :=
  place_blocks (cut_block data shape par) (fun r => local_size par r shape) displs data par.prod

/-- The collective `gather` (tensor.tpp, lines 379-435) as seen by rank `r`
among `W` processes; `A i` is the argument of rank `i`, `mem i` the contents
of the memory rank `i` allocates for `ret`.  Rank `0` computes the `int`
arrays `recvcounts` and `displs` from its own argument, receives the blocks,
reorders them and broadcasts `(int) ret.size()` elements.  A count that is not
positive moves no element. -/
def gather {α : Type} (W : Nat) (A : Nat → Tensor α) (mem : Nat → Buf α) (r : Nat) :
    Except String (Tensor α) :=
  match (A r).distribution with
  | none => .error "This tensor is not distributed, cannot be gathered."
  | some .kLocal =>
    .error "Distribution of this tensor is Distribution::Type::kLocal, cannot be gathered."
  | some .kGlobal =>
    .error "Distribution of this tensor is Distribution::Type::kGlobal, there is no need to be gathered."
  | some (.kCartesianBlock _ _) =>
    match (A 0).distribution with
    | some (.kCartesianBlock par0 _) =>
      let ret0 : Tensor α := Tensor.new_global (A 0).shape_global (mem 0)
      let recvcounts := fun i => int_cast (local_size par0 i (A 0).shape_global)
      let displs := int_displs recvcounts
      let received := place_blocks (fun i => (A i).data) (fun i => (recvcounts i).toNat)
        (fun i => (displs i).toNat) ret0.data W
      let reordered := reorder_from_gather_cartesian_block received ret0.shape par0
        (fun i => (displs i).toNat)
      let ret : Tensor α := Tensor.new_global (A r).shape_global (mem r)
      .ok { ret with
        data := if r = 0 then reordered else write ret.data 0 reordered (int_cast ret.size).toNat }
    | _ => .error "Invalid input or not implemented yet."

/-- The collective `scatter` (tensor.tpp, lines 437-494) as seen by rank `r`;
`A i` and `distribution i` are the arguments of rank `i`, `mem i` the contents
of the memory rank `i` allocates for `ret`.  The `int` arrays `sendcounts` and
`displs` of the root are functions of the rank; rank `r` receives
`(int) ret.size()` elements from the offset `displs[r]` of the reordered
buffer.  A count that is not positive moves no element. -/
def scatter {α : Type} (A : Nat → Tensor α) (distribution : Nat → Distribution)
    (proc : Nat) (mem : Nat → Buf α) (r : Nat) : Except String (Tensor α) :=
  match (A r).distribution with
  | some (.kCartesianBlock _ _) =>
    .error "Distribution of this tensor is Distribution::Type::kCartesianBlock,  there is no need to be scatterd."
  | some .kGlobal =>
    .error "Distribution of this tensor is Distribution::Type::kGlobal, there is no need to be scatterd."
  | _ =>
    match distribution r with
    | .kCartesianBlock _ _ =>
      let ret : Tensor α := Tensor.new_distributed (distribution r) (A r).shape (mem r)
      let sendcounts :=
        fun i => int_cast (local_size (distribution proc).partition i (A proc).shape)
      let displs := int_displs sendcounts
      let reordered := reorder_for_scatter_cartesian_block (A proc).data (A proc).shape
        (distribution proc).partition (fun i => (displs i).toNat)
      .ok { ret with
        data := write ret.data 0 (fun p => reordered ((displs r).toNat + p))
          (int_cast ret.size).toNat }
    | _ => .error "Invalid input or not implemented yet."

/-- The state of the root's own buffer `A.data()` when `scatter` returns: it is
reordered for the scatter and reordered back (tensor.tpp, lines 471-484). -/
def scatter_root_data {α : Type} (A : Tensor α) (distribution : Distribution) : Buf α :=
  let sendcounts := fun i => int_cast (local_size distribution.partition i A.shape)
  let displs := int_displs sendcounts
  reorder_from_gather_cartesian_block
    (reorder_for_scatter_cartesian_block A.data A.shape distribution.partition
      (fun i => (displs i).toNat))
    A.shape distribution.partition (fun i => (displs i).toNat)

/-- Sum of `f` over the multi-indices of a box of the given shape (used to
state and prove the sums of the kernels; not part of the program). -/
def sumBox {α : Type} [AddCommMonoid α] : List Nat → (List Nat → α) → α
  | [], f => f []
  | s :: ss, f => ∑ i in range s, sumBox ss (fun is => f (i :: is))

/-- The tensor objects of a block-distributed tensor of global shape `I` over
the partition `par`: rank `r` holds
`Tensor(new DistributionCartesianBlock(par, r), I)` with local buffer
`data r` (main.cpp). -/
def distributed {α : Type} (par I : List Nat) (data : Nat → Buf α) : Nat → Tensor α :=
  fun r => Tensor.new_distributed (.kCartesianBlock par r) I (data r)

/-- The element of a block-distributed tensor with global multi-index `g`: it
is stored by the process that owns `g`, at the local multi-index of `g`. -/
def global_elem {α : Type} (par I : List Nat) (data : Nat → Buf α) (g : List Nat) : α :=
  let c := owner_coord par I g
  data (rank_of par c) (lin (local_shape par c I) (List.zipWith (· - ·) g (local_begin par c I)))

/-- Modelled from the spec: the kernel `add(C, A, B, n)` of `Operator`
(§6), `C[p] = A[p] + B[p]` for `p < n`; the result is the new contents of `C`
when `C` and `A` are the same buffer. -/
def op_add {α : Type} [Add α] (A B : Buf α) (n : Nat) : Buf α :=
  fun p => if p < n then A p + B p else A p

/-- A pointer `buf + off`. -/
def shift {α : Type} (buf : Buf α) (off : Nat) : Buf α := fun p => buf (off + p)

/-- Modelled from the spec: the `m * n` elements that the kernel
`matmulGeneral(C, A, B, m, n, k, transA, transB, ldA, ldB)` of `Operator` (§6)
stores in `C`, `C = op(A) · op(B)`.  The matrices are addressed
first-index-fastest with leading dimensions `ldA`, `ldB`, as the call in `ttm`
requires (it passes `ldA = m` for the untransposed `m × k` operand, and `C` is
`m × n` with leading dimension `m`). -/
def matmulGeneral {α : Type} [Semiring α] (A B : Buf α) (m _n k : Nat) (transA transB : Bool)
    (ldA ldB : Nat) : Buf α :=
  fun p => ∑ c in range k,
    (if transA then A (p % m * ldA + c) else A (c * ldA + p % m)) *
    (if transB then B (c * ldB + p / m) else B (p / m * ldB + c))

/-- Modelled from the spec: the kernel `matmulNT(C, A, B, m, n, k)` of
`Operator` (§6), `C = A · Bᵀ` with `A` of shape `m × k`, `B` of shape `n × k`
and tight leading dimensions. -/
def matmulNT {α : Type} [Semiring α] (A B : Buf α) (m n k : Nat) : Buf α :=
  matmulGeneral A B m n k false true m n

/-- The block index of step `i` of the ring `ttm` on fiber rank `rank`,
`((size_t)rank - i - 1 + kParN) % kParN` (tensor.tpp, line 327). -/
def ttm_k (rank i kParN : Nat) : Nat :=
  size_t_add (size_t_sub (size_t_sub rank i) 1) kParN % kParN

/-- The scratch buffers of one process in the ring `ttm`: `data_B_calc` and the
double buffer `data_B_buf[0]`, `data_B_buf[1]`. -/
structure TtmBuffers (α : Type) where
  data_B_calc : Buf α
  data_B_buf : Nat → Buf α

/-- The inner loop of `ttm` over `j` (tensor.tpp, lines 328-334): the contents
of `data_B_calc` after the iterations `0, ..., j-1`, for the block `k` of the
rows of `M`.  The product `col_M * kCoordN` of line 297 and the difference
`row_local_begin[k + 1] - row_local_begin[k]` are computed in `size_t`. -/
def ttm_calc_loop {α : Type} [Semiring α] (A M : Tensor α) (n kParN kCoordN k : Nat)
    (data_B_calc : Buf α) : Nat → Buf α
  | 0 => data_B_calc
  | j + 1 =>
    let row_M := M.shape.getD 0 0
    let col_M := M.shape.getD 1 0
    let size_dim1_n := (A.shape.take n).prod
    let col_local_size := A.shape.getD n 0
    let col_local_begin := DIANA_CEILDIV (size_t_mul col_M kCoordN) kParN
    let rlb := row_local_begin row_M kParN
    let rows := size_t_sub (rlb.getD (k + 1) 0) (rlb.getD k 0)
    write (ttm_calc_loop A M n kParN kCoordN k data_B_calc j)
      (j * size_dim1_n * rows)
      (matmulGeneral (shift A.data (j * size_dim1_n * col_local_size))
        (shift M.data (col_local_begin * row_M + rlb.getD k 0))
        size_dim1_n rows col_local_size false true size_dim1_n row_M)
      (size_dim1_n * rows)

/-- The contents of `data_B_calc` after the whole inner loop of `ttm`. -/
def ttm_calc {α : Type} [Semiring α] (A M : Tensor α) (n kParN kCoordN k : Nat)
    (data_B_calc : Buf α) : Buf α :=
  ttm_calc_loop A M n kParN kCoordN k data_B_calc (A.shape.drop (n + 1)).prod

/-- The value of `size_B_max` on a process of `ttm` (tensor.tpp, lines 288 and
310). -/
def ttm_size_B_max {α : Type} (A M : Tensor α) (n kParN : Nat) : Nat :=
  row_local_max (M.shape.getD 0 0) kParN * (A.size / A.shape.getD n 0)

/-- One step `i` of the ring loop of `ttm` (tensor.tpp, lines 326-349) on all
`kParN` processes of a fiber; `member q` is the tensor of the process with
fiber rank `q`.  A message posted at step `i` is delivered into the receive
buffer of its destination, which does not touch that buffer before the `wait`
of step `i + 1`.  Its length is the count `(int)size_B_max` passed to `isend`
and `irecv`; a count that is not positive moves no element. -/
def ttm_ring_step {α : Type} [Semiring α] (member : Nat → Tensor α) (M : Tensor α)
    (n kParN : Nat) (i : Nat) (st : Nat → TtmBuffers α) : Nat → TtmBuffers α :=
  let computed : Nat → TtmBuffers α := fun q =>
    let k := ttm_k q i kParN
    let data_B_calc := ttm_calc (member q) M n kParN q k (st q).data_B_calc
    let size_B_max := ttm_size_B_max (member q) M n kParN
    let cur :=
      if i ≠ 0 then op_add ((st q).data_B_buf (i % 2)) data_B_calc size_B_max
      else write ((st q).data_B_buf (i % 2)) 0 data_B_calc size_B_max
    { data_B_calc := data_B_calc
      data_B_buf := fun b => if b = i % 2 then cur else (st q).data_B_buf b }
  fun q =>
    if i ≠ kParN - 1 then
      let recv_rank := (q + kParN - 1) % kParN
      { data_B_calc := (computed q).data_B_calc
        data_B_buf := fun b =>
          if b = (i + 1) % 2 then
            write ((computed q).data_B_buf b) 0 ((computed recv_rank).data_B_buf (i % 2))
              (int_cast (ttm_size_B_max (member q) M n kParN)).toNat
          else (computed q).data_B_buf b }
    else computed q

/-- The state of the fiber after the steps `0, ..., i-1` of the ring loop of
`ttm`. -/
def ttm_ring_loop {α : Type} [Semiring α] (member : Nat → Tensor α) (M : Tensor α)
    (n kParN : Nat) (init : Nat → TtmBuffers α) : Nat → Nat → TtmBuffers α
  | 0 => init
  | i + 1 => ttm_ring_step member M n kParN i (ttm_ring_loop member M n kParN init i)

/-- The ring `ttm` (tensor.tpp, lines 270-364) as seen by rank `r`: `A i` is the
tensor argument of rank `i`, `M` the replicated matrix, `scratch i` the
contents of the buffers rank `i` allocates and `mem` those of the memory
allocated for the result.  Modelled from the spec: the fiber communicator of
`process_fiber_comm(n)` (§4.1) consists of the processes whose coordinates
differ only in mode `n`, ranked by that coordinate.  The division
`A.size() / A.shape()[n]` has no result when a process of the fiber owns an
empty block of mode `n`; neither has `A.distribution()->type()` on a tensor
without distribution descriptor. -/
def ttm {α : Type} [Semiring α] (A : Nat → Tensor α) (M : Tensor α) (n : Nat)
    (scratch : Nat → TtmBuffers α) (mem : Buf α) (r : Nat) : Except String (Tensor α) :=
  match (A r).distribution with
  | some (.kCartesianBlock par rank) =>
    if M.distribution = none ∨ M.distribution = some .kGlobal then
      if M.shape.length ≠ 2 then .error "Assertion failed: M.is_matrix()"
      else if (A r).shape_global.getD n 0 ≠ M.shape.getD 1 0 then
        .error "Assertion failed: A.shape_global()[n] == M.shape()[1]"
      else
        let coord := coord par rank
        let kParN := par.getD n 0
        let kCoordN := coord.getD n 0
        let row_M := M.shape.getD 0 0
        let fiber := fun q => rank_of par (coord.set n q)
        if ∃ q < kParN, (A (fiber q)).shape.getD n 0 = 0 then
          .error "Division by zero: A.size() / A.shape()[n]"
        else
          let final := ttm_ring_loop (fun q => A (fiber q)) M n kParN
            (fun q => scratch (fiber q)) kParN
          let new_shape := (A r).shape_global.set n row_M
          let ret : Tensor α := Tensor.new_distributed (.kCartesianBlock par rank) new_shape mem
          .ok { ret with data := write ret.data 0 ((final kCoordN).data_B_buf ((kParN - 1) % 2)) ret.size }
    else .error "Invalid input or not implemented yet."
  | none => .error "Null pointer: A.distribution()"
  | some _ => .error "Invalid input or not implemented yet."

/-- The local buffers of the tensors that `ttm` returns on all ranks (the
memory `mem r` itself on a rank where the call has no result). -/
def ttm_data {α : Type} [Semiring α] (A : Nat → Tensor α) (M : Tensor α) (n : Nat)
    (scratch : Nat → TtmBuffers α) (mem : Nat → Buf α) : Nat → Buf α :=
  fun r => match ttm A M n scratch (mem r) r with
    | .ok t => t.data
    | .error _ => mem r

/-- Modelled from the spec: the kernel `fnorm(data, n)` of `Operator` (§6), the
Frobenius norm of the first `n` elements of a buffer.  The square root of the
element type is a parameter. -/
def op_fnorm {α : Type} [Semiring α] (sqrt : α → α) (data : Buf α) (n : Nat) : α :=
  sqrt (∑ p in range n, data p * data p)

/-- The function `fnorm` (tensor.tpp, lines 496-509) as seen by rank `r` among
`W` processes; `A i` is the argument of rank `i`.  The `allreduce_inplace`
with `MPI_SUM` adds the values `ret` of all ranks.  The call
`A.distribution()->type()` has no result for a tensor without distribution
descriptor. -/
def fnorm {α : Type} [Semiring α] (sqrt : α → α) (W : Nat) (A : Nat → Tensor α) (r : Nat) :
    Except String α :=
  match (A r).distribution with
  | none => .error "Null pointer: A.distribution()"
  | some (.kCartesianBlock _ _) =>
    let ret := fun i => op_fnorm sqrt (A i).data (A i).size
    let ret2 := fun i => ret i * ret i
    .ok (sqrt (∑ i in range W, ret2 i))
  | some _ => .ok (op_fnorm sqrt (A r).data (A r).size)

/-- Modelled from the spec: the kernel `tenmat(dst, src, shape, n)` of `Operator`
(§4.3), the mode-`n` matricization of a local buffer: the
`shape[n] × ∏_{k≠n} shape[k]` matrix whose columns are the mode-`n` fibers,
the remaining modes ordered with the first one fastest.  The matrix is
addressed first-index-fastest (entry `(a, col)` at `a + shape[n] * col`), as
`matmulNT` reads it. -/
def tenmat {α : Type} (dst src : Buf α) (shape : List Nat) (n : Nat) : Buf α :=
  fun p =>
    if p < shape.prod then
      let rows := shape.getD n 0
      let size_dim1_n := (shape.take n).prod
      let a := p % rows
      let col := p / rows
      src (col % size_dim1_n + size_dim1_n * (a + rows * (col / size_dim1_n)))
    else dst p

/-- The buffers of one process in the ring loops of `gram` and `ttt_except`:
the double buffer `databuf[0]`, `databuf[1]`, the staging area `gram_buf` and
the index `gram_buf_point`. -/
structure GramBuffers (α : Type) where
  databuf : Nat → Buf α
  gram_buf : Buf α
  gram_buf_point : Nat

/-- Modelled from the spec: `allreduce_inplace(&max_size, 1, MPI_MAX, comm_fiber)`,
the maximum of the values of the fiber ranks `0, ..., P-1`. -/
def fiber_max (f : Nat → Nat) : Nat → Nat
  | 0 => 0
  | q + 1 => max (fiber_max f q) (f q)

/-- One step `i` of the ring loop of `gram` (tensor.tpp, lines 67-86) and of
`ttt_except` (lines 199-219) on all `kParN` processes of a fiber.  For the
process with fiber rank `q`, `A_buf q` is its matricized tensor, `row_length q`
its number of rows, `col_length q` its number of columns; `all_row_length` is
the allgathered array of row lengths of the rotating operand, whose prefix
sums are `gram_buf_start`.  A message posted at step `i` is delivered into the
receive buffer of its destination, which does not touch that buffer before
the `wait` of step `i + 1`.  Its length is the count `(int) max_size` passed to
`isend` and `irecv`; a count that is not positive moves no element. -/
def gram_ring_step {α : Type} [Semiring α] (kParN : Nat) (A_buf : Nat → Buf α)
    (row_length col_length all_row_length : Nat → Nat) (max_size : Nat) (i : Nat)
    (st : Nat → GramBuffers α) : Nat → GramBuffers α :=
  fun q =>
    let recv_from_proc_id := (q + 1) % kParN
    let gram_buf_point := (st q).gram_buf_point
    let gram_buf_start := size_t_displs all_row_length
    { databuf := fun b =>
        if i ≠ kParN - 1 ∧ b = (i + 1) % 2 then
          write ((st q).databuf b) 0 ((st recv_from_proc_id).databuf (i % 2))
            (int_cast max_size).toNat
        else (st q).databuf b
      gram_buf := write (st q).gram_buf (gram_buf_start gram_buf_point * row_length q)
        (matmulNT (A_buf q) ((st q).databuf (i % 2)) (row_length q)
          (all_row_length gram_buf_point) (col_length q))
        (row_length q * all_row_length gram_buf_point)
      gram_buf_point := (gram_buf_point + 1) % kParN }

/-- The state of the fiber after the steps `0, ..., i-1` of the ring loop of
`gram` and `ttt_except`. -/
def gram_ring_loop {α : Type} [Semiring α] (kParN : Nat) (A_buf : Nat → Buf α)
    (row_length col_length all_row_length : Nat → Nat) (max_size : Nat)
    (init : Nat → GramBuffers α) : Nat → Nat → GramBuffers α
  | 0 => init
  | i + 1 => gram_ring_step kParN A_buf row_length col_length all_row_length max_size i
      (gram_ring_loop kParN A_buf row_length col_length all_row_length max_size init i)

/-- Modelled from the spec: `allreduce_inplace(gram_buf, gram_buf_size, MPI_SUM,
comm_line)` over the slab communicator of `process_fiber_comm_rev(n)` (§4.1),
the processes of the grid `par` that share the mode-`n` coordinate `cn`:
`gram_buf_of s` is the buffer of rank `s` before the call, `own` the buffer of
the calling process.  The call reduces `(int) gram_buf_size` elements; a count
that is not positive reduces none. -/
def slab_allreduce {α : Type} [Semiring α] (par : List Nat) (n cn : Nat)
    (gram_buf_of : Nat → Buf α) (own : Buf α) (gram_buf_size : Nat) : Buf α :=
  fun p =>
    if p < (int_cast gram_buf_size).toNat then
      ∑ s in range par.prod, if (coord par s).getD n 0 = cn then gram_buf_of s p else 0
    else own p

/-- The loop of `allgatherv` calls that ends `gram` (tensor.tpp, lines 100-105)
and `ttt_except` (lines 237-242): the contents of `gram_data` after the
iterations `0, ..., i-1`.  The process with fiber rank `q` contributes the
`recvcount[q]` elements at `gram_buf + i * row_length q`, which are placed at
`gram_data + i * stride + displs[q]`; `recvcount` and `displs` are the `int`
arrays of the call. -/
def gram_gather_loop {α : Type} (kParN stride : Nat) (gram_buf : Nat → Buf α)
    (row_length : Nat → Nat) (recvcount displs : Nat → Int) (gram_data : Buf α) : Nat → Buf α
  | 0 => gram_data
  | i + 1 =>
    place_blocks (fun q => shift (gram_buf q) (i * row_length q)) (fun q => (recvcount q).toNat)
      (fun q => i * stride + (displs q).toNat)
      (gram_gather_loop kParN stride gram_buf row_length recvcount displs gram_data i) kParN

/-- The uninitialised memory that a process allocates in `gram` or
`ttt_except`: `databuf[0]`, `databuf[1]`, `gram_buf` and `A_buf`. -/
structure GramScratch (α : Type) where
  databuf : Nat → Buf α
  gram_buf : Buf α
  A_buf : Buf α

/-- The staging area `gram_buf` of the process with world rank `s` after the
ring loop of `ttt_except` (tensor.tpp, lines 143-219).  Modelled from the
spec: the fiber communicator of `process_fiber_comm(n)` (§4.1) consists of the
processes whose coordinates differ only in mode `n`, ranked by that
coordinate. -/
def ttt_except_ring {α : Type} [Semiring α] (A B : Nat → Tensor α) (n : Nat) (par : List Nat)
    (scratch : Nat → GramScratch α) (s : Nat) : Buf α :=
  let coord := coord par s
  let kParN := par.getD n 0
  let fiber := fun q => rank_of par (coord.set n q)
  let max_size := fiber_max (fun q => (B (fiber q)).size) kParN
  let all_B_row_length := fun q => (B (fiber q)).shape.getD n 0
  let final := gram_ring_loop kParN
    (fun q => tenmat (scratch (fiber q)).A_buf (A (fiber q)).data (A (fiber q)).shape n)
    (fun q => (A (fiber q)).shape.getD n 0)
    (fun q => (A (fiber q)).size / (A (fiber q)).shape.getD n 0)
    all_B_row_length max_size
    (fun q =>
      { databuf := fun b =>
          if b = 0 then
            tenmat ((scratch (fiber q)).databuf 0) (B (fiber q)).data (B (fiber q)).shape n
          else (scratch (fiber q)).databuf b
        gram_buf := (scratch (fiber q)).gram_buf
        gram_buf_point := q })
    kParN
  (final (coord.getD n 0)).gram_buf

/-- The function `ttt_except` (tensor.tpp, lines 131-257) as seen by rank `r`:
`A i` and `B i` are the arguments of rank `i`, `scratch i` the contents of the
buffers rank `i` allocates, `mem` those of the memory allocated for the
result.  The guard of lines 133-135 lets the call pass when `A` or `B` is
CartesianBlock; line 144 then uses the descriptor of `A` as a
`DistributionCartesianBlock`, which has no result for a descriptor of another
type.  The division `A.size() / kALocalShapeN` has no result when a process
owns an empty block of mode `n`; neither has `->type()` on a tensor without
distribution descriptor. -/
def ttt_except {α : Type} [Semiring α] (A B : Nat → Tensor α) (n : Nat)
    (scratch : Nat → GramScratch α) (mem : Buf α) (r : Nat) : Except String (Tensor α) :=
  let body := fun (par : List Nat) (rank : Nat) =>
    if ¬ ∀ i < (A r).ndim, i ≠ n →
        (A r).shape_global.getD i 0 = (B r).shape_global.getD i 0 ∧
        (A r).shape.getD i 0 = (B r).shape.getD i 0 then
      .error "Assertion failed: A and B agree on every mode except n"
    else if ∃ s < par.prod, (A s).shape.getD n 0 = 0 then
      .error "Division by zero: A.size() / kALocalShapeN"
    else
      let coord := coord par rank
      let kParN := par.getD n 0
      let kAGlobalShapeN := (A r).shape_global.getD n 0
      let kBGlobalShapeN := (B r).shape_global.getD n 0
      let fiber := fun q => rank_of par (coord.set n q)
      let all_A_row_length := fun q => (A (fiber q)).shape.getD n 0
      let reduced := fun q =>
        slab_allreduce par n q (ttt_except_ring A B n par scratch)
          (ttt_except_ring A B n par scratch (fiber q))
          ((A (fiber q)).shape.getD n 0 * (B (fiber q)).shape_global.getD n 0)
      let gram : Tensor α := Tensor.new_global [kAGlobalShapeN, kBGlobalShapeN] mem
      .ok { gram with
        data := gram_gather_loop kParN kAGlobalShapeN reduced all_A_row_length
          (fun q => int_cast (all_A_row_length q))
          (int_displs (fun q => int_cast (all_A_row_length q))) gram.data kBGlobalShapeN }
  match (A r).distribution with
  | none => .error "Null pointer: A.distribution()"
  | some (.kCartesianBlock par rank) => body par rank
  | some _ =>
    match (B r).distribution with
    | none => .error "Null pointer: B.distribution()"
    | some (.kCartesianBlock _ _) =>
      if ¬ ∀ i < (A r).ndim, i ≠ n →
          (A r).shape_global.getD i 0 = (B r).shape_global.getD i 0 ∧
          (A r).shape.getD i 0 = (B r).shape.getD i 0 then
        .error "Assertion failed: A and B agree on every mode except n"
      else .error "Invalid cast: A.distribution() is not a DistributionCartesianBlock"
    | some _ => .error "Invalid input or not implemented yet."

/-- The staging area `gram_buf` of the process with world rank `s` after the
ring loop of `gram` (tensor.tpp, lines 21-86). -/
def gram_ring {α : Type} [Semiring α] (A : Nat → Tensor α) (n : Nat) (par : List Nat)
    (scratch : Nat → GramScratch α) (s : Nat) : Buf α :=
  let coord := coord par s
  let kParN := par.getD n 0
  let fiber := fun q => rank_of par (coord.set n q)
  let max_size := fiber_max (fun q => (A (fiber q)).size) kParN
  let all_row_length := fun q => (A (fiber q)).shape.getD n 0
  let A_buf := fun q =>
    tenmat (scratch (fiber q)).A_buf (A (fiber q)).data (A (fiber q)).shape n
  let final := gram_ring_loop kParN A_buf all_row_length
    (fun q => (A (fiber q)).size / (A (fiber q)).shape.getD n 0)
    all_row_length max_size
    (fun q =>
      { databuf := fun b =>
          if b = 0 then write ((scratch (fiber q)).databuf 0) 0 (A_buf q) (A (fiber q)).size
          else (scratch (fiber q)).databuf b
        gram_buf := (scratch (fiber q)).gram_buf
        gram_buf_point := q })
    kParN
  (final (coord.getD n 0)).gram_buf

/-- The function `gram` (tensor.tpp, lines 17-119) as seen by rank `r`: `A i` is
the argument of rank `i`, `scratch i` the contents of the buffers rank `i`
allocates, `mem` those of the memory allocated for the result.  The division
`A.size() / kLocalShapeN` has no result when a process owns an empty block of
mode `n`. -/
def gram {α : Type} [Semiring α] (A : Nat → Tensor α) (n : Nat)
    (scratch : Nat → GramScratch α) (mem : Buf α) (r : Nat) : Except String (Tensor α) :=
  match (A r).distribution with
  | none => .error "Null pointer: A.distribution()"
  | some (.kCartesianBlock par rank) =>
    if ∃ s < par.prod, (A s).shape.getD n 0 = 0 then
      .error "Division by zero: A.size() / kLocalShapeN"
    else
      let coord := coord par rank
      let kParN := par.getD n 0
      let kGlobalShapeN := (A r).shape_global.getD n 0
      let fiber := fun q => rank_of par (coord.set n q)
      let all_row_length := fun q => (A (fiber q)).shape.getD n 0
      let gram_buf_start := size_t_displs all_row_length
      let reduced := fun q =>
        slab_allreduce par n q (gram_ring A n par scratch) (gram_ring A n par scratch (fiber q))
          ((A (fiber q)).shape.getD n 0 * (A (fiber q)).shape_global.getD n 0)
      let gram : Tensor α := Tensor.new_global [kGlobalShapeN, kGlobalShapeN] mem
      .ok { gram with
        data := gram_gather_loop kParN kGlobalShapeN reduced all_row_length
          (fun q => int_cast (all_row_length q)) (fun q => int_cast (gram_buf_start q))
          gram.data kGlobalShapeN }
  | some _ => .error "Invalid input or not implemented yet."

/-- The enumeration `Distribution::Type`. -/
inductive DistributionType
  | kLocal
  | kGlobal
  | kCartesianBlock
  deriving DecidableEq, Repr

/-- The method `type()` of a distribution descriptor. -/
def Distribution.type : Distribution → DistributionType
  | .kLocal => .kLocal
  | .kGlobal => .kGlobal
  | .kCartesianBlock _ _ => .kCartesianBlock

/-- The communication calls of `gather` and `scatter`. -/
inductive CommCall
  | gatherv
  | bcast
  | scatterv
  deriving DecidableEq, Repr

/-- The communication calls that a process issues in `gather` (tensor.tpp,
lines 379-435), in program order: each `error(...)` exit of lines 381-391 is
taken before any call; otherwise the root and every other rank call `gatherv`
and then `bcast`. -/
def gather_calls {α : Type} (A : Tensor α) : List CommCall :=
  match A.distribution with
  | none => []
  | some .kLocal => []
  | some .kGlobal => []
  | some (.kCartesianBlock _ _) => [.gatherv, .bcast]

/-- The communication calls that a process issues in `scatter` (tensor.tpp,
lines 437-494), in program order: the `error(...)` exits of lines 440-451 and
of line 493 are taken before any call; otherwise the root and every other rank
call `scatterv`. -/
def scatter_calls {α : Type} (A : Tensor α) (distribution : Distribution) : List CommCall :=
  match A.distribution with
  | some (.kCartesianBlock _ _) => []
  | some .kGlobal => []
  | _ =>
    match distribution with
    | .kCartesianBlock _ _ => [.scatterv]
    | _ => []

/-- One SPMD call `ttm(A, M, n)` by the ranks `0, ..., W-1`: the tensors the
ranks obtain, or the error of the first rank on which the call has no result
(an error is fatal to the whole process group, spec §7).  Here `A r` is the
argument of rank `r`, `scratch r` and `mem r` are the contents of the memory
rank `r` allocates. -/
def ttm_spmd {α : Type} [Semiring α] (A : Nat → Tensor α) (M : Tensor α) (n : Nat)
    (scratch : Nat → TtmBuffers α) (mem : Nat → Buf α) : Nat → Except String (Nat → Tensor α)
  | 0 => .ok A
  | w + 1 =>
    match ttm_spmd A M n scratch mem w, ttm A M n scratch (mem w) w with
    | .ok T, .ok t => .ok (fun r => if r = w then t else T r)
    | .error e, _ => .error e
    | .ok _, .error e => .error e

/-- A tensor with no dimension, standing for an element `M[i]` beyond the end
of the vector (the loop of `ttmc` never reads one). -/
def Tensor.empty {α : Type} [Zero α] : Tensor α :=
  { distribution := none, shape_global := [], shape := [], data := fun _ => 0 }

/-- The loop of `ttmc` (tensor.tpp, lines 372-374) on `W` ranks: the tensors
bound to `A` after the iterations `0, ..., i-1`.  Iteration `i` evaluates
`ttm(A, M[i], idx[i])` and assigns the result to `A`; `scratch i` and `mem i`
are the contents of the memory the ranks allocate in that call. -/
def ttmc_loop {α : Type} [Semiring α] (W : Nat) (A : Nat → Tensor α) (M : List (Tensor α))
    (idx : List Nat) (scratch : Nat → Nat → TtmBuffers α) (mem : Nat → Nat → Buf α) :
    Nat → Except String (Nat → Tensor α)
  | 0 => .ok A
  | i + 1 =>
    match ttmc_loop W A M idx scratch mem i with
    | .ok Ai => ttm_spmd Ai (M.getD i Tensor.empty) (idx.getD i 0) (scratch i) (mem i) W
    | .error e => .error e

/-- What a call of `ttmc` leaves behind: the tensor it returns and the tensor
held by the caller's variable that was passed as `A`. -/
structure TtmcResult (α : Type) where
  ret : Nat → Tensor α
  A : Nat → Tensor α

/-- The function `ttmc` (tensor.tpp, lines 366-377) on `W` ranks.  The
parameter `A` is a reference to the caller's tensor, so every assignment
`A = ttm(A, M[i], idx[i])` of the loop stores into the caller's object, and
`return A` returns a copy of it. -/
def ttmc {α : Type} [Semiring α] (W : Nat) (A : Nat → Tensor α) (M : List (Tensor α))
    (idx : List Nat) (scratch : Nat → Nat → TtmBuffers α) (mem : Nat → Nat → Buf α) :
    Except String (TtmcResult α) :=
  if M.length ≠ idx.length then .error "Assertion failed: M.size() == idx.size()"
  else
    match ttmc_loop W A M idx scratch mem M.length with
    | .ok A_final => .ok { ret := A_final, A := A_final }
    | .error e => .error e

/-- The loop of the reduce-scatter `ttm` that computes the colour of the
communicator split (function.tpp, lines 46-53): the values of `new_color` and
`pre` after the iterations `0, ..., d-1`. -/
def new_color_loop (coord par : List Nat) (n : Nat) : Nat → Nat × Nat
  | 0 => (0, 1)
  | d + 1 =>
    let st := new_color_loop coord par n d
    if d ≠ n then (st.1 + coord.getD d 0 * st.2, st.2 * par.getD d 0) else st

/-- The colour `new_color` passed to `comm_split` by the reduce-scatter `ttm`
of a tensor of order `kNdim` (function.tpp, line 54). -/
def new_color (coord par : List Nat) (n kNdim : Nat) : Nat :=
  (new_color_loop coord par n kNdim).1

/-- The key `new_rank = (int)coord[n]` passed to `comm_split` by the
reduce-scatter `ttm` (function.tpp, line 45). -/
def new_rank (coord : List Nat) (n : Nat) : Nat := coord.getD n 0

/-- The array `recvcounts` of the reduce-scatter `ttm` after its loop
(function.tpp, lines 61-67): entry `i` is computed from `coord[i]`, the `i`-th
coordinate of the calling process; the read has no result when `i` is not a
mode of the tensor. -/
def recvcounts (coord par : List Nat) (n row_length remain_size : Nat) (i : Nat) : Option Nat :=
  match coord.get? i with
  | some ci =>
    some ((DIANA_CEILDIV (row_length * (ci + 1)) (par.getD n 0) -
      DIANA_CEILDIV (row_length * ci) (par.getD n 0)) * remain_size)
  | none => none

/-- The events of a ring loop that concern the two requests and the double
buffer (`data_B_buf` in `ttm`, `databuf` in `gram` and `ttt_except`), as one
process issues them: `wait(request_send)`, `wait(request_recv)`, `isend` of
buffer `b`, `irecv` into buffer `b`, a kernel that writes buffer `b` (`add`,
`mcpy`) and a kernel that reads buffer `b` (`matmulNT`). -/
inductive RingEvent
  | wait_send
  | wait_recv
  | isend (b : Nat)
  | irecv (b : Nat)
  | store (b : Nat)
  | load (b : Nat)
  deriving DecidableEq, Repr

/-- The events of step `i` of the ring loop of `ttm` (tensor.tpp, lines
326-349), in program order.  The inner loop of lines 328-334 writes
`data_B_calc` only and comes first; then the two waits and `add` when
`i != 0`, `mcpy` otherwise; then `isend` and `irecv` when `i != kParN - 1`. -/
def ttm_ring_events_step (kParN i : Nat) : List RingEvent :=
  (if i ≠ 0 then [.wait_send, .wait_recv, .store (i % 2)] else [.store (i % 2)]) ++
  (if i ≠ kParN - 1 then [.isend (i % 2), .irecv ((i + 1) % 2)] else [])

/-- The events of step `i` of the ring loop of `gram` (tensor.tpp, lines
67-86) and of `ttt_except` (lines 199-219), in program order: the two waits
when `i != 0`, `isend` and `irecv` when `i != kParN - 1`, then `matmulNT`
reading `databuf[i % 2]`. -/
def gram_ring_events_step (kParN i : Nat) : List RingEvent :=
  (if i ≠ 0 then [.wait_send, .wait_recv] else []) ++
  (if i ≠ kParN - 1 then [.isend (i % 2), .irecv ((i + 1) % 2)] else []) ++
  [.load (i % 2)]

/-- The events of the steps `0, ..., i-1` of a ring loop, in program order. -/
def ring_events (step : Nat → List RingEvent) : Nat → List RingEvent
  | 0 => []
  | i + 1 => ring_events step i ++ step i

/-- The requests of a process: the buffer of the pending send and the buffer
of the pending receive, if any (used to state the ordering of the events; not
part of the program). -/
structure Requests where
  send : Option Nat
  recv : Option Nat
  deriving DecidableEq, Repr

/-- The effect of an event on the requests, `none` when the event is out of
order: a post on a request that is still pending, a send from a buffer that is
being received into or a receive into a buffer that is being sent, a wait on a
request that is not pending, a write to a buffer of a pending request, or a
read of a buffer of a pending receive. -/
def Requests.step (s : Requests) : RingEvent → Option Requests
  | .wait_send => if s.send ≠ none then some { s with send := none } else none
  | .wait_recv => if s.recv ≠ none then some { s with recv := none } else none
  | .isend b => if s.send = none ∧ s.recv ≠ some b then some { s with send := some b } else none
  | .irecv b => if s.recv = none ∧ s.send ≠ some b then some { s with recv := some b } else none
  | .store b => if s.send ≠ some b ∧ s.recv ≠ some b then some s else none
  | .load b => if s.recv ≠ some b then some s else none

/-- The requests after a sequence of events, `none` when an event of the
sequence is out of order. -/
def Requests.run : Requests → List RingEvent → Option Requests
  | s, [] => some s
  | s, e :: es =>
    match s.step e with
    | some t => t.run es
    | none => none

/-! ## Theorems -/

theorem ceildiv_zero {P : Nat} (hP : 0 < P) : DIANA_CEILDIV 0 P = 0 := by
  unfold DIANA_CEILDIV
  apply Nat.div_eq_of_lt
  omega

theorem ceildiv_le_iff {x P : Nat} (hP : 0 < P) (k : Nat) :
    DIANA_CEILDIV x P ≤ k ↔ x ≤ k * P := by
  unfold DIANA_CEILDIV
  rw [← Nat.lt_succ_iff, Nat.div_lt_iff_lt_mul hP, Nat.succ_mul]
  omega

theorem ceildiv_mul_self {S P : Nat} (hP : 0 < P) : DIANA_CEILDIV (S * P) P = S := by
  apply le_antisymm
  · exact (ceildiv_le_iff hP S).2 le_rfl
  · by_contra h
    push_neg at h
    have h1 : DIANA_CEILDIV (S * P) P ≤ S - 1 := by omega
    rw [ceildiv_le_iff hP] at h1
    have h2 : (S - 1) * P < S * P := by
      apply Nat.mul_lt_mul_of_pos_right _ hP
      omega
    omega

theorem ceildiv_mono {x y P : Nat} (hP : 0 < P) (h : x ≤ y) :
    DIANA_CEILDIV x P ≤ DIANA_CEILDIV y P := by
  rw [ceildiv_le_iff hP]
  exact le_trans h ((ceildiv_le_iff hP _).1 le_rfl)

theorem block_begin_zero {S P : Nat} (hP : 0 < P) : block_begin S P 0 = 0 := by
  simp [block_begin, ceildiv_zero hP]

theorem block_begin_last {S P : Nat} (hP : 0 < P) : block_begin S P P = S := by
  simp [block_begin, ceildiv_mul_self hP]

theorem block_begin_mono {S P c d : Nat} (hP : 0 < P) (h : c ≤ d) :
    block_begin S P c ≤ block_begin S P d :=
  ceildiv_mono hP (Nat.mul_le_mul_left S h)

theorem block_begin_succ {S P : Nat} (hP : 0 < P) (c : Nat) :
    block_begin S P (c + 1) = block_begin S P c + block_len S P c := by
  have := block_begin_mono (S := S) hP (Nat.le_add_right c 1)
  unfold block_len
  omega

theorem block_begin_mul_ge {S P : Nat} (hP : 0 < P) (c : Nat) :
    S * c ≤ block_begin S P c * P :=
  (ceildiv_le_iff (x := S * c) hP _).1 le_rfl

theorem block_len_le {S P : Nat} (hP : 0 < P) (c : Nat) :
    block_len S P c ≤ DIANA_CEILDIV S P := by
  have h1 := block_begin_succ (S := S) hP c
  have h2 : block_begin S P (c + 1) ≤ block_begin S P c + DIANA_CEILDIV S P := by
    have a1 := block_begin_mul_ge (S := S) hP c
    have a2 := (ceildiv_le_iff (x := S) hP _).1 le_rfl
    show DIANA_CEILDIV (S * (c + 1)) P ≤ _
    rw [ceildiv_le_iff hP, Nat.add_mul, Nat.mul_succ]
    omega
  omega

theorem block_len_ge {S P : Nat} (hP : 0 < P) (c : Nat) :
    S / P ≤ block_len S P c := by
  have h1 := block_begin_succ (S := S) hP c
  have a1 : S * c + S ≤ block_begin S P (c + 1) * P :=
    calc S * c + S = S * (c + 1) := (Nat.mul_succ S c).symm
      _ ≤ _ := block_begin_mul_ge hP (c + 1)
  have a2 : S / P * P ≤ S := Nat.div_mul_le_self S P
  have h2 : block_begin S P c ≤ block_begin S P (c + 1) - S / P := by
    show DIANA_CEILDIV (S * c) P ≤ _
    rw [ceildiv_le_iff hP, Nat.sub_mul]
    omega
  have h3 : S / P ≤ block_begin S P (c + 1) := by
    have : S / P * P ≤ block_begin S P (c + 1) * P := by omega
    exact Nat.le_of_mul_le_mul_right this hP
  omega

theorem ceildiv_le_div_succ {S P : Nat} (hP : 0 < P) : DIANA_CEILDIV S P ≤ S / P + 1 := by
  rw [ceildiv_le_iff hP]
  have : S / P < S / P + 1 := Nat.lt_succ_self _
  rw [Nat.div_lt_iff_lt_mul hP] at this
  omega

theorem two_pow_31 : (2 : Nat) ^ 31 = 2147483648 := by norm_num

theorem two_pow_64 : (2 : Nat) ^ 64 = 18446744073709551616 := by norm_num

theorem size_t_mul_of_lt {a b : Nat} (h : a * b < 2 ^ 64) : size_t_mul a b = a * b :=
  Nat.mod_eq_of_lt h

theorem size_t_sub_of_le {a b : Nat} (hb : b ≤ a) (ha : a < 2 ^ 64) :
    size_t_sub a b = a - b := by
  unfold size_t_sub
  rw [two_pow_64] at ha ⊢
  have h1 : b % 18446744073709551616 = b := Nat.mod_eq_of_lt (by omega)
  have h2 : a + 18446744073709551616 - b = (a - b) + 18446744073709551616 := by omega
  rw [h1, h2, Nat.add_mod_right, Nat.mod_eq_of_lt (by omega)]

theorem int_cast_of_lt {x : Nat} (h : x < 2 ^ 31) : int_cast x = (x : Int) := by
  rw [two_pow_31] at h
  unfold int_cast
  have h1 : x % 4294967296 = x := Nat.mod_eq_of_lt (by omega)
  rw [h1, if_pos h]

theorem int_cast_toNat {x : Nat} (h : x < 2 ^ 31) : (int_cast x).toNat = x := by
  rw [int_cast_of_lt h, Int.toNat_natCast]

theorem int_add_of_lt {a b : Nat} (h : a + b < 2 ^ 31) :
    int_add (a : Int) (b : Int) = ((a + b : Nat) : Int) := by
  rw [two_pow_31] at h
  unfold int_add
  rw [if_neg (by omega), if_neg (by omega)]
  push_cast
  rfl

theorem row_local_loop_length (S P i : Nat) : (row_local_loop S P i).1.length = i + 1 := by
  induction i with
  | zero => rfl
  | succ i ih => simp [row_local_loop, ih]

theorem row_local_loop_getD {S P : Nat} (hP : 0 < P) (hfit : S * P < 2 ^ 64) (i j : Nat)
    (hj : j ≤ i) (hi : i ≤ P) :
    (row_local_loop S P i).1.getD j 0 = block_begin S P j := by
  induction i with
  | zero =>
    have : j = 0 := by omega
    subst this
    simp [row_local_loop, block_begin_zero hP]
  | succ i ih =>
    have hl := row_local_loop_length S P i
    rcases Nat.lt_or_ge j (i + 1) with h | h
    · have := ih (by omega) (by omega)
      simp only [row_local_loop]
      rw [List.getD_append _ _ _ _ (by omega)]
      exact this
    · have : j = i + 1 := by omega
      subst this
      have hm : S * (i + 1) < 2 ^ 64 := lt_of_le_of_lt (Nat.mul_le_mul_left S hi) hfit
      simp only [row_local_loop]
      rw [List.getD_append_right _ _ _ _ (by omega), size_t_mul_of_lt hm]
      simp [hl, block_begin]

theorem row_local_begin_getD {S P : Nat} (hP : 0 < P) (hfit : S * P < 2 ^ 64) (j : Nat)
    (hj : j ≤ P) : (row_local_begin S P).getD j 0 = block_begin S P j :=
  row_local_loop_getD hP hfit P j hj le_rfl

theorem block_begin_lt_of_fit {S P : Nat} (hP : 0 < P) (hfit : S * P < 2 ^ 64) (j : Nat)
    (hj : j ≤ P) : block_begin S P j < 2 ^ 64 := by
  have h1 : block_begin S P j ≤ block_begin S P P := block_begin_mono hP hj
  rw [block_begin_last hP] at h1
  have h2 : S ≤ S * P := Nat.le_mul_of_pos_right S hP
  omega

theorem row_local_loop_max {S P : Nat} (hP : 0 < P) (hfit : S * P < 2 ^ 64) (i : Nat)
    (hi : i ≤ P) :
    (∀ j < i, block_len S P j ≤ (row_local_loop S P i).2) ∧
    (i = 0 ∧ (row_local_loop S P i).2 = 0 ∨
      ∃ j < i, (row_local_loop S P i).2 = block_len S P j) := by
  induction i with
  | zero => simp [row_local_loop]
  | succ i ih =>
    obtain ⟨ih1, ih2⟩ := ih (by omega)
    have e1 : (row_local_loop S P (i + 1)).1.getD (i + 1) 0 = block_begin S P (i + 1) :=
      row_local_loop_getD hP hfit _ _ le_rfl hi
    have e2 : (row_local_loop S P (i + 1)).1.getD i 0 = block_begin S P i :=
      row_local_loop_getD hP hfit _ _ (Nat.le_succ i) hi
    have e : (row_local_loop S P (i + 1)).2 =
        if block_len S P i > (row_local_loop S P i).2 then block_len S P i
        else (row_local_loop S P i).2 := by
      have : (row_local_loop S P (i + 1)).2 =
        if size_t_sub ((row_local_loop S P (i + 1)).1.getD (i + 1) 0)
              ((row_local_loop S P (i + 1)).1.getD i 0) > (row_local_loop S P i).2
        then size_t_sub ((row_local_loop S P (i + 1)).1.getD (i + 1) 0)
              ((row_local_loop S P (i + 1)).1.getD i 0)
        else (row_local_loop S P i).2 := rfl
      rw [this, e1, e2, size_t_sub_of_le (block_begin_mono hP (Nat.le_succ i))
        (block_begin_lt_of_fit hP hfit _ hi)]
      rfl
    rw [e]
    constructor
    · intro j hj
      rcases Nat.lt_or_ge j i with h | h
      · have := ih1 j h
        split_ifs <;> omega
      · have : j = i := by omega
        subst this
        split_ifs <;> omega
    · right
      split_ifs with hc
      · exact ⟨i, Nat.lt_succ_self i, rfl⟩
      · rcases ih2 with ⟨h0, hz⟩ | ⟨j, hj, hjm⟩
        · exact ⟨i, Nat.lt_succ_self i, by omega⟩
        · exact ⟨j, Nat.lt_succ_of_lt hj, hjm⟩

/-- Validity of a multi-index for a shape. -/
theorem lin_lt {shape idx : List Nat} (h : List.Forall₂ (· < ·) idx shape) :
    lin shape idx < shape.prod := by
  induction h with
  | nil => simp [lin]
  | @cons i s is ss h1 _ ih =>
    simp only [lin, List.prod_cons]
    calc i + s * lin ss is < s + s * lin ss is := by omega
      _ = s * (lin ss is + 1) := by ring
      _ ≤ s * ss.prod := Nat.mul_le_mul_left s ih

theorem unlin_lin {shape idx : List Nat} (h : List.Forall₂ (· < ·) idx shape) :
    unlin shape (lin shape idx) = idx := by
  induction h with
  | nil => simp [lin, unlin]
  | @cons i s is ss h1 _ ih =>
    have hs : 0 < s := by omega
    simp only [lin, unlin]
    rw [Nat.add_mul_mod_self_left, Nat.mod_eq_of_lt h1, Nat.add_mul_div_left _ _ hs,
      Nat.div_eq_of_lt h1, Nat.zero_add, ih]

theorem unlin_valid : ∀ (shape : List Nat) (p : Nat), p < shape.prod →
    List.Forall₂ (· < ·) (unlin shape p) shape
  | [], _, _ => List.Forall₂.nil
  | s :: ss, p, h => by
    simp only [List.prod_cons] at h
    have hs : 0 < s := by
      rcases Nat.eq_zero_or_pos s with h0 | h0
      · simp [h0] at h
      · exact h0
    refine List.Forall₂.cons (Nat.mod_lt _ hs) (unlin_valid ss (p / s) ?_)
    rw [Nat.div_lt_iff_lt_mul hs, Nat.mul_comm]
    exact h

theorem lin_unlin : ∀ (shape : List Nat) (p : Nat), p < shape.prod →
    lin shape (unlin shape p) = p
  | [], p, h => by simp at h; simp [lin, h]
  | s :: ss, p, h => by
    simp only [List.prod_cons] at h
    have hs : 0 < s := by
      rcases Nat.eq_zero_or_pos s with h0 | h0
      · simp [h0] at h
      · exact h0
    have h2 : p / s < ss.prod := by
      rw [Nat.div_lt_iff_lt_mul hs, Nat.mul_comm]
      exact h
    simp only [unlin, lin]
    rw [lin_unlin ss _ h2]
    exact Nat.mod_add_div p s

theorem rank_of_lt {par c : List Nat} (h : List.Forall₂ (· < ·) c par) :
    rank_of par c < par.prod := by
  induction h with
  | nil => simp [rank_of]
  | @cons i s is ss h1 _ ih =>
    simp only [rank_of, List.prod_cons]
    calc i * ss.prod + rank_of ss is < i * ss.prod + ss.prod := by omega
      _ = (i + 1) * ss.prod := by ring
      _ ≤ s * ss.prod := Nat.mul_le_mul_right _ h1

theorem coord_rank_of {par c : List Nat} (h : List.Forall₂ (· < ·) c par) :
    coord par (rank_of par c) = c := by
  induction h with
  | nil => simp [rank_of, coord]
  | @cons i s is ss h1 h2 ih =>
    have hr := rank_of_lt h2
    have hs : 0 < ss.prod := by omega
    simp only [rank_of, coord]
    rw [Nat.mul_comm i, Nat.mul_add_div hs, Nat.div_eq_of_lt hr, Nat.add_zero,
      Nat.mul_add_mod, Nat.mod_eq_of_lt hr, ih]

theorem coord_valid : ∀ (par : List Nat) (r : Nat), r < par.prod →
    List.Forall₂ (· < ·) (coord par r) par
  | [], _, _ => List.Forall₂.nil
  | s :: ss, r, h => by
    simp only [List.prod_cons] at h
    have hs : 0 < ss.prod := by
      rcases Nat.eq_zero_or_pos ss.prod with h0 | h0
      · simp [h0] at h
      · exact h0
    refine List.Forall₂.cons ?_ (coord_valid ss _ (Nat.mod_lt _ hs))
    rw [Nat.div_lt_iff_lt_mul hs]
    exact h

theorem rank_of_coord : ∀ (par : List Nat) (r : Nat), r < par.prod →
    rank_of par (coord par r) = r
  | [], r, h => by simp at h; simp [rank_of, h]
  | s :: ss, r, h => by
    simp only [List.prod_cons] at h
    have hs : 0 < ss.prod := by
      rcases Nat.eq_zero_or_pos ss.prod with h0 | h0
      · simp [h0] at h
      · exact h0
    simp only [coord, rank_of]
    rw [rank_of_coord ss _ (Nat.mod_lt _ hs)]
    exact Nat.div_add_mod' r ss.prod

theorem displs_of_mono (counts : Nat → Nat) {i j : Nat} (h : i ≤ j) :
    displs_of counts i ≤ displs_of counts j := by
  induction h with
  | refl => exact le_rfl
  | step _ ih => exact le_trans ih (Nat.le_add_right _ _)

theorem displs_of_eq_sum (counts : Nat → Nat) (i : Nat) :
    displs_of counts i = ∑ j in range i, counts j := by
  induction i with
  | zero => rfl
  | succ i ih => rw [displs_of, ih, sum_range_succ]

theorem place_blocks_at {α : Type} (blocks : Nat → Buf α) (counts : Nat → Nat) (buf : Buf α)
    (W r p : Nat) (hr : r < W) (hp : p < counts r) :
    place_blocks blocks counts (displs_of counts) buf W (displs_of counts r + p) = blocks r p := by
  induction W with
  | zero => omega
  | succ W ih =>
    simp only [place_blocks, write]
    rcases Nat.lt_or_ge r W with h | h
    · have hm : displs_of counts (r + 1) ≤ displs_of counts W := displs_of_mono counts h
      simp only [displs_of] at hm
      rw [if_neg (by omega)]
      exact ih h
    · have : r = W := by omega
      subst this
      rw [if_pos (by omega)]
      congr 1
      omega

theorem place_blocks_beyond {α : Type} (blocks : Nat → Buf α) (counts : Nat → Nat) (buf : Buf α)
    (W p : Nat) (hp : displs_of counts W ≤ p) :
    place_blocks blocks counts (displs_of counts) buf W p = buf p := by
  induction W with
  | zero => rfl
  | succ W ih =>
    simp only [place_blocks, write]
    simp only [displs_of] at hp
    rw [if_neg (by omega)]
    exact ih (by omega)

theorem sumBox_congr {α : Type} [AddCommMonoid α] : ∀ (shape : List Nat) (f g : List Nat → α),
    (∀ idx, List.Forall₂ (· < ·) idx shape → f idx = g idx) → sumBox shape f = sumBox shape g
  | [], f, g, h => h [] List.Forall₂.nil
  | s :: ss, f, g, h => by
    simp only [sumBox]
    refine sum_congr rfl fun i hi => ?_
    exact sumBox_congr ss _ _ fun idx hidx =>
      h (i :: idx) (List.Forall₂.cons (mem_range.1 hi) hidx)

theorem sumBox_sum_comm {α : Type} [AddCommMonoid α] : ∀ (shape : List Nat) (n : Nat)
    (h : List Nat → Nat → α),
    sumBox shape (fun idx => ∑ l in range n, h idx l) = ∑ l in range n, sumBox shape (fun idx => h idx l)
  | [], _, _ => rfl
  | s :: ss, n, h => by
    simp only [sumBox]
    rw [sum_comm]
    refine sum_congr rfl fun i _ => ?_
    exact sumBox_sum_comm ss n fun idx l => h (i :: idx) l

theorem sumBox_mul_left {α : Type} [CommSemiring α] : ∀ (shape : List Nat) (a : α)
    (f : List Nat → α), sumBox shape (fun idx => a * f idx) = a * sumBox shape f
  | [], _, _ => rfl
  | s :: ss, a, f => by
    simp only [sumBox]
    rw [mul_sum]
    refine sum_congr rfl fun i _ => ?_
    exact sumBox_mul_left ss a fun idx => f (i :: idx)

theorem sum_range_mul_eq {α : Type} [AddCommMonoid α] (n m : Nat) (F : Nat → α) :
    ∑ x in range (n * m), F x = ∑ q in range n, ∑ i in range m, F (q * m + i) := by
  induction n with
  | zero => simp
  | succ n ih => rw [Nat.succ_mul, sum_range_add, ih, sum_range_succ]

/-- A sum over offsets is the sum over the multi-indices of the shape. -/
theorem sum_range_prod_eq_sumBox {α : Type} [AddCommMonoid α] : ∀ (shape : List Nat)
    (F : Nat → α), ∑ p in range shape.prod, F p = sumBox shape (fun idx => F (lin shape idx))
  | [], F => by simp [sumBox, lin]
  | s :: ss, F => by
    simp only [sumBox, lin, List.prod_cons]
    rw [Nat.mul_comm, sum_range_mul_eq, sum_comm]
    refine sum_congr rfl fun i _ => ?_
    rw [sum_range_prod_eq_sumBox ss (fun q => F (q * s + i))]
    refine sumBox_congr _ _ _ fun idx _ => ?_
    congr 1
    ring

/-- A sum over ranks is the sum over the grid coordinates. -/
theorem sum_range_prod_eq_sumBox_rank {α : Type} [AddCommMonoid α] : ∀ (par : List Nat)
    (F : Nat → α), ∑ r in range par.prod, F r = sumBox par (fun c => F (rank_of par c))
  | [], F => by simp [sumBox, rank_of]
  | s :: ss, F => by
    simp only [sumBox, rank_of, List.prod_cons]
    rw [sum_range_mul_eq]
    refine sum_congr rfl fun i _ => ?_
    rw [sum_range_prod_eq_sumBox_rank ss (fun q => F (i * ss.prod + q))]

theorem sum_block_len_upto {α : Type} [AddCommMonoid α] {S P : Nat} (hP : 0 < P)
    (f : Nat → α) (k : Nat) :
    ∑ c in range k, ∑ l in range (block_len S P c), f (block_begin S P c + l) =
      ∑ g in range (block_begin S P k), f g := by
  induction k with
  | zero => simp [block_begin_zero hP]
  | succ k ih => rw [sum_range_succ, ih, block_begin_succ hP, sum_range_add]

/-- The blocks of one mode tile `[0, S)`. -/
theorem sum_blocks {α : Type} [AddCommMonoid α] {S P : Nat} (hP : 0 < P) (f : Nat → α) :
    ∑ c in range P, ∑ l in range (block_len S P c), f (block_begin S P c + l) =
      ∑ g in range S, f g := by
  rw [sum_block_len_upto hP, block_begin_last hP]

theorem sum_block_len {S P : Nat} (hP : 0 < P) : ∑ c in range P, block_len S P c = S := by
  have := sum_blocks (S := S) hP (fun _ => 1)
  simpa using this

/-- The local blocks of all processes tile the global index box. -/
theorem sumBox_blocks {α : Type} [AddCommMonoid α] : ∀ (par I : List Nat),
    par.length = I.length → (∀ P ∈ par, 0 < P) → ∀ (F : List Nat → α),
    sumBox I F = sumBox par (fun c => sumBox (local_shape par c I)
      (fun l => F (List.zipWith (· + ·) (local_begin par c I) l)))
  | [], [], _, _, F => by simp [sumBox, local_shape, local_begin]
  | [], _ :: _, h, _, _ => by simp at h
  | _ :: _, [], h, _, _ => by simp at h
  | P :: ps, S :: ss, h, hpos, F => by
    have hP : 0 < P := hpos P (List.mem_cons_self _ _)
    have hps : ∀ Q ∈ ps, 0 < Q := fun Q hQ => hpos Q (List.mem_cons_of_mem _ hQ)
    have hl : ps.length = ss.length := by simpa using h
    simp only [sumBox, local_shape, local_begin, List.zipWith_cons_cons]
    rw [← sum_blocks hP]
    refine sum_congr rfl fun c _ => ?_
    rw [sumBox_sum_comm]
    refine sum_congr rfl fun l _ => ?_
    exact sumBox_blocks ps ss hl hps fun gs => F ((block_begin S P c + l) :: gs)

theorem sumBox_local_shape_prod : ∀ (par I : List Nat),
    par.length = I.length → (∀ P ∈ par, 0 < P) →
    sumBox par (fun c => (local_shape par c I).prod) = I.prod
  | [], [], _, _ => by simp [sumBox, local_shape]
  | [], _ :: _, h, _ => by simp at h
  | _ :: _, [], h, _ => by simp at h
  | P :: ps, S :: ss, h, hpos => by
    have hP : 0 < P := hpos P (List.mem_cons_self _ _)
    have hps : ∀ Q ∈ ps, 0 < Q := fun Q hQ => hpos Q (List.mem_cons_of_mem _ hQ)
    have hl : ps.length = ss.length := by simpa using h
    simp only [sumBox, local_shape, List.prod_cons]
    have : ∀ c ∈ range P, sumBox ps (fun cs => block_len S P c * (local_shape ps cs ss).prod)
        = block_len S P c * ss.prod := by
      intro c _
      rw [sumBox_mul_left, sumBox_local_shape_prod ps ss hl hps]
    rw [sum_congr rfl this, ← sum_mul, sum_block_len hP]

theorem sum_local_size (par I : List Nat) (hl : par.length = I.length)
    (hpos : ∀ P ∈ par, 0 < P) :
    ∑ r in range par.prod, local_size par r I = I.prod := by
  rw [sum_range_prod_eq_sumBox_rank, ← sumBox_local_shape_prod par I hl hpos]
  refine sumBox_congr _ _ _ fun c hc => ?_
  rw [local_size, coord_rank_of hc]

theorem block_begin_le_iff {S P : Nat} (hP : 0 < P) (hS : 0 < S) (c g : Nat) :
    block_begin S P c ≤ g ↔ c ≤ block_owner S P g := by
  unfold block_begin block_owner
  rw [ceildiv_le_iff hP, Nat.le_div_iff_mul_le hS, Nat.mul_comm]

theorem block_owner_lt {S P g : Nat} (hP : 0 < P) (hg : g < S) : block_owner S P g < P := by
  unfold block_owner
  rw [Nat.div_lt_iff_lt_mul (by omega), Nat.mul_comm P S]
  exact Nat.mul_lt_mul_of_pos_right hg hP

theorem block_owner_begin_le {S P g : Nat} (hP : 0 < P) (hg : g < S) :
    block_begin S P (block_owner S P g) ≤ g :=
  (block_begin_le_iff hP (by omega) _ _).2 le_rfl

theorem block_owner_sub_lt {S P g : Nat} (hP : 0 < P) (hg : g < S) :
    g - block_begin S P (block_owner S P g) < block_len S P (block_owner S P g) := by
  have h1 := block_owner_begin_le hP hg
  have h2 : ¬ block_begin S P (block_owner S P g + 1) ≤ g := by
    rw [block_begin_le_iff hP (by omega)]
    omega
  have h3 := block_begin_succ (S := S) hP (block_owner S P g)
  omega

theorem block_add_lt {S P c l : Nat} (hP : 0 < P) (hc : c < P) (hl : l < block_len S P c) :
    block_begin S P c + l < S := by
  have h1 := block_begin_succ (S := S) hP c
  have h2 : block_begin S P (c + 1) ≤ block_begin S P P := block_begin_mono hP hc
  rw [block_begin_last hP] at h2
  omega

theorem block_owner_add {S P c l : Nat} (hP : 0 < P) (hc : c < P) (hl : l < block_len S P c) :
    block_owner S P (block_begin S P c + l) = c := by
  have hS : 0 < S := by have := block_add_lt hP hc hl; omega
  have h1 : c ≤ block_owner S P (block_begin S P c + l) :=
    (block_begin_le_iff hP hS _ _).1 (Nat.le_add_right _ _)
  have h2 : ¬ c + 1 ≤ block_owner S P (block_begin S P c + l) := by
    rw [← block_begin_le_iff hP hS, block_begin_succ hP]
    omega
  omega

theorem owner_coord_valid : ∀ (par I g : List Nat), par.length = I.length →
    (∀ P ∈ par, 0 < P) → List.Forall₂ (· < ·) g I →
    List.Forall₂ (· < ·) (owner_coord par I g) par
  | [], [], _, _, _, _ => by simp [owner_coord]
  | [], _ :: _, _, h, _, _ => by simp at h
  | _ :: _, [], _, h, _, _ => by simp at h
  | P :: ps, S :: ss, [], _, _, hg => by cases hg
  | P :: ps, S :: ss, g :: gs, h, hpos, hg => by
    have hP : 0 < P := hpos P (List.mem_cons_self _ _)
    have hps : ∀ Q ∈ ps, 0 < Q := fun Q hQ => hpos Q (List.mem_cons_of_mem _ hQ)
    have hl : ps.length = ss.length := by simpa using h
    rw [List.forall₂_cons] at hg
    exact List.Forall₂.cons (block_owner_lt hP hg.1) (owner_coord_valid ps ss gs hl hps hg.2)

theorem owner_local_valid : ∀ (par I g : List Nat), par.length = I.length →
    (∀ P ∈ par, 0 < P) → List.Forall₂ (· < ·) g I →
    List.Forall₂ (· < ·)
      (List.zipWith (· - ·) g (local_begin par (owner_coord par I g) I))
      (local_shape par (owner_coord par I g) I)
  | [], [], _, _, _, hg => by cases hg; simp [owner_coord, local_begin, local_shape]
  | [], _ :: _, _, h, _, _ => by simp at h
  | _ :: _, [], _, h, _, _ => by simp at h
  | P :: ps, S :: ss, [], _, _, hg => by cases hg
  | P :: ps, S :: ss, g :: gs, h, hpos, hg => by
    have hP : 0 < P := hpos P (List.mem_cons_self _ _)
    have hps : ∀ Q ∈ ps, 0 < Q := fun Q hQ => hpos Q (List.mem_cons_of_mem _ hQ)
    have hl : ps.length = ss.length := by simpa using h
    rw [List.forall₂_cons] at hg
    simp only [owner_coord, local_begin, local_shape, List.zipWith_cons_cons]
    exact List.Forall₂.cons (block_owner_sub_lt hP hg.1) (owner_local_valid ps ss gs hl hps hg.2)

theorem owner_begin_add_sub : ∀ (par I g : List Nat), par.length = I.length →
    (∀ P ∈ par, 0 < P) → List.Forall₂ (· < ·) g I →
    List.zipWith (· + ·) (local_begin par (owner_coord par I g) I)
      (List.zipWith (· - ·) g (local_begin par (owner_coord par I g) I)) = g
  | [], [], _, _, _, hg => by cases hg; simp [owner_coord, local_begin]
  | [], _ :: _, _, h, _, _ => by simp at h
  | _ :: _, [], _, h, _, _ => by simp at h
  | P :: ps, S :: ss, [], _, _, hg => by cases hg
  | P :: ps, S :: ss, g :: gs, h, hpos, hg => by
    have hP : 0 < P := hpos P (List.mem_cons_self _ _)
    have hps : ∀ Q ∈ ps, 0 < Q := fun Q hQ => hpos Q (List.mem_cons_of_mem _ hQ)
    have hl : ps.length = ss.length := by simpa using h
    rw [List.forall₂_cons] at hg
    simp only [owner_coord, local_begin, List.zipWith_cons_cons]
    rw [owner_begin_add_sub ps ss gs hl hps hg.2]
    have := block_owner_begin_le hP hg.1
    congr 1
    omega

/-- A local multi-index of the process with coordinate `c`, shifted by the
begin of its block, is a global multi-index owned by `c`. -/
theorem local_to_global : ∀ (par I c l : List Nat), par.length = I.length →
    (∀ P ∈ par, 0 < P) → List.Forall₂ (· < ·) c par →
    List.Forall₂ (· < ·) l (local_shape par c I) →
    List.Forall₂ (· < ·) (List.zipWith (· + ·) (local_begin par c I) l) I ∧
    owner_coord par I (List.zipWith (· + ·) (local_begin par c I) l) = c ∧
    List.zipWith (· - ·) (List.zipWith (· + ·) (local_begin par c I) l)
      (local_begin par c I) = l
  | [], [], _, _, _, _, hc, hl => by
    cases hc
    simp only [local_shape] at hl
    cases hl
    simp [owner_coord, local_begin]
  | [], _ :: _, _, _, h, _, _, _ => by simp at h
  | _ :: _, [], _, _, h, _, _, _ => by simp at h
  | P :: ps, S :: ss, [], _, _, _, hc, _ => by cases hc
  | P :: ps, S :: ss, c :: cs, [], _, _, _, hl => by simp [local_shape] at hl
  | P :: ps, S :: ss, c :: cs, l :: ls, h, hpos, hc, hl => by
    have hP : 0 < P := hpos P (List.mem_cons_self _ _)
    have hps : ∀ Q ∈ ps, 0 < Q := fun Q hQ => hpos Q (List.mem_cons_of_mem _ hQ)
    have hlen : ps.length = ss.length := by simpa using h
    rw [List.forall₂_cons] at hc
    simp only [local_shape, List.forall₂_cons] at hl
    obtain ⟨ih1, ih2, ih3⟩ := local_to_global ps ss cs ls hlen hps hc.2 hl.2
    simp only [owner_coord, local_begin, List.zipWith_cons_cons]
    refine ⟨List.Forall₂.cons (block_add_lt hP hc.1 hl.1) ih1, ?_, ?_⟩
    · rw [block_owner_add hP hc.1 hl.1, ih2]
    · rw [ih3]
      congr 1
      omega

theorem pos_of_prod_pos {par : List Nat} (h : 0 < par.prod) : ∀ P ∈ par, 0 < P := by
  intro P hP
  rcases Nat.eq_zero_or_pos P with h0 | h0
  · subst h0
    have := List.prod_eq_zero hP
    omega
  · exact h0

theorem local_size_rank_of {par I c : List Nat} (hc : List.Forall₂ (· < ·) c par) :
    local_size par (rank_of par c) I = (local_shape par c I).prod := by
  rw [local_size, coord_rank_of hc]

/-- What `gatherv` followed by the reordering leaves at the offset of a global
multi-index. -/
theorem reorder_from_gather_at {α : Type} (par I : List Nat) (blocks : Nat → Buf α)
    (buf : Buf α) (hl : par.length = I.length) (hpos : ∀ P ∈ par, 0 < P)
    (g : List Nat) (hg : List.Forall₂ (· < ·) g I) :
    reorder_from_gather_cartesian_block
      (place_blocks blocks (fun i => local_size par i I)
        (displs_of (fun i => local_size par i I)) buf par.prod)
      I par (displs_of (fun i => local_size par i I)) (lin I g) =
    blocks (rank_of par (owner_coord par I g))
      (lin (local_shape par (owner_coord par I g) I)
        (List.zipWith (· - ·) g (local_begin par (owner_coord par I g) I))) := by
  have hc := owner_coord_valid par I g hl hpos hg
  have hv := owner_local_valid par I g hl hpos hg
  simp only [reorder_from_gather_cartesian_block]
  rw [if_pos (lin_lt hg), unlin_lin hg]
  apply place_blocks_at _ _ _ _ _ _ (rank_of_lt hc)
  show _ < local_size par _ I
  rw [local_size_rank_of hc]
  exact lin_lt hv

theorem int_displs_eq (c : Nat → Nat) (W : Nat) (h : displs_of c W < 2 ^ 31) :
    ∀ r ≤ W, int_displs (fun i => int_cast (c i)) r = (displs_of c r : Int) := by
  intro r hr
  induction r with
  | zero => rfl
  | succ r ih =>
    have h1 : displs_of c (r + 1) ≤ displs_of c W := displs_of_mono c hr
    have h2 : displs_of c (r + 1) = displs_of c r + c r := rfl
    have hc : c r < 2 ^ 31 := by omega
    rw [int_displs, ih (by omega), int_cast_of_lt hc, int_add_of_lt (by omega), h2]

theorem int_displs_toNat (c : Nat → Nat) (W : Nat) (h : displs_of c W < 2 ^ 31) (r : Nat)
    (hr : r ≤ W) : (int_displs (fun i => int_cast (c i)) r).toNat = displs_of c r := by
  rw [int_displs_eq c W h r hr, Int.toNat_natCast]

theorem displs_of_succ_le (c : Nat → Nat) (W r : Nat) (hr : r < W) :
    c r ≤ displs_of c W := by
  have h1 : displs_of c (r + 1) ≤ displs_of c W := displs_of_mono c hr
  have h2 : displs_of c (r + 1) = displs_of c r + c r := rfl
  omega

theorem place_blocks_congr_args {α : Type} (blocks : Nat → Buf α) (c1 c2 d1 d2 : Nat → Nat)
    (buf : Buf α) (W : Nat) (hc : ∀ i < W, c1 i = c2 i) (hd : ∀ i < W, d1 i = d2 i) :
    place_blocks blocks c1 d1 buf W = place_blocks blocks c2 d2 buf W := by
  induction W with
  | zero => rfl
  | succ W ih =>
    simp only [place_blocks]
    rw [ih (fun i hi => hc i (Nat.lt_succ_of_lt hi)) (fun i hi => hd i (Nat.lt_succ_of_lt hi)),
      hc W (Nat.lt_succ_self W), hd W (Nat.lt_succ_self W)]

theorem reorder_from_gather_congr {α : Type} (data : Buf α) (par I : List Nat)
    (d1 d2 : Nat → Nat) (hl : par.length = I.length) (hpos : ∀ P ∈ par, 0 < P)
    (h : ∀ r < par.prod, d1 r = d2 r) :
    reorder_from_gather_cartesian_block data I par d1 =
      reorder_from_gather_cartesian_block data I par d2 := by
  funext pos
  simp only [reorder_from_gather_cartesian_block]
  split_ifs with hp
  · rw [h _ (rank_of_lt (owner_coord_valid par I _ hl hpos (unlin_valid I pos hp)))]
  · rfl

/-- The `int` arrays `recvcounts` and `displs` of `gather` and `scatter` hold
the local sizes and their prefix sums when the tensor has fewer than `2^31`
elements. -/
theorem int_counts_fit (par I : List Nat) (hl : par.length = I.length)
    (hW : 0 < par.prod) (hfit : I.prod < 2 ^ 31) :
    (∀ i < par.prod, (int_cast (local_size par i I)).toNat = local_size par i I) ∧
    (∀ i ≤ par.prod, (int_displs (fun i => int_cast (local_size par i I)) i).toNat =
      displs_of (fun i => local_size par i I) i) := by
  have htot : displs_of (fun i => local_size par i I) par.prod = I.prod := by
    rw [displs_of_eq_sum, sum_local_size par I hl (pos_of_prod_pos hW)]
  constructor
  · intro i hi
    have h0 : local_size par i I ≤ displs_of (fun i => local_size par i I) par.prod :=
      displs_of_succ_le (fun i => local_size par i I) par.prod i hi
    exact int_cast_toNat (by omega)
  · intro i hi
    exact int_displs_toNat _ par.prod (by omega) i hi

theorem gather_distributed {α : Type} (par I : List Nat) (data mem : Nat → Buf α) (r : Nat)
    (hl : par.length = I.length) (hW : 0 < par.prod) (hfit : I.prod < 2 ^ 31) :
    ∃ T, gather par.prod (distributed par I data) mem r = .ok T ∧
      T.distribution = some .kGlobal ∧ T.shape_global = I ∧ T.shape = I ∧
      ∀ pos < I.prod, T.data pos =
        reorder_from_gather_cartesian_block
          (place_blocks data (fun i => local_size par i I)
            (displs_of (fun i => local_size par i I)) (mem 0) par.prod)
          I par (displs_of (fun i => local_size par i I)) pos := by
  obtain ⟨hc, hd⟩ := int_counts_fit par I hl hW hfit
  have e1 := place_blocks_congr_args data _ _ _ _ (mem 0) par.prod hc
    (fun i hi => hd i (Nat.le_of_lt hi))
  have e2 := fun d => reorder_from_gather_congr (α := α) d par I _ _ hl (pos_of_prod_pos hW)
    (fun i hi => hd i (Nat.le_of_lt hi))
  have hsz : (int_cast I.prod).toNat = I.prod := int_cast_toNat hfit
  refine ⟨_, rfl, rfl, rfl, rfl, ?_⟩
  intro pos hpos
  rw [← e1, ← e2]
  by_cases hr : r = 0
  · simp [hr, distributed, Tensor.new_distributed, Tensor.new_global]
  · simp [hr, distributed, Tensor.new_distributed, Tensor.new_global, write, Tensor.size, hpos,
      hsz]

/-- The gathered tensor of fewer than `2^31` elements holds, at the offset of
every global multi-index, the element of the distributed tensor with that
multi-index. -/
theorem gather_elem {α : Type} (par I : List Nat) (data mem : Nat → Buf α) (r : Nat)
    (hl : par.length = I.length) (hW : 0 < par.prod) (hfit : I.prod < 2 ^ 31) :
    ∃ T, gather par.prod (distributed par I data) mem r = .ok T ∧
      T.distribution = some .kGlobal ∧ T.shape_global = I ∧ T.shape = I ∧
      ∀ g, List.Forall₂ (· < ·) g I → T.data (lin I g) = global_elem par I data g := by
  obtain ⟨T, h1, h2, h3, h4, h5⟩ := gather_distributed par I data mem r hl hW hfit
  refine ⟨T, h1, h2, h3, h4, fun g hg => ?_⟩
  rw [h5 _ (lin_lt hg), reorder_from_gather_at par I data _ hl (pos_of_prod_pos hW) g hg]
  rfl

/-- The block that `scatterv` delivers to rank `r`. -/
theorem reorder_for_scatter_at {α : Type} (par I : List Nat) (data : Buf α) (r p : Nat)
    (hr : r < par.prod) (hp : p < local_size par r I) :
    reorder_for_scatter_cartesian_block data I par (displs_of (fun i => local_size par i I))
      (displs_of (fun i => local_size par i I) r + p) = cut_block data I par r p :=
  place_blocks_at (cut_block data I par) (fun i => local_size par i I) data par.prod r p hr hp

theorem global_elem_cut_block {α : Type} (par I : List Nat) (T : Buf α)
    (hl : par.length = I.length) (hpos : ∀ P ∈ par, 0 < P)
    (g : List Nat) (hg : List.Forall₂ (· < ·) g I) :
    global_elem par I (cut_block T I par) g = T (lin I g) := by
  have hc := owner_coord_valid par I g hl hpos hg
  have hv := owner_local_valid par I g hl hpos hg
  simp only [global_elem, cut_block]
  rw [coord_rank_of hc, unlin_lin hv, owner_begin_add_sub par I g hl hpos hg]

theorem global_elem_congr {α : Type} (par I : List Nat) (d1 d2 : Nat → Buf α)
    (hl : par.length = I.length) (hpos : ∀ P ∈ par, 0 < P)
    (h : ∀ r < par.prod, ∀ p < local_size par r I, d1 r p = d2 r p)
    (g : List Nat) (hg : List.Forall₂ (· < ·) g I) :
    global_elem par I d1 g = global_elem par I d2 g := by
  have hc := owner_coord_valid par I g hl hpos hg
  have hv := owner_local_valid par I g hl hpos hg
  simp only [global_elem]
  apply h _ (rank_of_lt hc)
  rw [local_size_rank_of hc]
  exact lin_lt hv

theorem place_blocks_congr {α : Type} (b1 b2 : Nat → Buf α) (counts displs : Nat → Nat)
    (buf : Buf α) (W : Nat) (h : ∀ i < W, b1 i = b2 i) :
    place_blocks b1 counts displs buf W = place_blocks b2 counts displs buf W := by
  induction W with
  | zero => rfl
  | succ W ih =>
    simp only [place_blocks]
    rw [ih (fun i hi => h i (Nat.lt_succ_of_lt hi)), h W (Nat.lt_succ_self W)]

theorem gather_congr {α : Type} (W : Nat) (A B : Nat → Tensor α) (mem : Nat → Buf α) (r : Nat)
    (hr : r < W) (h : ∀ i < W, A i = B i) : gather W A mem r = gather W B mem r := by
  have h0 : A 0 = B 0 := h 0 (by omega)
  have hb : ∀ i < W, (fun i => (A i).data) i = (fun i => (B i).data) i := fun i hi => by
    simp only [h i hi]
  simp only [gather, h r hr, h0]
  cases (B r).distribution with
  | none => rfl
  | some d =>
    cases d with
    | kLocal => rfl
    | kGlobal => rfl
    | kCartesianBlock par rk =>
      cases (B 0).distribution with
      | none => rfl
      | some d0 =>
        cases d0 with
        | kLocal => rfl
        | kGlobal => rfl
        | kCartesianBlock par0 rk0 =>
          simp only
          rw [place_blocks_congr _ _ _ _ _ W hb]

/-- The result of `scatter` on rank `r` for an undistributed (or Local) source. -/
theorem scatter_local {α : Type} (par I : List Nat) (A : Nat → Tensor α) (proc : Nat)
    (mem : Nat → Buf α) (hshape : ∀ r, (A r).shape = I)
    (hdist : ∀ r, (A r).distribution = none ∨ (A r).distribution = some .kLocal)
    (r : Nat) :
    scatter A (fun i => .kCartesianBlock par i) proc mem r =
      .ok (distributed par I (fun i => write (mem i) 0
        (fun p => reorder_for_scatter_cartesian_block (A proc).data I par
          (fun j => (int_displs (fun k => int_cast (local_size par k I)) j).toNat)
          ((int_displs (fun k => int_cast (local_size par k I)) i).toNat + p))
        (int_cast (local_size par i I)).toNat) r) := by
  simp only [scatter, hshape, Distribution.partition]
  rcases hdist r with h | h <;> rw [h] <;> rfl

/-- The block that `scatter` stores on rank `r` when the tensor has fewer than
`2^31` elements. -/
theorem scatter_local_data {α : Type} (par I : List Nat) (T : Buf α) (mem : Nat → Buf α)
    (hl : par.length = I.length) (hW : 0 < par.prod) (hfit : I.prod < 2 ^ 31)
    (r p : Nat) (hr : r < par.prod) (hp : p < local_size par r I) :
    write (mem r) 0 (fun p => reorder_for_scatter_cartesian_block T I par
          (fun j => (int_displs (fun k => int_cast (local_size par k I)) j).toNat)
          ((int_displs (fun k => int_cast (local_size par k I)) r).toNat + p))
        (int_cast (local_size par r I)).toNat p =
      cut_block T I par r p := by
  obtain ⟨hc, hd⟩ := int_counts_fit par I hl hW hfit
  have e : reorder_for_scatter_cartesian_block T I par
      (fun j => (int_displs (fun k => int_cast (local_size par k I)) j).toNat) =
      reorder_for_scatter_cartesian_block T I par (displs_of (fun i => local_size par i I)) :=
    place_blocks_congr_args _ _ _ _ _ _ par.prod (fun _ _ => rfl)
      (fun i hi => hd i (Nat.le_of_lt hi))
  rw [hc r hr, hd r (Nat.le_of_lt hr), e]
  simp only [write]
  rw [if_pos ⟨Nat.zero_le _, by omega⟩]
  exact reorder_for_scatter_at par I T r p hr hp

/-- Counterexample to C5: for `S = 2^63` and `P = 4` the products `S·2` and
`S·4` wrap to `0` in `size_t`, so `ttm` stores the boundaries
`0, 2^61, 0, 2^61, 0`: the last one is not `S`, the boundaries decrease, and
`row_local_max` is the wrapped difference `2^64 - 2^61`. -/
theorem row_local_begin_wraps :
    row_local_begin (2 ^ 63) 4 = [0, 2 ^ 61, 0, 2 ^ 61, 0] ∧
    row_local_max (2 ^ 63) 4 = 2 ^ 64 - 2 ^ 61 ∧
    (row_local_begin (2 ^ 63) 4).getD 2 0 ≠ DIANA_CEILDIV (2 ^ 63 * 2) 4 ∧
    (row_local_begin (2 ^ 63) 4).getD 4 0 ≠ 2 ^ 63 ∧
    ¬ (row_local_begin (2 ^ 63) 4).getD 1 0 ≤ (row_local_begin (2 ^ 63) 4).getD 2 0 := by
  decide

/-- C5 (amended): for every extent `S` and every `P ≥ 1` with
`S·P + P ≤ 2^64` (neither a product `S·i` of the loop nor the rounding
`S·i + P - 1` of a ceiling division computed in `size_t` wraps) the vector
`row_local_begin` built by `ttm` holds the `P + 1` block boundaries
`b[i] = ⌈S·i/P⌉`; they start at `0`, end at `S`, are non-decreasing, any two
block lengths differ by at most one, and `row_local_max` is the largest block
length. -/
theorem row_local_begin_balanced (S P : Nat) (hP : 1 ≤ P) (hbound : S * P + P ≤ 2 ^ 64) :
    (row_local_begin S P).length = P + 1 ∧
    (∀ i ≤ P, (row_local_begin S P).getD i 0 = DIANA_CEILDIV (S * i) P) ∧
    (∀ i, S * i ≤ DIANA_CEILDIV (S * i) P * P ∧ DIANA_CEILDIV (S * i) P * P < S * i + P) ∧
    (row_local_begin S P).getD 0 0 = 0 ∧
    (row_local_begin S P).getD P 0 = S ∧
    (∀ i < P, (row_local_begin S P).getD i 0 ≤ (row_local_begin S P).getD (i + 1) 0) ∧
    (∀ i < P, ∀ j < P,
      (row_local_begin S P).getD (i + 1) 0 - (row_local_begin S P).getD i 0 ≤
        (row_local_begin S P).getD (j + 1) 0 - (row_local_begin S P).getD j 0 + 1) ∧
    (∀ i < P, (row_local_begin S P).getD (i + 1) 0 - (row_local_begin S P).getD i 0
      ≤ row_local_max S P) ∧
    (∃ i < P, row_local_max S P =
      (row_local_begin S P).getD (i + 1) 0 - (row_local_begin S P).getD i 0) := by
  have hP0 : 0 < P := hP
  have hfit : S * P < 2 ^ 64 := by omega
  have hb : ∀ i ≤ P, (row_local_begin S P).getD i 0 = block_begin S P i :=
    fun i hi => row_local_begin_getD hP0 hfit i hi
  have hd : ∀ i < P, (row_local_begin S P).getD (i + 1) 0 - (row_local_begin S P).getD i 0
      = block_len S P i := fun i hi => by
    rw [hb i (Nat.le_of_lt hi), hb (i + 1) hi]
    rfl
  refine ⟨row_local_loop_length S P P, hb, ?_, ?_, ?_, ?_, ?_, ?_, ?_⟩
  · intro i
    refine ⟨(ceildiv_le_iff hP0 _).1 le_rfl, ?_⟩
    by_contra hc
    push_neg at hc
    have h1 : 0 < DIANA_CEILDIV (S * i) P := by
      rcases Nat.eq_zero_or_pos (DIANA_CEILDIV (S * i) P) with h0 | h0
      · rw [h0] at hc; omega
      · exact h0
    have h2 : DIANA_CEILDIV (S * i) P ≤ DIANA_CEILDIV (S * i) P - 1 := by
      rw [ceildiv_le_iff hP0, Nat.sub_mul]
      omega
    omega
  · rw [hb 0 (Nat.zero_le _), block_begin_zero hP0]
  · rw [hb P le_rfl, block_begin_last hP0]
  · intro i hi
    rw [hb i (Nat.le_of_lt hi), hb (i + 1) hi]
    exact block_begin_mono hP0 (Nat.le_add_right i 1)
  · intro i hi j hj
    rw [hd i hi, hd j hj]
    have h1 := block_len_le (S := S) hP0 i
    have h2 := block_len_ge (S := S) hP0 j
    have h3 := ceildiv_le_div_succ (S := S) hP0
    omega
  · intro i hi
    rw [hd i hi]
    exact (row_local_loop_max hP0 hfit P le_rfl).1 i hi
  · rcases (row_local_loop_max hP0 hfit P le_rfl).2 with ⟨h0, _⟩ | ⟨j, hj, hjm⟩
    · omega
    · exact ⟨j, hj, by rw [hd j hj]; exact hjm⟩

/-- Witness of the amended C5: `S = 10`, `P = 3` gives the offsets `0, 4, 7` (and the end
`10`), the lengths `4, 3, 3` and `row_local_max = 4`. -/
theorem row_local_begin_balanced_witness :
    row_local_begin 10 3 = [0, 4, 7, 10] ∧ row_local_max 10 3 = 4 ∧
    (List.range 3).map (block_len 10 3) = [4, 3, 3] ∧
    ((row_local_begin 10 3).length = 3 + 1 ∧
    (∀ i ≤ 3, (row_local_begin 10 3).getD i 0 = DIANA_CEILDIV (10 * i) 3) ∧
    (∀ i, 10 * i ≤ DIANA_CEILDIV (10 * i) 3 * 3 ∧ DIANA_CEILDIV (10 * i) 3 * 3 < 10 * i + 3) ∧
    (row_local_begin 10 3).getD 0 0 = 0 ∧
    (row_local_begin 10 3).getD 3 0 = 10 ∧
    (∀ i < 3, (row_local_begin 10 3).getD i 0 ≤ (row_local_begin 10 3).getD (i + 1) 0) ∧
    (∀ i < 3, ∀ j < 3,
      (row_local_begin 10 3).getD (i + 1) 0 - (row_local_begin 10 3).getD i 0 ≤
        (row_local_begin 10 3).getD (j + 1) 0 - (row_local_begin 10 3).getD j 0 + 1) ∧
    (∀ i < 3, (row_local_begin 10 3).getD (i + 1) 0 - (row_local_begin 10 3).getD i 0
      ≤ row_local_max 10 3) ∧
    (∃ i < 3, row_local_max 10 3 =
      (row_local_begin 10 3).getD (i + 1) 0 - (row_local_begin 10 3).getD i 0)) :=
  ⟨by decide, by decide, by decide, row_local_begin_balanced 10 3 (by decide) (by norm_num)⟩

/-- Counterexample to C8: a tensor of shape `(2^33)` with all elements `1`,
scattered from rank `0` over the partition `(2)` and gathered again.  Both
local sizes `2^32` are converted to the `int` `0`, so neither collective moves
an element: `scatter` and `gather` return, and the gathered tensor holds the
contents `0` of its fresh memory where the original holds `1`. -/
theorem gather_scatter_wraps :
    ∃ (B : Nat → Tensor Int) (G : Tensor Int),
      (∀ r, scatter (fun _ => ⟨none, [2 ^ 33], [2 ^ 33], fun _ => 1⟩)
        (fun i => .kCartesianBlock [2] i) 0 (fun _ _ => 0) r = .ok (B r)) ∧
      gather [2].prod B (fun _ _ => 0) 0 = .ok G ∧
      G.shape = [2 ^ 33] ∧ G.data 0 = 0 ∧ G.data 0 ≠ 1 :=
  ⟨_, _, fun _ => rfl, rfl, rfl, by decide, by decide⟩

/-- C8 (amended): for a tensor `T` of shape `I` with `∏ I < 2^31` (every count
and displacement fits an `int`) held by the root `proc` without a
distribution descriptor (or as Local), and the block distribution over a
partition `par` of `W ≥ 1` processes, `scatter` returns a tensor on every
rank, and `gather` of these tensors returns on every rank a tensor of shape `I`
whose elements are those of `T`. -/
theorem gather_scatter_roundtrip {α : Type} (par I : List Nat) (A : Nat → Tensor α)
    (proc : Nat) (mem mem2 : Nat → Buf α)
    (hl : par.length = I.length) (hW : 0 < par.prod) (hfit : I.prod < 2 ^ 31)
    (hshape : ∀ r, (A r).shape = I)
    (hdist : ∀ r, (A r).distribution = none ∨ (A r).distribution = some .kLocal) :
    ∃ B : Nat → Tensor α,
      (∀ r, scatter A (fun i => .kCartesianBlock par i) proc mem r = .ok (B r)) ∧
      ∀ r < par.prod, ∃ G, gather par.prod B mem2 r = .ok G ∧
        G.shape = (A proc).shape ∧ ∀ pos < (A proc).size, G.data pos = (A proc).data pos := by
  have hpos := pos_of_prod_pos hW
  refine ⟨_, fun r => scatter_local par I A proc mem hshape hdist r, fun r _ => ?_⟩
  obtain ⟨G, h1, _, _, h4, h5⟩ := gather_elem par I (fun i => write (mem i) 0
        (fun p => reorder_for_scatter_cartesian_block (A proc).data I par
          (fun j => (int_displs (fun k => int_cast (local_size par k I)) j).toNat)
          ((int_displs (fun k => int_cast (local_size par k I)) i).toNat + p))
        (int_cast (local_size par i I)).toNat) mem2 r hl hW hfit
  refine ⟨G, h1, by rw [h4, hshape], fun pos hp => ?_⟩
  have hp' : pos < I.prod := by
    have : (A proc).size = I.prod := by rw [Tensor.size, hshape]
    omega
  have hg := unlin_valid I pos hp'
  have e := h5 _ hg
  rw [lin_unlin I pos hp'] at e
  rw [e, global_elem_congr par I _ (cut_block (A proc).data I par) hl hpos
    (fun i hi p hpi => scatter_local_data par I (A proc).data mem hl hW hfit i p hi hpi) _ hg,
    global_elem_cut_block par I _ hl hpos _ hg, lin_unlin I pos hp']

/-- Witness of the amended C8: a `6 × 6 × 6` tensor scattered from rank `0` over the
partition `(2, 3, 1)` and gathered again. -/
theorem gather_scatter_roundtrip_witness :
    ∃ B : Nat → Tensor Int,
      (∀ r, scatter (fun _ => ⟨none, [6, 6, 6], [6, 6, 6], fun p => (p : Int) * p⟩)
        (fun i => .kCartesianBlock [2, 3, 1] i) 0 (fun _ _ => 0) r = .ok (B r)) ∧
      ∀ r < [2, 3, 1].prod, ∃ G, gather [2, 3, 1].prod B (fun _ _ => 0) r = .ok G ∧
        G.shape = [6, 6, 6] ∧ ∀ pos < [6, 6, 6].prod, G.data pos = (pos : Int) * pos :=
  gather_scatter_roundtrip [2, 3, 1] [6, 6, 6]
    (fun _ => ⟨none, [6, 6, 6], [6, 6, 6], fun p => (p : Int) * p⟩) 0 (fun _ _ => 0)
    (fun _ _ => 0) (by decide) (by decide) (by norm_num) (fun _ => rfl) (fun _ => Or.inl rfl)

/-! ### Lists split at a mode -/

theorem getD_mid (pre post : List Nat) (x d : Nat) :
    (pre ++ x :: post).getD pre.length d = x := by
  induction pre with
  | nil => rfl
  | cons a pre ih => simpa using ih

theorem take_mid (pre post : List Nat) (x : Nat) :
    (pre ++ x :: post).take pre.length = pre := by
  simp

theorem drop_mid (pre post : List Nat) (x : Nat) :
    (pre ++ x :: post).drop (pre.length + 1) = post := by
  simp

theorem set_mid (pre post : List Nat) (x y : Nat) :
    (pre ++ x :: post).set pre.length y = pre ++ y :: post := by
  induction pre with
  | nil => rfl
  | cons a pre ih => simp [List.set, ih]

theorem prod_mid (pre post : List Nat) (x : Nat) :
    (pre ++ x :: post).prod = pre.prod * x * post.prod := by
  simp [List.prod_append, List.prod_cons, Nat.mul_assoc]

theorem lin_append : ∀ (s1 i1 s2 i2 : List Nat), s1.length = i1.length →
    lin (s1 ++ s2) (i1 ++ i2) = lin s1 i1 + s1.prod * lin s2 i2
  | [], [], _, _, _ => by simp [lin]
  | [], _ :: _, _, _, h => by simp at h
  | _ :: _, [], _, _, h => by simp at h
  | s :: ss, i :: is, s2, i2, h => by
    have hl : ss.length = is.length := by simpa using h
    show lin (s :: (ss ++ s2)) (i :: (is ++ i2)) = _
    simp only [lin, List.prod_cons]
    rw [lin_append ss is s2 i2 hl]
    ring

theorem lin_mid (pre ipre post ipost : List Nat) (L x : Nat) (h : pre.length = ipre.length) :
    lin (pre ++ L :: post) (ipre ++ x :: ipost) =
      lin pre ipre + pre.prod * (x + L * lin post ipost) := by
  rw [lin_append _ _ _ _ h]
  rfl

theorem local_shape_append : ∀ (p1 c1 s1 p2 c2 s2 : List Nat),
    p1.length = c1.length → p1.length = s1.length →
    local_shape (p1 ++ p2) (c1 ++ c2) (s1 ++ s2) = local_shape p1 c1 s1 ++ local_shape p2 c2 s2
  | [], [], [], _, _, _, _, _ => rfl
  | [], _ :: _, _, _, _, _, h, _ => by simp at h
  | [], [], _ :: _, _, _, _, _, h => by simp at h
  | _ :: _, [], _, _, _, _, h, _ => by simp at h
  | _ :: _, _ :: _, [], _, _, _, _, h => by simp at h
  | p :: ps, c :: cs, s :: ss, p2, c2, s2, h1, h2 => by
    have h1' : ps.length = cs.length := by simpa using h1
    have h2' : ps.length = ss.length := by simpa using h2
    show local_shape (p :: (ps ++ p2)) (c :: (cs ++ c2)) (s :: (ss ++ s2)) = _
    simp only [local_shape, List.cons_append]
    rw [local_shape_append ps cs ss p2 c2 s2 h1' h2']

theorem local_begin_append : ∀ (p1 c1 s1 p2 c2 s2 : List Nat),
    p1.length = c1.length → p1.length = s1.length →
    local_begin (p1 ++ p2) (c1 ++ c2) (s1 ++ s2) = local_begin p1 c1 s1 ++ local_begin p2 c2 s2
  | [], [], [], _, _, _, _, _ => rfl
  | [], _ :: _, _, _, _, _, h, _ => by simp at h
  | [], [], _ :: _, _, _, _, _, h => by simp at h
  | _ :: _, [], _, _, _, _, h, _ => by simp at h
  | _ :: _, _ :: _, [], _, _, _, _, h => by simp at h
  | p :: ps, c :: cs, s :: ss, p2, c2, s2, h1, h2 => by
    have h1' : ps.length = cs.length := by simpa using h1
    have h2' : ps.length = ss.length := by simpa using h2
    show local_begin (p :: (ps ++ p2)) (c :: (cs ++ c2)) (s :: (ss ++ s2)) = _
    simp only [local_begin, List.cons_append]
    rw [local_begin_append ps cs ss p2 c2 s2 h1' h2']

theorem owner_coord_append : ∀ (p1 s1 g1 p2 s2 g2 : List Nat),
    p1.length = s1.length → p1.length = g1.length →
    owner_coord (p1 ++ p2) (s1 ++ s2) (g1 ++ g2) = owner_coord p1 s1 g1 ++ owner_coord p2 s2 g2
  | [], [], [], _, _, _, _, _ => rfl
  | [], _ :: _, _, _, _, _, h, _ => by simp at h
  | [], [], _ :: _, _, _, _, _, h => by simp at h
  | _ :: _, [], _, _, _, _, h, _ => by simp at h
  | _ :: _, _ :: _, [], _, _, _, _, h => by simp at h
  | p :: ps, c :: cs, s :: ss, p2, c2, s2, h1, h2 => by
    have h1' : ps.length = cs.length := by simpa using h1
    have h2' : ps.length = ss.length := by simpa using h2
    show owner_coord (p :: (ps ++ p2)) (c :: (cs ++ c2)) (s :: (ss ++ s2)) = _
    simp only [owner_coord, List.cons_append]
    rw [owner_coord_append ps cs ss p2 c2 s2 h1' h2']

theorem local_shape_length : ∀ (p c s : List Nat), p.length = c.length → p.length = s.length →
    (local_shape p c s).length = p.length
  | [], [], [], _, _ => rfl
  | [], _ :: _, _, h, _ => by simp at h
  | [], [], _ :: _, _, h => by simp at h
  | _ :: _, [], _, h, _ => by simp at h
  | _ :: _, _ :: _, [], _, h => by simp at h
  | p :: ps, c :: cs, s :: ss, h1, h2 => by
    simp only [local_shape, List.length_cons]
    rw [local_shape_length ps cs ss (by simpa using h1) (by simpa using h2)]

theorem local_begin_length : ∀ (p c s : List Nat), p.length = c.length → p.length = s.length →
    (local_begin p c s).length = p.length
  | [], [], [], _, _ => rfl
  | [], _ :: _, _, h, _ => by simp at h
  | [], [], _ :: _, _, h => by simp at h
  | _ :: _, [], _, h, _ => by simp at h
  | _ :: _, _ :: _, [], _, h => by simp at h
  | p :: ps, c :: cs, s :: ss, h1, h2 => by
    simp only [local_begin, List.length_cons]
    rw [local_begin_length ps cs ss (by simpa using h1) (by simpa using h2)]

theorem owner_coord_length : ∀ (p s g : List Nat), p.length = s.length → p.length = g.length →
    (owner_coord p s g).length = p.length
  | [], [], [], _, _ => rfl
  | [], _ :: _, _, h, _ => by simp at h
  | [], [], _ :: _, _, h => by simp at h
  | _ :: _, [], _, h, _ => by simp at h
  | _ :: _, _ :: _, [], _, h => by simp at h
  | p :: ps, c :: cs, s :: ss, h1, h2 => by
    simp only [owner_coord, List.length_cons]
    rw [owner_coord_length ps cs ss (by simpa using h1) (by simpa using h2)]

theorem forall₂_append {R : Nat → Nat → Prop} {a1 b1 a2 b2 : List Nat}
    (h1 : List.Forall₂ R a1 b1) (h2 : List.Forall₂ R a2 b2) :
    List.Forall₂ R (a1 ++ a2) (b1 ++ b2) := by
  induction h1 with
  | nil => exact h2
  | cons h _ ih => exact List.Forall₂.cons h ih

theorem forall₂_split {R : Nat → Nat → Prop} : ∀ (a1 b1 a2 b2 : List Nat),
    a1.length = b1.length → List.Forall₂ R (a1 ++ a2) (b1 ++ b2) →
    List.Forall₂ R a1 b1 ∧ List.Forall₂ R a2 b2
  | [], [], _, _, _, h => ⟨List.Forall₂.nil, h⟩
  | [], _ :: _, _, _, h, _ => by simp at h
  | _ :: _, [], _, _, h, _ => by simp at h
  | a :: as, b :: bs, a2, b2, hl, h => by
    simp only [List.cons_append, List.forall₂_cons] at h
    obtain ⟨h1, h2⟩ := forall₂_split as bs a2 b2 (by simpa using hl) h.2
    exact ⟨List.Forall₂.cons h.1 h1, h2⟩

theorem write_loop_at {α : Type} (F : Nat → Buf α) (off : Nat → Nat) (X : Nat)
    (loop : Nat → Buf α) (hs : ∀ j, loop (j + 1) = write (loop j) (off j) (F j) X)
    (hoff : ∀ j, off j = j * X) (jmax j w : Nat) (hj : j < jmax) (hw : w < X) :
    loop jmax (j * X + w) = F j w := by
  induction jmax with
  | zero => omega
  | succ jmax ih =>
    rw [hs, write, hoff]
    rcases Nat.lt_or_ge j jmax with h | h
    · have : (j + 1) * X ≤ jmax * X := Nat.mul_le_mul_right _ h
      rw [Nat.succ_mul] at this
      rw [if_neg (by omega)]
      exact ih h
    · have : j = jmax := by omega
      subst this
      rw [if_pos (by omega)]
      congr 1
      omega

theorem row_local_rows {J P k : Nat} (hP : 0 < P) (hfit : J * P < 2 ^ 64) (hk : k < P) :
    (row_local_begin J P).getD (k + 1) 0 - (row_local_begin J P).getD k 0 = block_len J P k := by
  rw [row_local_begin_getD hP hfit (k + 1) hk, row_local_begin_getD hP hfit k (Nat.le_of_lt hk)]
  rfl

/-- The `size_t` difference of two consecutive boundaries is the block length
when no product of the loop of `row_local_begin` wraps. -/
theorem row_local_rows_size_t {J P k : Nat} (hP : 0 < P) (hfit : J * P < 2 ^ 64) (hk : k < P) :
    size_t_sub ((row_local_begin J P).getD (k + 1) 0) ((row_local_begin J P).getD k 0) =
      (row_local_begin J P).getD (k + 1) 0 - (row_local_begin J P).getD k 0 := by
  rw [row_local_begin_getD hP hfit (k + 1) hk, row_local_begin_getD hP hfit k (Nat.le_of_lt hk)]
  exact size_t_sub_of_le (block_begin_mono hP (Nat.le_succ k))
    (block_begin_lt_of_fit hP hfit _ hk)

theorem block_len_le_max {J P k : Nat} (hP : 0 < P) (hfit : J * P < 2 ^ 64) (hk : k < P) :
    block_len J P k ≤ row_local_max J P :=
  (row_local_loop_max hP hfit P le_rfl).1 k hk

theorem ttm_calc_at {α : Type} [Semiring α] (T M : Tensor α) (pre post : List Nat) (L : Nat)
    (hT : T.shape = pre ++ L :: post) (P q k : Nat) (hP : 0 < P)
    (hJ : M.shape.getD 0 0 * P < 2 ^ 64) (hk : k < P) (hq : M.shape.getD 1 0 * q < 2 ^ 64)
    (c0 : Buf α) (a b j : Nat)
    (ha : a < pre.prod)
    (hb : b < (row_local_begin (M.shape.getD 0 0) P).getD (k + 1) 0 -
      (row_local_begin (M.shape.getD 0 0) P).getD k 0)
    (hj : j < post.prod) :
    ttm_calc T M pre.length P q k c0
      (a + pre.prod * (b + ((row_local_begin (M.shape.getD 0 0) P).getD (k + 1) 0 -
        (row_local_begin (M.shape.getD 0 0) P).getD k 0) * j)) =
    ∑ c in range L, T.data (a + pre.prod * (c + L * j)) *
      M.data (((row_local_begin (M.shape.getD 0 0) P).getD k 0 + b) +
        M.shape.getD 0 0 * (DIANA_CEILDIV (M.shape.getD 1 0 * q) P + c)) := by
  generalize hrows : (row_local_begin (M.shape.getD 0 0) P).getD (k + 1) 0 -
      (row_local_begin (M.shape.getD 0 0) P).getD k 0 = rows at hb ⊢
  have hpos : 0 < pre.prod := by omega
  have key := write_loop_at
    (fun j => matmulGeneral (shift T.data (j * pre.prod * L))
        (shift M.data (DIANA_CEILDIV (M.shape.getD 1 0 * q) P * M.shape.getD 0 0 +
          (row_local_begin (M.shape.getD 0 0) P).getD k 0))
        pre.prod rows L false true pre.prod (M.shape.getD 0 0))
    (fun j => j * pre.prod * rows) (pre.prod * rows)
    (ttm_calc_loop T M pre.length P q k c0)
    (fun j => by
      simp only [ttm_calc_loop, hT, take_mid, getD_mid, row_local_rows_size_t hP hJ hk,
        size_t_mul_of_lt hq, hrows])
    (fun j => Nat.mul_assoc _ _ _) post.prod j (a + pre.prod * b) hj
    (by
      calc a + pre.prod * b < pre.prod + pre.prod * b := by omega
        _ = pre.prod * (b + 1) := by ring
        _ ≤ pre.prod * rows := Nat.mul_le_mul_left _ hb)
  have e : a + pre.prod * (b + rows * j) = j * (pre.prod * rows) + (a + pre.prod * b) := by ring
  rw [ttm_calc, hT, drop_mid, e, key]
  simp only [matmulGeneral, shift]
  rw [Nat.add_mul_mod_self_left, Nat.mod_eq_of_lt ha, Nat.add_mul_div_left _ _ hpos,
    Nat.div_eq_of_lt ha, Nat.zero_add]
  refine sum_congr rfl fun c _ => ?_
  simp only [Bool.false_eq_true, if_false, if_true]
  congr 2 <;> ring

theorem ttm_calc_indep {α : Type} [Semiring α] (T M : Tensor α) (pre post : List Nat) (L : Nat)
    (hT : T.shape = pre ++ L :: post) (P q k : Nat) (hP : 0 < P)
    (hJ : M.shape.getD 0 0 * P < 2 ^ 64) (hk : k < P) (hq : M.shape.getD 1 0 * q < 2 ^ 64)
    (c0 c1 : Buf α) (p : Nat)
    (hp : p < pre.prod * ((row_local_begin (M.shape.getD 0 0) P).getD (k + 1) 0 -
      (row_local_begin (M.shape.getD 0 0) P).getD k 0) * post.prod) :
    ttm_calc T M pre.length P q k c0 p = ttm_calc T M pre.length P q k c1 p := by
  generalize hrows : (row_local_begin (M.shape.getD 0 0) P).getD (k + 1) 0 -
      (row_local_begin (M.shape.getD 0 0) P).getD k 0 = rows at hp
  have hp' : p < [pre.prod, rows, post.prod].prod := by
    simpa [Nat.mul_assoc] using hp
  have hv := unlin_valid _ p hp'
  have hl := lin_unlin _ p hp'
  simp only [unlin, List.forall₂_cons] at hv
  simp only [unlin, lin] at hl
  have e : p = p % pre.prod + pre.prod * (p / pre.prod % rows + rows * (p / pre.prod / rows)) := by
    have := hv.2.2.1
    have h3 : p / pre.prod / rows % post.prod = p / pre.prod / rows := Nat.mod_eq_of_lt (by
      rw [Nat.div_lt_iff_lt_mul (by omega), Nat.div_lt_iff_lt_mul (by omega)]
      calc p < pre.prod * rows * post.prod := hp
        _ = post.prod * rows * pre.prod := by ring)
    rw [h3] at hl
    simpa using hl.symm
  rw [e]
  subst hrows
  rw [ttm_calc_at T M pre post L hT P q k hP hJ hk hq c0 _ _ _ hv.1 hv.2.1 (by
      rw [Nat.div_lt_iff_lt_mul (by omega), Nat.div_lt_iff_lt_mul (by omega)]
      calc p < _ := hp
        _ = _ := by ring),
    ttm_calc_at T M pre post L hT P q k hP hJ hk hq c1 _ _ _ hv.1 hv.2.1 (by
      rw [Nat.div_lt_iff_lt_mul (by omega), Nat.div_lt_iff_lt_mul (by omega)]
      calc p < _ := hp
        _ = _ := by ring)]

theorem rot_eq (P x t : Nat) (hx : x < P) (ht : t ≤ P) :
    (x + P - t) % P = if t ≤ x then x - t else x + P - t := by
  split_ifs with h
  · have : x + P - t = (x - t) + P := by omega
    rw [this, Nat.add_mod_right, Nat.mod_eq_of_lt (by omega)]
  · rw [Nat.mod_eq_of_lt (by omega)]

theorem rot_lt (P x t : Nat) (hP : 0 < P) : (x + P - t) % P < P := Nat.mod_lt _ hP

theorem ttm_k_eq (q i P : Nat) (hq : q < P) (hi : i < P) (hP : 2 * P ≤ 2 ^ 64) :
    ttm_k q i P = (q + P - (i + 1)) % P := by
  have h64 : (2 : Nat) ^ 64 = 18446744073709551616 := by norm_num
  unfold ttm_k size_t_add size_t_sub
  rw [h64] at hP ⊢
  have h1 : i % 18446744073709551616 = i := Nat.mod_eq_of_lt (by omega)
  have h2 : 1 % 18446744073709551616 = 1 := by norm_num
  rw [h1, h2]
  rcases Nat.lt_or_ge q i with h | h
  · have e1 : (q + 18446744073709551616 - i) % 18446744073709551616 =
        q + 18446744073709551616 - i := Nat.mod_eq_of_lt (by omega)
    have e2 : (q + 18446744073709551616 - i + 18446744073709551616 - 1) % 18446744073709551616
        = q + 18446744073709551616 - i - 1 := by omega
    have e3 : (q + 18446744073709551616 - i - 1 + P) % 18446744073709551616
        = q + P - (i + 1) := by omega
    rw [e1, e2, e3]
  · have e1 : (q + 18446744073709551616 - i) % 18446744073709551616 = q - i := by omega
    rw [e1]
    rcases Nat.eq_or_lt_of_le h with h' | h'
    · have e2 : (q - i + 18446744073709551616 - 1) % 18446744073709551616
          = 18446744073709551615 := by omega
      have e3 : (18446744073709551615 + P) % 18446744073709551616 = q + P - (i + 1) := by omega
      rw [e2, e3]
    · have e2 : (q - i + 18446744073709551616 - 1) % 18446744073709551616 = q - i - 1 := by omega
      have e3 : (q - i - 1 + P) % 18446744073709551616 = q + P - (i + 1) := by omega
      rw [e2, e3]

theorem ttm_step_buf_cur {α : Type} [Semiring α] (member : Nat → Tensor α) (M : Tensor α)
    (n P i : Nat) (st : Nat → TtmBuffers α) (q : Nat) :
    (ttm_ring_step member M n P i st q).data_B_buf (i % 2) =
      if i ≠ 0 then
        op_add ((st q).data_B_buf (i % 2))
          (ttm_calc (member q) M n P q (ttm_k q i P) (st q).data_B_calc)
          (ttm_size_B_max (member q) M n P)
      else
        write ((st q).data_B_buf (i % 2)) 0
          (ttm_calc (member q) M n P q (ttm_k q i P) (st q).data_B_calc)
          (ttm_size_B_max (member q) M n P) := by
  have hne : i % 2 ≠ (i + 1) % 2 := by omega
  by_cases h0 : i = 0
  · subst h0
    by_cases h : 0 = P - 1 <;> simp [ttm_ring_step, h]
  · by_cases h : i = P - 1 <;> simp [ttm_ring_step, h, h0, hne]

theorem ttm_step_buf_recv {α : Type} [Semiring α] (member : Nat → Tensor α) (M : Tensor α)
    (n P i : Nat) (st : Nat → TtmBuffers α) (q : Nat) (h : i ≠ P - 1) :
    (ttm_ring_step member M n P i st q).data_B_buf ((i + 1) % 2) =
      write ((st q).data_B_buf ((i + 1) % 2)) 0
        ((ttm_ring_step member M n P i st ((q + P - 1) % P)).data_B_buf (i % 2))
        (int_cast (ttm_size_B_max (member q) M n P)).toNat := by
  have hne : (i + 1) % 2 ≠ i % 2 := by omega
  have hne' : i % 2 ≠ (i + 1) % 2 := by omega
  by_cases h0 : i = 0
  · subst h0
    simp [ttm_ring_step, h]
  · simp [ttm_ring_step, h, h0, hne, hne']

/-- The message length of the ring `ttm` does not fit an `int` from `2^31`
elements on: for a local block of shape `2048 × 2048 × 2048`, mode `0`, a
matrix `M` of shape `4096 × 4096` and a fiber of two processes,
`size_B_max = 2^33`, and the count `(int)size_B_max` passed to `isend` and
`irecv` is `0`, so the ring step delivers no element. -/
theorem ttm_ring_count_wraps :
    ttm_size_B_max (⟨none, [4096, 2048, 2048], [2048, 2048, 2048], fun _ => (0 : Int)⟩)
      (Tensor.new_global [4096, 4096] (fun _ => 0)) 0 2 = 2 ^ 33 ∧
    int_cast (ttm_size_B_max (⟨none, [4096, 2048, 2048], [2048, 2048, 2048], fun _ => (0 : Int)⟩)
      (Tensor.new_global [4096, 4096] (fun _ => 0)) 0 2) = 0 ∧
    (int_cast (ttm_size_B_max
      (⟨none, [4096, 2048, 2048], [2048, 2048, 2048], fun _ => (0 : Int)⟩)
      (Tensor.new_global [4096, 4096] (fun _ => 0)) 0 2)).toNat = 0 := by
  decide

theorem ttm_size_B_max_eq {α : Type} (T M : Tensor α) (pre post : List Nat) (L P : Nat)
    (hT : T.shape = pre ++ L :: post) (hL : 0 < L) :
    ttm_size_B_max T M pre.length P =
      row_local_max (M.shape.getD 0 0) P * (pre.prod * post.prod) := by
  unfold ttm_size_B_max Tensor.size
  rw [hT, getD_mid, prod_mid]
  congr 1
  rw [Nat.mul_right_comm, Nat.mul_div_cancel _ hL]

theorem sum_rot {β : Type} [AddCommMonoid β] (P q : Nat) (hq : q < P) (F : Nat → β) :
    ∑ t in range P, F ((q + P - t) % P) = ∑ x in range P, F x := by
  refine sum_nbij' (fun t => (q + P - t) % P) (fun t => (q + P - t) % P) ?_ ?_ ?_ ?_ ?_
  · intro t _
    exact mem_range.2 (Nat.mod_lt _ (by omega))
  · intro t _
    exact mem_range.2 (Nat.mod_lt _ (by omega))
  · intro t ht
    have ht' := mem_range.1 ht
    simp only
    rw [rot_eq P q t hq (by omega)]
    split_ifs with h
    · rw [rot_eq P q (q - t) hq (by omega)]
      split_ifs <;> omega
    · rw [rot_eq P q (q + P - t) hq (by omega)]
      split_ifs <;> omega
  · intro t ht
    have ht' := mem_range.1 ht
    simp only
    rw [rot_eq P q t hq (by omega)]
    split_ifs with h
    · rw [rot_eq P q (q - t) hq (by omega)]
      split_ifs <;> omega
    · rw [rot_eq P q (q + P - t) hq (by omega)]
      split_ifs <;> omega
  · intro t _
    rfl

theorem rot_rot (P q t : Nat) (hq : q < P) (ht : t + 1 ≤ P) :
    ((q + P - 1) % P + P - t) % P = (q + P - (t + 1)) % P := by
  rw [rot_eq P q 1 hq (by omega), rot_eq P q (t + 1) hq ht]
  split_ifs with h1 h2 h2
  · rw [rot_eq P (q - 1) t (by omega) (by omega)]
    split_ifs <;> omega
  · rw [rot_eq P (q - 1) t (by omega) (by omega)]
    split_ifs <;> omega
  · omega
  · rw [rot_eq P (q + P - 1) t (by omega) (by omega)]
    split_ifs <;> omega

theorem ttm_ring_invariant {α : Type} [Semiring α] (member : Nat → Tensor α) (M : Tensor α)
    (pre post : List Nat) (L : Nat → Nat) (P : Nat) (hP : 0 < P) (hP64 : 2 * P ≤ 2 ^ 64)
    (hshape : ∀ q < P, (member q).shape = pre ++ L q :: post) (hL : ∀ q < P, 0 < L q)
    (hJ : M.shape.getD 0 0 * P < 2 ^ 64) (hcol : ∀ q < P, M.shape.getD 1 0 * q < 2 ^ 64)
    (hfit : 1 < P → row_local_max (M.shape.getD 0 0) P * (pre.prod * post.prod) < 2 ^ 31)
    (init : Nat → TtmBuffers α) (i : Nat) (hi : i < P) :
    (∀ q < P, ∀ p < pre.prod * block_len (M.shape.getD 0 0) P ((q + P - (i + 1)) % P) * post.prod,
      (ttm_ring_loop member M pre.length P init (i + 1) q).data_B_buf (i % 2) p =
        ∑ t in range (i + 1), ttm_calc (member ((q + P - t) % P)) M pre.length P
          ((q + P - t) % P) ((q + P - (i + 1)) % P) (fun _ => 0) p) ∧
    (i + 1 ≠ P → ∀ q < P, ∀ p < row_local_max (M.shape.getD 0 0) P * (pre.prod * post.prod),
      (ttm_ring_loop member M pre.length P init (i + 1) q).data_B_buf ((i + 1) % 2) p =
        (ttm_ring_loop member M pre.length P init (i + 1) ((q + P - 1) % P)).data_B_buf (i % 2) p)
    := by
  have hsz : ∀ q < P, ttm_size_B_max (member q) M pre.length P =
      row_local_max (M.shape.getD 0 0) P * (pre.prod * post.prod) := fun q hq =>
    ttm_size_B_max_eq (member q) M pre post (L q) P (hshape q hq) (hL q hq)
  have hvalid : ∀ k < P, pre.prod * block_len (M.shape.getD 0 0) P k * post.prod ≤
      row_local_max (M.shape.getD 0 0) P * (pre.prod * post.prod) := fun k hk => by
    calc pre.prod * block_len (M.shape.getD 0 0) P k * post.prod
        = block_len (M.shape.getD 0 0) P k * (pre.prod * post.prod) := by ring
      _ ≤ _ := Nat.mul_le_mul_right _ (block_len_le_max hP hJ hk)
  have hcalc : ∀ j < P, ∀ q < P, ∀ (c0 : Buf α) (p : Nat),
      p < pre.prod * block_len (M.shape.getD 0 0) P ((q + P - (j + 1)) % P) * post.prod →
      ttm_calc (member q) M pre.length P q (ttm_k q j P) c0 p =
        ttm_calc (member q) M pre.length P q ((q + P - (j + 1)) % P) (fun _ => 0) p := by
    intro j hj q hq c0 p hp
    rw [ttm_k_eq q j P hq hj hP64]
    apply ttm_calc_indep (member q) M pre post (L q) (hshape q hq) P q _ hP hJ
      (Nat.mod_lt _ hP) (hcol q hq)
    rw [row_local_rows hP hJ (Nat.mod_lt _ hP)]
    exact hp
  induction i with
  | zero =>
    refine ⟨fun q hq p hp => ?_, fun hne q hq p hp => ?_⟩
    · have hk : (q + P - (0 + 1)) % P < P := Nat.mod_lt _ hP
      have hp' := lt_of_lt_of_le hp (hvalid _ hk)
      show (ttm_ring_step member M pre.length P 0 init q).data_B_buf (0 % 2) p = _
      rw [ttm_step_buf_cur, if_neg (by simp), hsz q hq, write, if_pos ⟨Nat.zero_le _, by omega⟩,
        Nat.sub_zero, hcalc 0 hi q hq _ p hp, sum_range_one, Nat.sub_zero, Nat.add_mod_right,
        Nat.mod_eq_of_lt hq]
    · show (ttm_ring_step member M pre.length P 0 init q).data_B_buf ((0 + 1) % 2) p = _
      rw [ttm_step_buf_recv _ _ _ _ _ _ _ (by omega), hsz q hq,
        int_cast_toNat (hfit (by omega)), write, if_pos ⟨Nat.zero_le _, by omega⟩, Nat.sub_zero]
      rfl
  | succ i ih =>
    obtain ⟨iha, ihb⟩ := ih (by omega)
    have ihb := ihb (by omega)
    refine ⟨fun q hq p hp => ?_, fun hne q hq p hp => ?_⟩
    · have hk : (q + P - (i + 1 + 1)) % P < P := Nat.mod_lt _ hP
      have hp' := lt_of_lt_of_le hp (hvalid _ hk)
      have hq' : (q + P - 1) % P < P := Nat.mod_lt _ hP
      have hkk : ((q + P - 1) % P + P - (i + 1)) % P = (q + P - (i + 1 + 1)) % P :=
        rot_rot P q (i + 1) hq (by omega)
      show (ttm_ring_step member M pre.length P (i + 1)
        (ttm_ring_loop member M pre.length P init (i + 1)) q).data_B_buf ((i + 1) % 2) p = _
      rw [ttm_step_buf_cur, if_pos (by omega), hsz q hq, op_add, if_pos hp', ihb q hq p hp',
        iha _ hq' p (by rw [hkk]; exact hp), hcalc (i + 1) hi q hq _ p hp, hkk,
        sum_range_succ' _ (i + 1), Nat.sub_zero, Nat.add_mod_right, Nat.mod_eq_of_lt hq]
      congr 1
      refine sum_congr rfl fun t ht => ?_
      have ht' := mem_range.1 ht
      rw [rot_rot P q t hq (by omega)]
    · show (ttm_ring_step member M pre.length P (i + 1)
        (ttm_ring_loop member M pre.length P init (i + 1)) q).data_B_buf ((i + 1 + 1) % 2) p = _
      rw [ttm_step_buf_recv _ _ _ _ _ _ _ (by omega), hsz q hq,
        int_cast_toNat (hfit (by omega)), write, if_pos ⟨Nat.zero_le _, by omega⟩, Nat.sub_zero]
      rfl

/-- After the ring loop of `ttm`, the process with fiber rank `q` holds in
`data_B_buf[(kParN-1)%2]` the sum of the contributions of all processes of
the fiber to the block `q` of the result. -/
theorem ttm_ring_final {α : Type} [Semiring α] (member : Nat → Tensor α) (M : Tensor α)
    (pre post : List Nat) (L : Nat → Nat) (P : Nat) (hP : 0 < P) (hP64 : 2 * P ≤ 2 ^ 64)
    (hshape : ∀ q < P, (member q).shape = pre ++ L q :: post) (hL : ∀ q < P, 0 < L q)
    (hJ : M.shape.getD 0 0 * P < 2 ^ 64) (hcol : ∀ q < P, M.shape.getD 1 0 * q < 2 ^ 64)
    (hfit : 1 < P → row_local_max (M.shape.getD 0 0) P * (pre.prod * post.prod) < 2 ^ 31)
    (init : Nat → TtmBuffers α) (q : Nat) (hq : q < P) (p : Nat)
    (hp : p < pre.prod * block_len (M.shape.getD 0 0) P q * post.prod) :
    (ttm_ring_loop member M pre.length P init P q).data_B_buf ((P - 1) % 2) p =
      ∑ x in range P, ttm_calc (member x) M pre.length P x q (fun _ => 0) p := by
  have hk : (q + P - (P - 1 + 1)) % P = q := by
    have : q + P - (P - 1 + 1) = q := by omega
    rw [this, Nat.mod_eq_of_lt hq]
  have h := (ttm_ring_invariant member M pre post L P hP hP64 hshape hL hJ hcol hfit init (P - 1)
    (by omega)).1 q hq p (by rw [hk]; exact hp)
  have e : P - 1 + 1 = P := by omega
  rw [hk, e] at h
  rw [h]
  exact sum_rot P q hq (fun x => ttm_calc (member x) M pre.length P x q (fun _ => 0) p)

theorem lin3_lt {s1 s2 s3 a b j : Nat} (ha : a < s1) (hb : b < s2) (hj : j < s3) :
    a + s1 * (b + s2 * j) < s1 * s2 * s3 := by
  have := @lin_lt [s1, s2, s3] [a, b, j]
    (List.Forall₂.cons ha (List.Forall₂.cons hb (List.Forall₂.cons hj List.Forall₂.nil)))
  simpa [lin, Nat.mul_assoc] using this

/-- The block of the result that the process with fiber rank `q` holds after the
ring loop of `ttm`, element by element: the mode-`n` product over the whole
extent `C` of mode `n`, whose indices are spread over the fiber. -/
theorem ttm_fiber_result {α : Type} [Semiring α] (member : Nat → Tensor α) (M : Tensor α)
    (pre post : List Nat) (P : Nat) (hP : 0 < P) (hP64 : 2 * P ≤ 2 ^ 64)
    (hshape : ∀ q < P, (member q).shape =
      pre ++ block_len (M.shape.getD 1 0) P q :: post)
    (hL : ∀ q < P, 0 < block_len (M.shape.getD 1 0) P q)
    (hJ : M.shape.getD 0 0 * P < 2 ^ 64) (hcol : ∀ q < P, M.shape.getD 1 0 * q < 2 ^ 64)
    (hfit : 1 < P → row_local_max (M.shape.getD 0 0) P * (pre.prod * post.prod) < 2 ^ 31)
    (init : Nat → TtmBuffers α) (q : Nat) (hq : q < P) (a b j : Nat)
    (ha : a < pre.prod) (hb : b < block_len (M.shape.getD 0 0) P q) (hj : j < post.prod) :
    (ttm_ring_loop member M pre.length P init P q).data_B_buf ((P - 1) % 2)
        (a + pre.prod * (b + block_len (M.shape.getD 0 0) P q * j)) =
      ∑ i in range (M.shape.getD 1 0),
        (member (block_owner (M.shape.getD 1 0) P i)).data
          (a + pre.prod * ((i - block_begin (M.shape.getD 1 0) P
              (block_owner (M.shape.getD 1 0) P i)) +
            block_len (M.shape.getD 1 0) P (block_owner (M.shape.getD 1 0) P i) * j)) *
        M.data ((block_begin (M.shape.getD 0 0) P q + b) + M.shape.getD 0 0 * i) := by
  rw [ttm_ring_final member M pre post _ P hP hP64 hshape hL hJ hcol hfit init q hq _
    (lin3_lt ha hb hj)]
  refine Eq.trans ?_ (sum_blocks hP _)
  refine sum_congr rfl fun x hx => ?_
  have hx' := mem_range.1 hx
  have hb' : b < (row_local_begin (M.shape.getD 0 0) P).getD (q + 1) 0 -
      (row_local_begin (M.shape.getD 0 0) P).getD q 0 := by
    rw [row_local_rows hP hJ hq]; exact hb
  have key := ttm_calc_at (member x) M pre post _ (hshape x hx') P x q hP hJ hq (hcol x hx')
    (fun _ => 0) a b j ha hb' hj
  rw [row_local_rows hP hJ hq, row_local_begin_getD hP hJ q (Nat.le_of_lt hq)] at key
  rw [key]
  refine sum_congr rfl fun c hc => ?_
  have hc' := mem_range.1 hc
  rw [block_owner_add hP hx' hc', Nat.add_sub_cancel_left]
  rfl

theorem forall₂_mid_split {R : Nat → Nat → Prop} : ∀ (c pre post : List Nat) (x : Nat),
    List.Forall₂ R c (pre ++ x :: post) →
    ∃ cpre cn cpost, c = cpre ++ cn :: cpost ∧ cpre.length = pre.length ∧
      List.Forall₂ R cpre pre ∧ R cn x ∧ List.Forall₂ R cpost post
  | [], [], _, _, h => by cases h
  | [], _ :: _, _, _, h => by cases h
  | c :: cs, [], post, x, h => by
    simp only [List.nil_append, List.forall₂_cons] at h
    exact ⟨[], c, cs, rfl, rfl, List.Forall₂.nil, h.1, h.2⟩
  | c :: cs, p :: pre, post, x, h => by
    simp only [List.cons_append, List.forall₂_cons] at h
    obtain ⟨cpre, cn, cpost, h1, h2, h3, h4, h5⟩ := forall₂_mid_split cs pre post x h.2
    exact ⟨c :: cpre, cn, cpost, by rw [h1]; rfl, by simp [h2], List.Forall₂.cons h.1 h3, h4, h5⟩

theorem forall₂_length {R : Nat → Nat → Prop} {a b : List Nat} (h : List.Forall₂ R a b) :
    a.length = b.length := by
  induction h with
  | nil => rfl
  | cons _ _ ih => simp [ih]

theorem forall₂_mid {R : Nat → Nat → Prop} {cpre pre cpost post : List Nat} {cn x : Nat}
    (h1 : List.Forall₂ R cpre pre) (h2 : R cn x) (h3 : List.Forall₂ R cpost post) :
    List.Forall₂ R (cpre ++ cn :: cpost) (pre ++ x :: post) :=
  forall₂_append h1 (List.Forall₂.cons h2 h3)

theorem local_shape_mid (Ppre Ppost cpre cpost Ipre Ipost : List Nat) (Pn cn In : Nat)
    (h1 : Ppre.length = cpre.length) (h2 : Ppre.length = Ipre.length) :
    local_shape (Ppre ++ Pn :: Ppost) (cpre ++ cn :: cpost) (Ipre ++ In :: Ipost) =
      local_shape Ppre cpre Ipre ++ block_len In Pn cn :: local_shape Ppost cpost Ipost := by
  rw [local_shape_append _ _ _ _ _ _ h1 h2]
  rfl

theorem local_begin_mid (Ppre Ppost cpre cpost Ipre Ipost : List Nat) (Pn cn In : Nat)
    (h1 : Ppre.length = cpre.length) (h2 : Ppre.length = Ipre.length) :
    local_begin (Ppre ++ Pn :: Ppost) (cpre ++ cn :: cpost) (Ipre ++ In :: Ipost) =
      local_begin Ppre cpre Ipre ++ block_begin In Pn cn :: local_begin Ppost cpost Ipost := by
  rw [local_begin_append _ _ _ _ _ _ h1 h2]
  rfl

theorem owner_coord_mid (Ppre Ppost Ipre Ipost gpre gpost : List Nat) (Pn In gn : Nat)
    (h1 : Ppre.length = Ipre.length) (h2 : Ppre.length = gpre.length) :
    owner_coord (Ppre ++ Pn :: Ppost) (Ipre ++ In :: Ipost) (gpre ++ gn :: gpost) =
      owner_coord Ppre Ipre gpre ++ block_owner In Pn gn :: owner_coord Ppost Ipost gpost := by
  rw [owner_coord_append _ _ _ _ _ _ h1 h2]
  rfl

/-- The element of a distributed tensor at a global multi-index split at a
mode. -/
theorem global_elem_mid {α : Type} (Ppre Ppost Ipre Ipost gpre gpost : List Nat)
    (Pn In gn : Nat) (data : Nat → Buf α)
    (h1 : Ppre.length = Ipre.length) (h2 : Ppre.length = gpre.length) :
    global_elem (Ppre ++ Pn :: Ppost) (Ipre ++ In :: Ipost) data (gpre ++ gn :: gpost) =
      data (rank_of (Ppre ++ Pn :: Ppost)
          (owner_coord Ppre Ipre gpre ++ block_owner In Pn gn :: owner_coord Ppost Ipost gpost))
        (lin (local_shape Ppre (owner_coord Ppre Ipre gpre) Ipre)
            (List.zipWith (· - ·) gpre (local_begin Ppre (owner_coord Ppre Ipre gpre) Ipre)) +
          (local_shape Ppre (owner_coord Ppre Ipre gpre) Ipre).prod *
            ((gn - block_begin In Pn (block_owner In Pn gn)) +
              block_len In Pn (block_owner In Pn gn) *
                lin (local_shape Ppost (owner_coord Ppost Ipost gpost) Ipost)
                  (List.zipWith (· - ·) gpost
                    (local_begin Ppost (owner_coord Ppost Ipost gpost) Ipost)))) := by
  have hoc := owner_coord_length Ppre Ipre gpre h1 h2
  have hlb := local_begin_length Ppre (owner_coord Ppre Ipre gpre) Ipre hoc.symm h1
  have hls := local_shape_length Ppre (owner_coord Ppre Ipre gpre) Ipre hoc.symm h1
  simp only [global_elem]
  rw [owner_coord_mid _ _ _ _ _ _ _ _ _ h1 h2, local_shape_mid _ _ _ _ _ _ _ _ _ hoc.symm h1,
    local_begin_mid _ _ _ _ _ _ _ _ _ hoc.symm h1,
    List.zipWith_append _ _ _ _ _ (by rw [hlb, h2]), List.zipWith_cons_cons,
    lin_mid _ _ _ _ _ _ (by rw [List.length_zipWith, hls, hlb, ← h2, Nat.min_self])]

theorem ttm_ok {α : Type} [Semiring α] (A : Nat → Tensor α) (M : Tensor α) (n : Nat)
    (scratch : Nat → TtmBuffers α) (mem : Buf α) (r : Nat) (par : List Nat) (rank : Nat)
    (hd : (A r).distribution = some (.kCartesianBlock par rank))
    (hM : M.distribution = none ∨ M.distribution = some .kGlobal)
    (hMl : M.shape.length = 2)
    (hc : (A r).shape_global.getD n 0 = M.shape.getD 1 0)
    (hz : ∀ q < par.getD n 0, (A (rank_of par ((coord par rank).set n q))).shape.getD n 0 ≠ 0) :
    ttm A M n scratch mem r = .ok
      { distribution := some (.kCartesianBlock par rank)
        shape_global := (A r).shape_global.set n (M.shape.getD 0 0)
        shape := local_shape par (coord par rank) ((A r).shape_global.set n (M.shape.getD 0 0))
        data := write mem 0
          ((ttm_ring_loop (fun q => A (rank_of par ((coord par rank).set n q))) M n
            (par.getD n 0) (fun q => scratch (rank_of par ((coord par rank).set n q)))
            (par.getD n 0) ((coord par rank).getD n 0)).data_B_buf ((par.getD n 0 - 1) % 2))
          (local_shape par (coord par rank)
            ((A r).shape_global.set n (M.shape.getD 0 0))).prod } := by
  have hz' : ¬ ∃ q < par.getD n 0,
      (A (rank_of par ((coord par rank).set n q))).shape.getD n 0 = 0 := by
    push_neg
    exact hz
  unfold ttm
  rw [hd]
  simp only
  rw [if_pos hM, if_neg (not_not.2 hMl), if_neg (not_not.2 hc), if_neg hz']
  rfl

theorem getD_mid_of (pre post : List Nat) (x d n : Nat) (h : pre.length = n) :
    (pre ++ x :: post).getD n d = x := by
  subst h; exact getD_mid _ _ _ _

theorem block_len_pos {S P c : Nat} (hP : 0 < P) (h : P ≤ S) : 0 < block_len S P c := by
  have h1 := block_len_ge (S := S) hP c
  have h2 : 1 ≤ S / P := (Nat.one_le_div_iff hP).2 h
  omega

/-- The result of the ring `ttm` on the process with grid coordinate
`cpre ++ cn :: cpost`, for a tensor distributed over `Ppre ++ Pn :: Ppost` and
the mode `n = Ipre.length`. -/
theorem ttm_at_coord {α : Type} [Semiring α] (Ppre Ppost Ipre Ipost cpre cpost : List Nat)
    (Pn In cn : Nat) (data : Nat → Buf α) (M : Tensor α) (scratch : Nat → TtmBuffers α)
    (mem : Buf α) (J : Nat)
    (hl1 : Ppre.length = Ipre.length)
    (hM : M.distribution = none ∨ M.distribution = some .kGlobal)
    (hMs : M.shape = [J, In]) (hne : Pn ≤ In)
    (hcpre : List.Forall₂ (· < ·) cpre Ppre) (hcn : cn < Pn)
    (hcpost : List.Forall₂ (· < ·) cpost Ppost) :
    ttm (distributed (Ppre ++ Pn :: Ppost) (Ipre ++ In :: Ipost) data) M Ipre.length scratch mem
        (rank_of (Ppre ++ Pn :: Ppost) (cpre ++ cn :: cpost)) = .ok
      (Tensor.new_distributed
        (.kCartesianBlock (Ppre ++ Pn :: Ppost)
          (rank_of (Ppre ++ Pn :: Ppost) (cpre ++ cn :: cpost)))
        (Ipre ++ J :: Ipost)
        (write mem 0
          ((ttm_ring_loop (fun q => distributed (Ppre ++ Pn :: Ppost) (Ipre ++ In :: Ipost) data
              (rank_of (Ppre ++ Pn :: Ppost) (cpre ++ q :: cpost))) M Ipre.length Pn
            (fun q => scratch (rank_of (Ppre ++ Pn :: Ppost) (cpre ++ q :: cpost)))
            Pn cn).data_B_buf ((Pn - 1) % 2))
          (local_shape Ppre cpre Ipre ++ block_len J Pn cn ::
            local_shape Ppost cpost Ipost).prod)) := by
  have hc := forall₂_mid hcpre hcn hcpost
  have hcl : cpre.length = Ppre.length := forall₂_length hcpre
  have hci : cpre.length = Ipre.length := by rw [hcl, hl1]
  have hP : 0 < Pn := by omega
  have hcoord := coord_rank_of hc
  have hset : ∀ q, (cpre ++ cn :: cpost).set Ipre.length q = cpre ++ q :: cpost := fun q => by
    rw [← hci]; exact set_mid _ _ _ _
  have hparn : (Ppre ++ Pn :: Ppost).getD Ipre.length 0 = Pn := by
    rw [← hl1]; exact getD_mid _ _ _ _
  rw [ttm_ok (distributed (Ppre ++ Pn :: Ppost) (Ipre ++ In :: Ipost) data) M Ipre.length
    scratch mem _ (Ppre ++ Pn :: Ppost) (rank_of (Ppre ++ Pn :: Ppost) (cpre ++ cn :: cpost))
    rfl hM (by rw [hMs]; rfl) (by
      show (Ipre ++ In :: Ipost).getD Ipre.length 0 = _
      rw [getD_mid, hMs]; rfl) (by
      intro q hq
      rw [hparn] at hq
      rw [hcoord, hset]
      show (local_shape _ (coord _ _) _).getD _ 0 ≠ 0
      rw [coord_rank_of (forall₂_mid hcpre hq hcpost),
        local_shape_mid _ _ _ _ _ _ _ _ _ hcl.symm hl1,
        getD_mid_of _ _ _ _ _ ((local_shape_length Ppre cpre Ipre hcl.symm hl1).trans hl1)]
      exact Nat.pos_iff_ne_zero.1 (block_len_pos hP hne))]
  have hsg : (distributed (Ppre ++ Pn :: Ppost) (Ipre ++ In :: Ipost) data
      (rank_of (Ppre ++ Pn :: Ppost) (cpre ++ cn :: cpost))).shape_global.set Ipre.length
        (M.shape.getD 0 0) = Ipre ++ J :: Ipost := by
    show (Ipre ++ In :: Ipost).set Ipre.length _ = _
    rw [set_mid, hMs]; rfl
  rw [hsg, hcoord, hparn]
  simp only [hset]
  rw [local_shape_mid _ _ _ _ _ _ _ _ _ hcl.symm hl1, ← hci, getD_mid]
  simp only [Tensor.new_distributed, hcoord]
  rw [local_shape_mid _ _ _ _ _ _ _ _ _ hcl.symm hl1]

theorem block_len_le_extent {S P c : Nat} (hP : 0 < P) (hc : c < P) : block_len S P c ≤ S := by
  have h1 : block_begin S P (c + 1) ≤ block_begin S P P := block_begin_mono hP hc
  rw [block_begin_last hP] at h1
  unfold block_len
  omega

theorem local_shape_prod_le {par c : List Nat} (hc : List.Forall₂ (· < ·) c par) :
    ∀ I : List Nat, par.length = I.length → (local_shape par c I).prod ≤ I.prod := by
  induction hc with
  | nil =>
    intro I hI
    cases I with
    | nil => simp [local_shape]
    | cons _ _ => simp at hI
  | @cons c P cs ps h1 _ ih =>
    intro I hI
    cases I with
    | nil => simp at hI
    | cons S ss =>
      simp only [local_shape, List.prod_cons]
      exact Nat.mul_le_mul (block_len_le_extent (by omega) h1) (ih ss (by simpa using hI))

theorem row_local_max_le {J P : Nat} (hP : 0 < P) (hfit : J * P < 2 ^ 64) :
    row_local_max J P ≤ J := by
  rcases (row_local_loop_max hP hfit P le_rfl).2 with ⟨h0, _⟩ | ⟨j, hj, hjm⟩
  · omega
  · show (row_local_loop J P P).2 ≤ J
    rw [hjm]
    exact block_len_le_extent hP hj

/-- The gathered result of the ring `ttm`, element by element: the mode-`n`
product of the gathered argument with `M`.  The products of the block
boundaries fit `size_t`, and on a fiber of more than one process the message
length `size_B_max`, at most `J · ∏ Ipre · ∏ Ipost`, fits an `int`. -/
theorem ttm_global_elem {α : Type} [CommSemiring α]
    (Ppre Ppost Ipre Ipost : List Nat) (Pn In J : Nat) (data : Nat → Buf α) (M : Tensor α)
    (scratch : Nat → TtmBuffers α) (mem : Nat → Buf α)
    (hl1 : Ppre.length = Ipre.length) (hl2 : Ppost.length = Ipost.length)
    (hpre : ∀ P ∈ Ppre, 0 < P) (hpost : ∀ P ∈ Ppost, 0 < P) (hP64 : 2 * Pn ≤ 2 ^ 64)
    (hM : M.distribution = none ∨ M.distribution = some .kGlobal)
    (hMs : M.shape = [J, In]) (hne : Pn ≤ In) (hP : 0 < Pn)
    (hJ : J * Pn < 2 ^ 64) (hcol : ∀ q < Pn, In * q < 2 ^ 64)
    (hfit : 1 < Pn → J * (Ipre.prod * Ipost.prod) < 2 ^ 31)
    (gpre gpost : List Nat) (gn : Nat)
    (hgpre : List.Forall₂ (· < ·) gpre Ipre) (hgn : gn < J)
    (hgpost : List.Forall₂ (· < ·) gpost Ipost) :
    global_elem (Ppre ++ Pn :: Ppost) (Ipre ++ J :: Ipost)
        (ttm_data (distributed (Ppre ++ Pn :: Ppost) (Ipre ++ In :: Ipost) data) M Ipre.length
          scratch mem) (gpre ++ gn :: gpost) =
      ∑ i in range In, M.data (lin M.shape [gn, i]) *
        global_elem (Ppre ++ Pn :: Ppost) (Ipre ++ In :: Ipost) data (gpre ++ i :: gpost) := by
  have hg1 : Ppre.length = gpre.length := by rw [hl1, forall₂_length hgpre]
  have hocpre := owner_coord_valid Ppre Ipre gpre hl1 hpre hgpre
  have hocpost := owner_coord_valid Ppost Ipost gpost hl2 hpost hgpost
  have hlvpre := owner_local_valid Ppre Ipre gpre hl1 hpre hgpre
  have hlvpost := owner_local_valid Ppost Ipost gpost hl2 hpost hgpost
  have hcn := block_owner_lt (S := J) hP hgn
  have hb := block_owner_sub_lt (S := J) hP hgn
  have hbl := block_owner_begin_le (S := J) hP hgn
  have hocl : (owner_coord Ppre Ipre gpre).length = Ppre.length := forall₂_length hocpre
  have hlsl : (local_shape Ppre (owner_coord Ppre Ipre gpre) Ipre).length = Ipre.length :=
    (local_shape_length Ppre _ Ipre hocl.symm hl1).trans hl1
  have hM0 : M.shape.getD 0 0 = J := by rw [hMs]; rfl
  have hM1 : M.shape.getD 1 0 = In := by rw [hMs]; rfl
  rw [global_elem_mid _ _ _ _ _ _ _ _ _ _ hl1 hg1]
  have hd : ttm_data (distributed (Ppre ++ Pn :: Ppost) (Ipre ++ In :: Ipost) data) M Ipre.length
      scratch mem (rank_of (Ppre ++ Pn :: Ppost)
        (owner_coord Ppre Ipre gpre ++ block_owner J Pn gn :: owner_coord Ppost Ipost gpost)) = _ :=
    congrArg (fun t => match t with
      | Except.ok t => t.data
      | Except.error _ => mem (rank_of (Ppre ++ Pn :: Ppost)
        (owner_coord Ppre Ipre gpre ++ block_owner J Pn gn :: owner_coord Ppost Ipost gpost)))
      (ttm_at_coord Ppre Ppost Ipre Ipost _ _ Pn In _ data M scratch (mem _) J hl1 hM hMs hne
        hocpre hcn hocpost)
  rw [hd]
  simp only [Tensor.new_distributed]
  rw [write, if_pos ⟨Nat.zero_le _, by
    rw [Nat.zero_add, prod_mid]
    exact lin3_lt (lin_lt hlvpre) hb (lin_lt hlvpost)⟩, Nat.sub_zero, ← hlsl]
  have key := ttm_fiber_result
    (fun q => distributed (Ppre ++ Pn :: Ppost) (Ipre ++ In :: Ipost) data
      (rank_of (Ppre ++ Pn :: Ppost)
        (owner_coord Ppre Ipre gpre ++ q :: owner_coord Ppost Ipost gpost))) M
    (local_shape Ppre (owner_coord Ppre Ipre gpre) Ipre)
    (local_shape Ppost (owner_coord Ppost Ipost gpost) Ipost) Pn hP hP64
    (fun q hq => by
      show local_shape _ (coord _ _) _ = _
      rw [coord_rank_of (forall₂_mid hocpre hq hocpost),
        local_shape_mid _ _ _ _ _ _ _ _ _ hocl.symm hl1, hM1])
    (fun q _ => by rw [hM1]; exact block_len_pos hP hne)
    (by rw [hM0]; exact hJ)
    (fun q hq => by
      rw [hM1]
      exact hcol q hq)
    (fun h1 => by
      rw [hM0]
      exact lt_of_le_of_lt (Nat.mul_le_mul (row_local_max_le hP hJ)
        (Nat.mul_le_mul (local_shape_prod_le hocpre Ipre hl1)
          (local_shape_prod_le hocpost Ipost hl2))) (hfit h1))
    (fun q => scratch (rank_of (Ppre ++ Pn :: Ppost)
        (owner_coord Ppre Ipre gpre ++ q :: owner_coord Ppost Ipost gpost)))
    (block_owner J Pn gn) hcn _ _ _ (lin_lt hlvpre) (by rw [hM0]; exact hb) (lin_lt hlvpost)
  rw [hM0, hM1] at key
  rw [key]
  refine sum_congr rfl fun i _ => ?_
  rw [global_elem_mid _ _ _ _ _ _ _ _ _ _ hl1 hg1, mul_comm, hMs]
  congr 2
  simp only [lin, Nat.mul_zero, Nat.add_zero]
  omega

theorem mid_le_prod (pre post : List Nat) (x : Nat) (h : 0 < (pre ++ x :: post).prod) :
    x ≤ (pre ++ x :: post).prod := by
  rw [prod_mid] at h ⊢
  have h1 : 0 < pre.prod := by
    rcases Nat.eq_zero_or_pos pre.prod with h0 | h0
    · rw [h0] at h; simp at h
    · exact h0
  have h2 : 0 < post.prod := by
    rcases Nat.eq_zero_or_pos post.prod with h0 | h0
    · rw [h0] at h; simp at h
    · exact h0
  calc x = 1 * x * 1 := by ring
    _ ≤ pre.prod * x * post.prod := Nat.mul_le_mul (Nat.mul_le_mul_right _ h1) h2

/-- On every rank of the world the ring `ttm` returns the tensor whose buffer is
`ttm_data`. -/
theorem ttm_distributed {α : Type} [Semiring α] (Ppre Ppost Ipre Ipost : List Nat)
    (Pn In J : Nat) (data : Nat → Buf α) (M : Tensor α) (scratch : Nat → TtmBuffers α)
    (mem : Nat → Buf α) (hl1 : Ppre.length = Ipre.length)
    (hM : M.distribution = none ∨ M.distribution = some .kGlobal)
    (hMs : M.shape = [J, In]) (hne : Pn ≤ In) (r : Nat) (hr : r < (Ppre ++ Pn :: Ppost).prod) :
    ttm (distributed (Ppre ++ Pn :: Ppost) (Ipre ++ In :: Ipost) data) M Ipre.length scratch
        (mem r) r = .ok
      (distributed (Ppre ++ Pn :: Ppost) (Ipre ++ J :: Ipost)
        (ttm_data (distributed (Ppre ++ Pn :: Ppost) (Ipre ++ In :: Ipost) data) M Ipre.length
          scratch mem) r) := by
  obtain ⟨cpre, cn, cpost, hc, _, hcpre, hcn, hcpost⟩ :=
    forall₂_mid_split _ _ _ _ (coord_valid _ r hr)
  have hrk : rank_of (Ppre ++ Pn :: Ppost) (cpre ++ cn :: cpost) = r := by
    rw [← hc]; exact rank_of_coord _ r hr
  have key := ttm_at_coord Ppre Ppost Ipre Ipost cpre cpost Pn In cn data M scratch (mem r) J
    hl1 hM hMs hne hcpre hcn hcpost
  rw [hrk] at key
  have hd : ttm_data (distributed (Ppre ++ Pn :: Ppost) (Ipre ++ In :: Ipost) data) M
      Ipre.length scratch mem r = _ :=
    congrArg (fun t => match t with
      | Except.ok t => t.data
      | Except.error _ => mem r) key
  rw [key]
  simp only [distributed, Tensor.new_distributed] at hd ⊢
  rw [hd]

/-- C1 (amended): for a tensor block-distributed over a partition
`Ppre ++ Pn :: Ppost` of `W ≥ 1` processes (`W < 2^31`, an MPI `int`), of
global shape `Ipre ++ In :: Ipost` with `Pn ≤ In` (every process owns a
non-empty block of mode `n`), and a replicated matrix `M` of shape `(J, In)`,
where the argument and the result have fewer than `2^31` elements (so that
every message length and every count of `gather` fits an `int`), the ring
`ttm` along mode `n = Ipre.length` returns a tensor on every rank, and the
gather of these tensors is the dense mode-`n` product of the gathered argument
with `M`: `result[.., j, ..] = Σ_{i < In} M[j, i] * A[.., i, ..]`. -/
theorem ttm_gather_eq_dense {α : Type} [CommSemiring α]
    (Ppre Ppost Ipre Ipost : List Nat) (Pn In J : Nat) (data : Nat → Buf α) (M : Tensor α)
    (scratch : Nat → TtmBuffers α) (mem m1 m2 : Nat → Buf α)
    (hl1 : Ppre.length = Ipre.length) (hl2 : Ppost.length = Ipost.length)
    (hW : 0 < (Ppre ++ Pn :: Ppost).prod) (hW31 : (Ppre ++ Pn :: Ppost).prod < 2 ^ 31)
    (hM : M.distribution = none ∨ M.distribution = some .kGlobal)
    (hMs : M.shape = [J, In]) (hne : Pn ≤ In)
    (hA : (Ipre ++ In :: Ipost).prod < 2 ^ 31) (hB : (Ipre ++ J :: Ipost).prod < 2 ^ 31) :
    ∃ B : Nat → Tensor α,
      (∀ r < (Ppre ++ Pn :: Ppost).prod,
        ttm (distributed (Ppre ++ Pn :: Ppost) (Ipre ++ In :: Ipost) data) M Ipre.length
          scratch (mem r) r = .ok (B r)) ∧
      ∀ r < (Ppre ++ Pn :: Ppost).prod, ∃ GB GA,
        gather (Ppre ++ Pn :: Ppost).prod B m1 r = .ok GB ∧
        gather (Ppre ++ Pn :: Ppost).prod
          (distributed (Ppre ++ Pn :: Ppost) (Ipre ++ In :: Ipost) data) m2 r = .ok GA ∧
        GB.shape = Ipre ++ J :: Ipost ∧
        ∀ gpre gn gpost, List.Forall₂ (· < ·) gpre Ipre → gn < J →
          List.Forall₂ (· < ·) gpost Ipost →
          GB.data (lin (Ipre ++ J :: Ipost) (gpre ++ gn :: gpost)) =
            ∑ i in range In, M.data (lin M.shape [gn, i]) *
              GA.data (lin (Ipre ++ In :: Ipost) (gpre ++ i :: gpost)) := by
  have hpos := pos_of_prod_pos hW
  have hpre : ∀ P ∈ Ppre, 0 < P := fun P hP => hpos P (List.mem_append_left _ hP)
  have hPn : 0 < Pn := hpos Pn (List.mem_append_right _ (List.mem_cons_self _ _))
  have hpost : ∀ P ∈ Ppost, 0 < P := fun P hP =>
    hpos P (List.mem_append_right _ (List.mem_cons_of_mem _ hP))
  have hPn31 : Pn < 2 ^ 31 := lt_of_le_of_lt (mid_le_prod Ppre Ppost Pn hW) hW31
  have hP64 : 2 * Pn ≤ 2 ^ 64 := by
    have h31 : (2 : Nat) ^ 31 = 2147483648 := by norm_num
    have h64 : (2 : Nat) ^ 64 = 18446744073709551616 := by norm_num
    omega
  have hlI : (Ppre ++ Pn :: Ppost).length = (Ipre ++ In :: Ipost).length := by
    simp [hl1, hl2]
  have hlJ : (Ppre ++ Pn :: Ppost).length = (Ipre ++ J :: Ipost).length := by
    simp [hl1, hl2]
  refine ⟨_, fun r hr => ttm_distributed Ppre Ppost Ipre Ipost Pn In J data M scratch mem hl1
    hM hMs hne r hr, fun r _ => ?_⟩
  obtain ⟨GB, hB1, _, _, hB4, hB5⟩ := gather_elem (Ppre ++ Pn :: Ppost) (Ipre ++ J :: Ipost)
    (ttm_data (distributed (Ppre ++ Pn :: Ppost) (Ipre ++ In :: Ipost) data) M Ipre.length
      scratch mem) m1 r hlJ hW hB
  obtain ⟨GA, hA1, _, _, _, hA5⟩ := gather_elem (Ppre ++ Pn :: Ppost) (Ipre ++ In :: Ipost)
    data m2 r hlI hW hA
  refine ⟨GB, GA, hB1, hA1, hB4, fun gpre gn gpost hgpre hgn hgpost => ?_⟩
  have hJ31 : J < 2 ^ 31 := lt_of_le_of_lt (mid_le_prod Ipre Ipost J
    (Nat.lt_of_le_of_lt (Nat.zero_le _) (lin_lt (forall₂_mid hgpre hgn hgpost)))) hB
  have hIn31 : In < 2 ^ 31 := lt_of_le_of_lt (mid_le_prod Ipre Ipost In
    (Nat.lt_of_le_of_lt (Nat.zero_le _)
      (lin_lt (forall₂_mid hgpre (Nat.lt_of_lt_of_le hPn hne) hgpost)))) hA
  have h62 : (2 : Nat) ^ 31 * 2 ^ 31 < 2 ^ 64 := by norm_num
  have hJP : J * Pn < 2 ^ 64 := lt_trans (Nat.mul_lt_mul'' hJ31 hPn31) h62
  have hIP : In * Pn < 2 ^ 64 := lt_trans (Nat.mul_lt_mul'' hIn31 hPn31) h62
  have hfit : J * (Ipre.prod * Ipost.prod) < 2 ^ 31 := by
    rw [prod_mid] at hB
    calc J * (Ipre.prod * Ipost.prod) = Ipre.prod * J * Ipost.prod := by ring
      _ < 2 ^ 31 := hB
  rw [hB5 _ (forall₂_mid hgpre hgn hgpost),
    ttm_global_elem Ppre Ppost Ipre Ipost Pn In J data M scratch mem hl1 hl2 hpre hpost hP64
      hM hMs hne hPn hJP
      (fun q hq => lt_of_le_of_lt (Nat.mul_le_mul_left In (Nat.le_of_lt hq)) hIP)
      (fun _ => hfit) gpre gpost gn hgpre hgn hgpost]
  refine sum_congr rfl fun i hi => ?_
  rw [hA5 _ (forall₂_mid hgpre (mem_range.1 hi) hgpost)]

/-- Counterexample to C1: on the partition `(2)` of a tensor of global shape
`(1)` the process with coordinate `0` owns an empty block, the division
`A.size() / A.shape()[n]` has no result and `ttm` returns no tensor. -/
theorem ttm_empty_block_fails :
    ttm (distributed [2] [1] (fun _ _ => (1 : Int))) (Tensor.new_global [1, 1] (fun _ => 1)) 0
      (fun _ => ⟨fun _ => 0, fun _ _ => 0⟩) (fun _ => 0) 1 =
      .error "Division by zero: A.size() / A.shape()[n]" := by
  rfl

/-- Witness of the amended C1: a `4 × 2` tensor over the partition `(2, 1)`
multiplied along mode `0` by the `4 × 4` identity. -/
theorem ttm_gather_eq_dense_witness :
    ∃ B : Nat → Tensor Int,
      (∀ r < ([] ++ 2 :: [1]).prod,
        ttm (distributed ([] ++ 2 :: [1]) ([] ++ 4 :: [2]) (fun r p => (10 * r + p : Int)))
          (Tensor.new_global [4, 4] (fun p => if p % 4 = p / 4 then 1 else 0))
          ([] : List Nat).length (fun _ => ⟨fun _ => 0, fun _ _ => 0⟩) ((fun _ _ => 0) r) r
          = .ok (B r)) ∧
      ∀ r < ([] ++ 2 :: [1]).prod, ∃ GB GA,
        gather ([] ++ 2 :: [1]).prod B (fun _ _ => 0) r = .ok GB ∧
        gather ([] ++ 2 :: [1]).prod
          (distributed ([] ++ 2 :: [1]) ([] ++ 4 :: [2]) (fun r p => (10 * r + p : Int)))
          (fun _ _ => 0) r = .ok GA ∧
        GB.shape = [] ++ 4 :: [2] ∧
        ∀ gpre gn gpost, List.Forall₂ (· < ·) gpre [] → gn < 4 →
          List.Forall₂ (· < ·) gpost [2] →
          GB.data (lin ([] ++ 4 :: [2]) (gpre ++ gn :: gpost)) =
            ∑ i in range 4,
              (Tensor.new_global [4, 4] (fun p => if p % 4 = p / 4 then (1 : Int) else 0)).data
                (lin (Tensor.new_global [4, 4]
                  (fun p => if p % 4 = p / 4 then (1 : Int) else 0)).shape [gn, i]) *
              GA.data (lin ([] ++ 4 :: [2]) (gpre ++ i :: gpost)) :=
  ttm_gather_eq_dense [] [1] [] [2] 2 4 4 (fun r p => (10 * r + p : Int))
    (Tensor.new_global [4, 4] (fun p => if p % 4 = p / 4 then 1 else 0))
    (fun _ => ⟨fun _ => 0, fun _ _ => 0⟩) (fun _ _ => 0) (fun _ _ => 0) (fun _ _ => 0)
    rfl rfl (by decide) (by decide) (Or.inr rfl) rfl (by decide) (by norm_num) (by norm_num)

theorem coord_length : ∀ (par : List Nat) (r : Nat), (coord par r).length = par.length
  | [], _ => rfl
  | _ :: ps, r => by simp [coord, coord_length ps]

theorem local_shape_set : ∀ (par c I : List Nat) (n J : Nat), par.length = c.length →
    par.length = I.length →
    local_shape par c (I.set n J) =
      (local_shape par c I).set n (block_len J (par.getD n 0) (c.getD n 0))
  | [], [], [], _, _, _, _ => by simp [local_shape]
  | [], _ :: _, _, _, _, h, _ => by simp at h
  | [], [], _ :: _, _, _, _, h => by simp at h
  | _ :: _, [], _, _, _, h, _ => by simp at h
  | _ :: _, _ :: _, [], _, _, _, h => by simp at h
  | P :: ps, c :: cs, S :: ss, 0, J, _, _ => by simp [local_shape]
  | P :: ps, c :: cs, S :: ss, n + 1, J, h1, h2 => by
    have ih := local_shape_set ps cs ss n J (by simpa using h1) (by simpa using h2)
    simp only [List.set_cons_succ, local_shape, List.getD_cons_succ, ih]

theorem list_split (l : List Nat) (n : Nat) (h : n < l.length) :
    l = l.take n ++ l.getD n 0 :: l.drop (n + 1) := by
  induction l generalizing n with
  | nil => simp at h
  | cons a l ih =>
    cases n with
    | zero => simp
    | succ n =>
      have := ih n (by simpa using h)
      simp only [List.take_succ_cons, List.getD_cons_succ, List.drop_succ_cons, List.cons_append]
      rw [← this]

/-- C4: for a tensor block-distributed over `par` and a call `ttm(A, M, n)` on
rank `r`, every returned tensor has the distribution of `A`, the global shape
of `A` with entry `n` replaced by `rows(M)`, and the local shape of `A` with
entry `n` replaced by `⌈J·(c_n+1)/P_n⌉ − ⌈J·c_n/P_n⌉`, `J = rows(M)`; and the
call does return a tensor when `M` is a replicated matrix of shape
`(J, I_n)` and every process owns a non-empty block of mode `n`. -/
theorem ttm_result_shape {α : Type} [Semiring α] (par I : List Nat) (data : Nat → Buf α)
    (M : Tensor α) (n : Nat) (scratch : Nat → TtmBuffers α) (mem : Buf α) (r : Nat)
    (hl : par.length = I.length) (hn : n < I.length) (hr : r < par.prod) :
    (∀ T, ttm (distributed par I data) M n scratch mem r = .ok T →
      T.distribution = (distributed par I data r).distribution ∧
      T.shape_global = (distributed par I data r).shape_global.set n (M.shape.getD 0 0) ∧
      T.shape = (distributed par I data r).shape.set n
        (DIANA_CEILDIV (M.shape.getD 0 0 * ((coord par r).getD n 0 + 1)) (par.getD n 0) -
          DIANA_CEILDIV (M.shape.getD 0 0 * (coord par r).getD n 0) (par.getD n 0))) ∧
    ((M.distribution = none ∨ M.distribution = some .kGlobal) →
      M.shape = [M.shape.getD 0 0, I.getD n 0] → par.getD n 0 ≤ I.getD n 0 →
      ∃ T, ttm (distributed par I data) M n scratch mem r = .ok T) := by
  constructor
  · intro T h
    have hshape := local_shape_set par (coord par r) I n (M.shape.getD 0 0)
      (coord_length par r).symm hl
    unfold ttm at h
    simp only [distributed, Tensor.new_distributed] at h
    split_ifs at h
    all_goals cases h
    exact ⟨rfl, rfl, hshape⟩
  · intro hM hMs hne
    have hnp : n < par.length := by rw [hl]; exact hn
    have e1 := list_split par n hnp
    have e2 := list_split I n hn
    have hlen : (par.take n).length = (I.take n).length := by
      simp [List.length_take, hl]
    have hIn : (I.take n).length = n := by
      rw [List.length_take]; omega
    have key := ttm_distributed (par.take n) (par.drop (n + 1)) (I.take n) (I.drop (n + 1))
      (par.getD n 0) (I.getD n 0) (M.shape.getD 0 0) data M scratch (fun _ => mem) hlen hM hMs
      hne r (by rw [← e1]; exact hr)
    rw [← e1, ← e2, hIn] at key
    exact ⟨_, key⟩

/-- Witness of C4 on rank `1` of the partition `(2, 1)` of a `4 × 2` tensor
and a `3 × 4` matrix. -/
theorem ttm_result_shape_witness :
    (∀ T, ttm (distributed [2, 1] [4, 2] (fun r p => (10 * r + p : Int)))
        (Tensor.new_global [3, 4] (fun p => (p : Int))) 0
        (fun _ => ⟨fun _ => 0, fun _ _ => 0⟩) (fun _ => 0) 1 = .ok T →
      T.distribution =
        (distributed [2, 1] [4, 2] (fun r p => (10 * r + p : Int)) 1).distribution ∧
      T.shape_global =
        (distributed [2, 1] [4, 2] (fun r p => (10 * r + p : Int)) 1).shape_global.set 0
          ((Tensor.new_global [3, 4] (fun p => (p : Int))).shape.getD 0 0) ∧
      T.shape = (distributed [2, 1] [4, 2] (fun r p => (10 * r + p : Int)) 1).shape.set 0
        (DIANA_CEILDIV ((Tensor.new_global [3, 4] (fun p => (p : Int))).shape.getD 0 0 *
            ((coord [2, 1] 1).getD 0 0 + 1)) (([2, 1] : List Nat).getD 0 0) -
          DIANA_CEILDIV ((Tensor.new_global [3, 4] (fun p => (p : Int))).shape.getD 0 0 *
            (coord [2, 1] 1).getD 0 0) (([2, 1] : List Nat).getD 0 0))) ∧
    (((Tensor.new_global [3, 4] (fun p => (p : Int))).distribution = none ∨
        (Tensor.new_global [3, 4] (fun p => (p : Int))).distribution = some .kGlobal) →
      (Tensor.new_global [3, 4] (fun p => (p : Int))).shape =
        [(Tensor.new_global [3, 4] (fun p => (p : Int))).shape.getD 0 0,
          ([4, 2] : List Nat).getD 0 0] →
      ([2, 1] : List Nat).getD 0 0 ≤ ([4, 2] : List Nat).getD 0 0 →
      ∃ T, ttm (distributed [2, 1] [4, 2] (fun r p => (10 * r + p : Int)))
        (Tensor.new_global [3, 4] (fun p => (p : Int))) 0
        (fun _ => ⟨fun _ => 0, fun _ _ => 0⟩) (fun _ => 0) 1 = .ok T) :=
  ttm_result_shape [2, 1] [4, 2] (fun r p => (10 * r + p : Int))
    (Tensor.new_global [3, 4] (fun p => (p : Int))) 0
    (fun _ => ⟨fun _ => 0, fun _ _ => 0⟩) (fun _ => 0) 1 (by decide) (by decide) (by decide)

/-- Summing over the local buffers of all ranks counts every element of the
global tensor exactly once. -/
theorem sum_ranks_eq_sum_global {α β : Type} [AddCommMonoid β] (par I : List Nat)
    (data : Nat → Buf α) (G : Buf α) (Φ : α → β) (hl : par.length = I.length)
    (hpos : ∀ P ∈ par, 0 < P)
    (hG : ∀ g, List.Forall₂ (· < ·) g I → G (lin I g) = global_elem par I data g) :
    ∑ r in range par.prod, ∑ p in range (local_size par r I), Φ (data r p) =
      ∑ pos in range I.prod, Φ (G pos) := by
  rw [sum_range_prod_eq_sumBox I, sumBox_blocks par I hl hpos, sum_range_prod_eq_sumBox_rank]
  refine sumBox_congr _ _ _ fun c hc => ?_
  rw [local_size_rank_of hc, sum_range_prod_eq_sumBox]
  refine sumBox_congr _ _ _ fun l hlv => ?_
  obtain ⟨h1, h2, h3⟩ := local_to_global par I c l hl hpos hc hlv
  rw [hG _ h1]
  simp only [global_elem]
  rw [h2, h3]

/-- C10: over an ordered field with a square root (`sqrt x * sqrt x = x` for
`x ≥ 0`), `fnorm` of a block-distributed tensor returns the same value `v` on
every rank, and `v * v` is the sum of the squares of all elements of the
global tensor, each global multi-index counted once; when the tensor has fewer
than `2^31` elements, so that `gather` assembles it, this is the sum of the
squares of the elements of the gathered tensor.  For a tensor whose
distribution is not CartesianBlock, `fnorm` returns the norm of the local
buffer, whatever the other ranks hold. -/
theorem fnorm_global {α : Type} [LinearOrderedField α] (sqrt : α → α)
    (hsqrt : ∀ x, 0 ≤ x → sqrt x * sqrt x = x) (par I : List Nat) (data : Nat → Buf α)
    (hl : par.length = I.length) (hW : 0 < par.prod) :
    (∃ v, (∀ r, fnorm sqrt par.prod (distributed par I data) r = .ok v) ∧
      v * v = ∑ pos in range I.prod,
        global_elem par I data (unlin I pos) * global_elem par I data (unlin I pos) ∧
      (I.prod < 2 ^ 31 →
        ∀ mem r, ∃ G, gather par.prod (distributed par I data) mem r = .ok G ∧
          v * v = ∑ pos in range G.size, G.data pos * G.data pos)) ∧
    (∀ (A : Nat → Tensor α) (W r : Nat) (d : Distribution), (A r).distribution = some d →
      (∀ p k, d ≠ .kCartesianBlock p k) →
      fnorm sqrt W A r = .ok (op_fnorm sqrt (A r).data (A r).size)) := by
  have hnn : ∀ (d : Buf α) (n : Nat), 0 ≤ ∑ p in range n, d p * d p := fun d n =>
    sum_nonneg fun p _ => mul_self_nonneg (d p)
  have hloc : ∀ i ∈ range par.prod,
      op_fnorm sqrt (distributed par I data i).data (distributed par I data i).size *
        op_fnorm sqrt (distributed par I data i).data (distributed par I data i).size =
      ∑ p in range (local_size par i I), data i p * data i p := fun i _ =>
    hsqrt _ (hnn _ _)
  have hv : sqrt (∑ i in range par.prod,
        op_fnorm sqrt (distributed par I data i).data (distributed par I data i).size *
          op_fnorm sqrt (distributed par I data i).data (distributed par I data i).size) *
      sqrt (∑ i in range par.prod,
        op_fnorm sqrt (distributed par I data i).data (distributed par I data i).size *
          op_fnorm sqrt (distributed par I data i).data (distributed par I data i).size) =
      ∑ r in range par.prod, ∑ p in range (local_size par r I), data r p * data r p := by
    rw [sum_congr rfl hloc, hsqrt _ (sum_nonneg fun i _ => hnn _ _)]
  constructor
  · refine ⟨_, fun r => rfl, ?_, fun hfit mem r => ?_⟩
    · rw [hv]
      exact sum_ranks_eq_sum_global par I data (fun pos => global_elem par I data (unlin I pos))
        (fun x => x * x) hl (pos_of_prod_pos hW) (fun g hg => by simp only [unlin_lin hg])
    · obtain ⟨G, h1, _, _, h4, h5⟩ := gather_elem par I data mem r hl hW hfit
      refine ⟨G, h1, ?_⟩
      rw [hv, sum_ranks_eq_sum_global par I data G.data (fun x => x * x) hl
        (pos_of_prod_pos hW) h5, Tensor.size, h4]
  · intro A W r d hd hne
    unfold fnorm
    rw [hd]
    cases d with
    | kLocal => rfl
    | kGlobal => rfl
    | kCartesianBlock p k => exact absurd rfl (hne p k)

/-- Witness of C10 over the reals, on a `4 × 2` tensor distributed over the
partition `(2, 1)`; its `8` elements are fewer than `2^31`. -/
theorem fnorm_global_witness :
    ([4, 2] : List Nat).prod < 2 ^ 31 ∧
    (∃ v, (∀ r, fnorm Real.sqrt [2, 1].prod
        (distributed [2, 1] [4, 2] (fun r p => (r + p : Real))) r = .ok v) ∧
      v * v = ∑ pos in range [4, 2].prod,
        global_elem [2, 1] [4, 2] (fun r p => (r + p : Real)) (unlin [4, 2] pos) *
          global_elem [2, 1] [4, 2] (fun r p => (r + p : Real)) (unlin [4, 2] pos) ∧
      ([4, 2].prod < 2 ^ 31 →
        ∀ mem r, ∃ G, gather [2, 1].prod
            (distributed [2, 1] [4, 2] (fun r p => (r + p : Real))) mem r = .ok G ∧
          v * v = ∑ pos in range G.size, G.data pos * G.data pos)) ∧
    (∀ (A : Nat → Tensor Real) (W r : Nat) (d : Distribution), (A r).distribution = some d →
      (∀ p k, d ≠ .kCartesianBlock p k) →
      fnorm Real.sqrt W A r = .ok (op_fnorm Real.sqrt (A r).data (A r).size)) :=
  ⟨by norm_num, fnorm_global Real.sqrt (fun _ hx => Real.mul_self_sqrt hx) [2, 1] [4, 2]
    (fun r p => (r + p : Real)) (by decide) (by decide)⟩

theorem distributed_shape_mid {α : Type} (Ppre Ppost Ipre Ipost cpre cpost : List Nat)
    (Pn In x : Nat) (data : Nat → Buf α) (hl1 : Ppre.length = Ipre.length)
    (hcpre : List.Forall₂ (· < ·) cpre Ppre) (hx : x < Pn)
    (hcpost : List.Forall₂ (· < ·) cpost Ppost) :
    (distributed (Ppre ++ Pn :: Ppost) (Ipre ++ In :: Ipost) data
      (rank_of (Ppre ++ Pn :: Ppost) (cpre ++ x :: cpost))).shape =
      local_shape Ppre cpre Ipre ++ block_len In Pn x :: local_shape Ppost cpost Ipost := by
  show local_shape _ (coord _ _) _ = _
  rw [coord_rank_of (forall₂_mid hcpre hx hcpost),
    local_shape_mid _ _ _ _ _ _ _ _ _ (forall₂_length hcpre).symm hl1]

/-- The local shape of every process of a grid, split at mode `n`. -/
theorem distributed_shape_split {α : Type} (Ppre Ppost Ipre Ipost : List Nat) (Pn In : Nat)
    (data : Nat → Buf α) (hl1 : Ppre.length = Ipre.length) (s : Nat)
    (hs : s < (Ppre ++ Pn :: Ppost).prod) :
    ∃ cpre cn cpost, List.Forall₂ (· < ·) cpre Ppre ∧ cn < Pn ∧
      List.Forall₂ (· < ·) cpost Ppost ∧
      s = rank_of (Ppre ++ Pn :: Ppost) (cpre ++ cn :: cpost) ∧
      coord (Ppre ++ Pn :: Ppost) s = cpre ++ cn :: cpost ∧
      (distributed (Ppre ++ Pn :: Ppost) (Ipre ++ In :: Ipost) data s).shape =
        local_shape Ppre cpre Ipre ++ block_len In Pn cn :: local_shape Ppost cpost Ipost ∧
      (local_shape Ppre cpre Ipre).length = Ipre.length := by
  obtain ⟨cpre, cn, cpost, hc, _, hcpre, hcn, hcpost⟩ :=
    forall₂_mid_split _ _ _ _ (coord_valid _ s hs)
  have hrk : rank_of (Ppre ++ Pn :: Ppost) (cpre ++ cn :: cpost) = s := by
    rw [← hc]; exact rank_of_coord _ s hs
  refine ⟨cpre, cn, cpost, hcpre, hcn, hcpost, hrk.symm, hc, ?_,
    (local_shape_length Ppre cpre Ipre (forall₂_length hcpre).symm hl1).trans hl1⟩
  rw [← hrk]
  exact distributed_shape_mid Ppre Ppost Ipre Ipost cpre cpost Pn In cn data hl1 hcpre hcn hcpost

/-- The root's own buffer of fewer than `2^31` elements is restored when
`scatter` returns: reordering for the scatter and reordering back is the
identity. -/
theorem scatter_root_data_eq {α : Type} (par : List Nat) (rank : Nat) (A : Tensor α)
    (hl : par.length = A.shape.length) (hW : 0 < par.prod) (hfit : A.shape.prod < 2 ^ 31)
    (pos : Nat) :
    scatter_root_data A (.kCartesianBlock par rank) pos = A.data pos := by
  have hpos := pos_of_prod_pos hW
  obtain ⟨_, hd⟩ := int_counts_fit par A.shape hl hW hfit
  have hdf : ∀ i < par.prod,
      (int_displs (fun i => int_cast (local_size par i A.shape)) i).toNat =
        displs_of (fun i => local_size par i A.shape) i := fun i hi => hd i (Nat.le_of_lt hi)
  simp only [scatter_root_data, Distribution.partition, reorder_for_scatter_cartesian_block]
  rw [reorder_from_gather_congr _ par A.shape _ (displs_of fun i => local_size par i A.shape)
      hl hpos hdf,
    place_blocks_congr_args _ _ _ _ (displs_of fun i => local_size par i A.shape) _ par.prod
      (fun _ _ => rfl) hdf]
  rcases Nat.lt_or_ge pos A.shape.prod with h | h
  · have hg := unlin_valid A.shape pos h
    have e := reorder_from_gather_at par A.shape (cut_block A.data A.shape par) A.data hl hpos
      _ hg
    rw [lin_unlin A.shape pos h] at e
    rw [e]
    have e2 := global_elem_cut_block par A.shape A.data hl hpos _ hg
    simp only [global_elem] at e2
    rw [e2, lin_unlin A.shape pos h]
  · simp only [reorder_from_gather_cartesian_block]
    rw [if_neg (by omega)]
    apply place_blocks_beyond
    rw [displs_of_eq_sum, sum_local_size par A.shape hl hpos]
    exact h

/-- C11: `gather` and `scatter` reject every unsupported combination of
distributions with an error and before any communication call.  On rank `r`,
`gather(A)` returns a tensor exactly when the argument is CartesianBlock (on
rank `r` and on the root, rank `0`, which serves the collective); for an
argument without distribution, Local or Global it fails with the message of
its guard and issues no call.  `scatter(A, d, proc)` returns a tensor exactly
when `A` has no distribution or is Local and `d` is CartesianBlock; it fails
and issues no call when `A` is CartesianBlock or Global, and when `d` is not
CartesianBlock. -/
theorem gather_scatter_reject {α : Type} (W r proc : Nat) (A : Nat → Tensor α)
    (distribution : Nat → Distribution) (mem : Nat → Buf α) :
    ((∃ t, gather W A mem r = .ok t) ↔
      (A r).distribution.map Distribution.type = some .kCartesianBlock ∧
      (A 0).distribution.map Distribution.type = some .kCartesianBlock) ∧
    ((A r).distribution = none →
      gather W A mem r = .error "This tensor is not distributed, cannot be gathered." ∧
      gather_calls (A r) = []) ∧
    ((A r).distribution = some .kLocal →
      gather W A mem r =
        .error "Distribution of this tensor is Distribution::Type::kLocal, cannot be gathered." ∧
      gather_calls (A r) = []) ∧
    ((A r).distribution = some .kGlobal →
      gather W A mem r =
        .error "Distribution of this tensor is Distribution::Type::kGlobal, there is no need to be gathered." ∧
      gather_calls (A r) = []) ∧
    ((∃ t, scatter A distribution proc mem r = .ok t) ↔
      ((A r).distribution = none ∨ (A r).distribution = some .kLocal) ∧
      (distribution r).type = .kCartesianBlock) ∧
    ((A r).distribution.map Distribution.type = some .kCartesianBlock →
      scatter A distribution proc mem r =
        .error "Distribution of this tensor is Distribution::Type::kCartesianBlock,  there is no need to be scatterd." ∧
      scatter_calls (A r) (distribution r) = []) ∧
    ((A r).distribution = some .kGlobal →
      scatter A distribution proc mem r =
        .error "Distribution of this tensor is Distribution::Type::kGlobal, there is no need to be scatterd." ∧
      scatter_calls (A r) (distribution r) = []) ∧
    ((distribution r).type ≠ .kCartesianBlock →
      (∃ e, scatter A distribution proc mem r = .error e) ∧
      scatter_calls (A r) (distribution r) = []) := by
  refine ⟨?_, ?_, ?_, ?_, ?_, ?_, ?_, ?_⟩
  · unfold gather
    rcases hA : (A r).distribution with _ | _ | _ | ⟨par, rank⟩ <;>
      rcases hA0 : (A 0).distribution with _ | _ | _ | ⟨par0, rank0⟩ <;>
      simp [Distribution.type]
  · intro h
    simp [gather, gather_calls, h]
  · intro h
    simp [gather, gather_calls, h]
  · intro h
    simp [gather, gather_calls, h]
  · unfold scatter
    rcases hA : (A r).distribution with _ | _ | _ | ⟨par, rank⟩ <;>
      rcases hd : distribution r with _ | _ | ⟨par0, rank0⟩ <;>
      simp [Distribution.type]
  · intro h
    rcases hA : (A r).distribution with _ | _ | _ | ⟨par, rank⟩ <;>
      simp [hA, Distribution.type] at h
    simp [scatter, scatter_calls, hA]
  · intro h
    simp [scatter, scatter_calls, h]
  · intro h
    unfold scatter scatter_calls
    rcases hA : (A r).distribution with _ | _ | _ | ⟨par, rank⟩ <;>
      rcases hd : distribution r with _ | _ | ⟨par0, rank0⟩ <;>
      simp [hd, Distribution.type] at h ⊢

/-- The loop of `ttmc` is the left fold of `ttm` over the iterations
`0, ..., k-1`, in increasing order. -/
theorem ttmc_loop_eq_foldl {α : Type} [Semiring α] (W : Nat) (A : Nat → Tensor α)
    (M : List (Tensor α)) (idx : List Nat) (scratch : Nat → Nat → TtmBuffers α)
    (mem : Nat → Nat → Buf α) (k : Nat) :
    ttmc_loop W A M idx scratch mem k =
      (List.range k).foldl
        (fun acc i => match acc with
          | .ok Ai => ttm_spmd Ai (M.getD i Tensor.empty) (idx.getD i 0) (scratch i) (mem i) W
          | .error e => .error e)
        (.ok A) := by
  induction k with
  | zero => rfl
  | succ k ih =>
    rw [List.range_succ, List.foldl_append, ← ih]
    rfl

/-- When the two vectors have the same length, `ttmc` returns the left fold of
`ttm` over them; the same tensor is then held by the caller's variable. -/
theorem ttmc_eq_foldl {α : Type} [Semiring α] (W : Nat) (A : Nat → Tensor α)
    (M : List (Tensor α)) (idx : List Nat) (scratch : Nat → Nat → TtmBuffers α)
    (mem : Nat → Nat → Buf α) (h : M.length = idx.length) :
    ttmc W A M idx scratch mem =
      ((List.range M.length).foldl
        (fun (acc : Except String (Nat → Tensor α)) i => match acc with
          | .ok Ai => ttm_spmd Ai (M.getD i Tensor.empty) (idx.getD i 0) (scratch i) (mem i) W
          | .error e => .error e)
        (.ok A)).map (fun A_final => { ret := A_final, A := A_final }) := by
  unfold ttmc
  rw [if_neg (not_not.2 h), ttmc_loop_eq_foldl]
  rcases List.foldl _ _ _ with e | T <;> rfl

/-- With empty vectors `ttmc` returns its argument. -/
theorem ttmc_nil {α : Type} [Semiring α] (W : Nat) (A : Nat → Tensor α)
    (scratch : Nat → Nat → TtmBuffers α) (mem : Nat → Nat → Buf α) :
    ttmc W A [] [] scratch mem = .ok { ret := A, A := A } := rfl

/-- C12: `ttmc` assigns the result of every `ttm` to its parameter `A`, a
reference to the caller's tensor.  On the one-process grid, for the tensor
`A = (2)` and the `1 × 1` matrix `M[0] = (3)`, the call `ttmc(A, M, (0))`
returns the product `(6)` of the fold, and the caller's tensor, which held
`(2)`, holds `(6)` afterwards: the input is not left unchanged. -/
theorem ttmc_overwrites_argument :
    ∃ res, ttmc 1 (distributed [1] [1] (fun _ _ => (2 : Int)))
        [Tensor.new_global [1, 1] (fun _ => 3)] [0]
        (fun _ _ => ⟨fun _ => 0, fun _ _ => 0⟩) (fun _ _ _ => 0) = .ok res ∧
      (res.ret 0).data 0 = 6 ∧ (res.A 0).data 0 = 6 ∧
      (distributed [1] [1] (fun _ _ => (2 : Int)) 0).data 0 = 2 :=
  ⟨_, rfl, rfl, rfl, rfl⟩

/-- C13: the guard of `ttt_except` lets a call pass when only one of the two
tensors is CartesianBlock.  With `A` Global and `B` CartesianBlock the call is
not rejected with `Invalid input or not implemented yet.`: it goes on to use
the descriptor of `A` as a `DistributionCartesianBlock`, which has no result.
With `A` CartesianBlock and `B` Global on the one-process grid the call
computes and returns a matrix. -/
theorem ttt_except_accepts_one_cartesian :
    ttt_except (fun _ => Tensor.new_global [2] (fun p => (p : Int)))
      (distributed [1] [2] (fun _ p => (p : Int))) 0
      (fun _ => ⟨fun _ _ => 0, fun _ => 0, fun _ => 0⟩) (fun _ => 0) 0 =
      .error "Invalid cast: A.distribution() is not a DistributionCartesianBlock" ∧
    ∃ T, ttt_except (distributed [1] [2] (fun _ p => (p : Int)))
      (fun _ => Tensor.new_global [2] (fun p => (p : Int))) 0
      (fun _ => ⟨fun _ _ => 0, fun _ => 0, fun _ => 0⟩) (fun _ => 0) 0 = .ok T ∧
      T.shape = [2, 2] ∧ T.data 1 = 0 ∧ T.data 3 = 1 :=
  ⟨rfl, _, rfl, rfl, rfl, rfl⟩

/-- The index formula of the ring `ttm` depends on the range of `kParN`: for
the `size_t` value `kParN = 2^64 - 1`, which is no size of a communicator,
fiber rank `2` and step `0` the sum `(size_t)rank - i - 1 + kParN` wraps
around, and the index computed in 64-bit unsigned arithmetic is `0`, not
`(2 - 0 - 1) mod kParN = 1`. -/
theorem ttm_k_wraps :
    (1 : Nat) ≤ 2 ^ 64 - 1 ∧ (2 : Nat) < 2 ^ 64 - 1 ∧ (0 : Nat) < 2 ^ 64 - 1 ∧
      ttm_k 2 0 (2 ^ 64 - 1) = 0 ∧
      ((ttm_k 2 0 (2 ^ 64 - 1) : Nat) : Int) ≠
        (((2 : Nat) : Int) - ((0 : Nat) : Int) - 1) % ((2 ^ 64 - 1 : Nat) : Int) := by
  have hk : ttm_k 2 0 (2 ^ 64 - 1) = 0 := by
    unfold ttm_k size_t_add size_t_sub
    norm_num
  refine ⟨by norm_num, by norm_num, by norm_num, hk, ?_⟩
  rw [hk]
  norm_num

/-- C14: for every size `P ≥ 1` of the fiber communicator (`kParN` is the size
of an MPI communicator, an `int`, so `P < 2^31`; the proof needs only
`P ≤ 2^63`), fiber rank `r < P` and step `i < P`, the index
`k = ((size_t)rank - i - 1 + kParN) % kParN` of the ring `ttm`, evaluated in
64-bit unsigned arithmetic, is the integer `(r - i - 1) mod P` and lies in
`[0, P)`; for `i ≥ 1` it is the index used at step `i - 1` by the previous
neighbour `(r - 1) mod P`; and at the last step `i = P - 1` it is `r`. -/
theorem ttm_k_index (P r i : Nat) (hP : 1 ≤ P) (hP63 : P ≤ 2 ^ 63) (hr : r < P) (hi : i < P) :
    ((ttm_k r i P : Nat) : Int) = ((r : Int) - i - 1) % (P : Int) ∧
    ttm_k r i P < P ∧
    (1 ≤ i → ttm_k r i P = ttm_k ((r + P - 1) % P) (i - 1) P) ∧
    (i = P - 1 → ttm_k r i P = r) := by
  have h2 : 2 * P ≤ 2 ^ 64 := by
    have : (2 : Nat) ^ 64 = 2 * 2 ^ 63 := by norm_num
    omega
  have hk := ttm_k_eq r i P hr hi h2
  have hrot := rot_eq P r (i + 1) hr (by omega)
  refine ⟨?_, ?_, ?_, ?_⟩
  · rw [hk, Int.natCast_mod]
    have e : ((r + P - (i + 1) : Nat) : Int) = ((r : Int) - i - 1) + P := by omega
    rw [e, Int.add_emod_self]
  · rw [hk]
    exact Nat.mod_lt _ (by omega)
  · intro h1
    have hprev : (r + P - 1) % P < P := Nat.mod_lt _ (by omega)
    have hk2 := ttm_k_eq ((r + P - 1) % P) (i - 1) P hprev (by omega) h2
    have hrot1 := rot_eq P r 1 hr (by omega)
    have hrot2 := rot_eq P ((r + P - 1) % P) (i - 1 + 1) hprev (by omega)
    rw [hk, hk2, hrot, hrot2, hrot1]
    split_ifs <;> omega
  · intro hl
    rw [hk, hrot]
    split_ifs <;> omega

/-- Witness of C14: `P = 3`, rank `1`, last step `2`, where
`rank - i - 1` is negative. -/
theorem ttm_k_index_witness :
    ((ttm_k 1 2 3 : Nat) : Int) = ((1 : Nat) - (2 : Nat) - 1 : Int) % ((3 : Nat) : Int) ∧
    ttm_k 1 2 3 < 3 ∧
    (1 ≤ 2 → ttm_k 1 2 3 = ttm_k ((1 + 3 - 1) % 3) (2 - 1) 3) ∧
    (2 = 3 - 1 → ttm_k 1 2 3 = 1) :=
  ttm_k_index 3 1 2 (by decide) (by norm_num) (by decide) (by decide)

theorem run_append (s : Requests) (a b : List RingEvent) :
    s.run (a ++ b) = match s.run a with
      | some t => t.run b
      | none => none := by
  induction a generalizing s with
  | nil => rfl
  | cons e es ih =>
    simp only [List.cons_append, Requests.run]
    cases s.step e with
    | none => rfl
    | some t => exact ih t

/-- The requests of a process after `j` steps of the ring loop of `ttm`: both
are pending between two steps, none before the first and after the last. -/
theorem ttm_ring_requests (P : Nat) : ∀ j, j ≤ P →
    Requests.run ⟨none, none⟩ (ring_events (ttm_ring_events_step P) j) =
      some (if 0 < j ∧ j < P then ⟨some ((j - 1) % 2), some (j % 2)⟩ else ⟨none, none⟩)
  | 0, _ => by simp [ring_events, Requests.run]
  | j + 1, hj => by
    have ih := ttm_ring_requests P j (by omega)
    rw [ring_events, run_append, ih]
    rcases Nat.eq_zero_or_pos j with h0 | h0
    · subst h0
      by_cases hP : 0 = P - 1
      · have : ¬ (0 + 1 < P) := by omega
        simp [ttm_ring_events_step, Requests.run, Requests.step, ← hP, this]
      · have : 0 + 1 < P := by omega
        simp [ttm_ring_events_step, Requests.run, Requests.step, hP, this]
    · have h1 : (0 < j ∧ j < P) := ⟨h0, by omega⟩
      have hj0 : j ≠ 0 := by omega
      have hm : (j + 1) % 2 ≠ j % 2 := by omega
      have hm2 : j % 2 ≠ (j + 1) % 2 := by omega
      by_cases hP : j = P - 1
      · have : ¬ (j + 1 < P) := by omega
        simp [ttm_ring_events_step, Requests.run, Requests.step, h1, hj0, ← hP, this]
      · have : j + 1 < P := by omega
        simp [ttm_ring_events_step, Requests.run, Requests.step, h1, hj0, hP, this, hm, hm2]

/-- The requests of a process after `j` steps of the ring loop of `gram` or
`ttt_except`. -/
theorem gram_ring_requests (P : Nat) : ∀ j, j ≤ P →
    Requests.run ⟨none, none⟩ (ring_events (gram_ring_events_step P) j) =
      some (if 0 < j ∧ j < P then ⟨some ((j - 1) % 2), some (j % 2)⟩ else ⟨none, none⟩)
  | 0, _ => by simp [ring_events, Requests.run]
  | j + 1, hj => by
    have ih := gram_ring_requests P j (by omega)
    rw [ring_events, run_append, ih]
    rcases Nat.eq_zero_or_pos j with h0 | h0
    · subst h0
      by_cases hP : 0 = P - 1
      · have : ¬ (0 + 1 < P) := by omega
        simp [gram_ring_events_step, Requests.run, Requests.step, ← hP, this]
      · have : 0 + 1 < P := by omega
        simp [gram_ring_events_step, Requests.run, Requests.step, hP, this]
    · have h1 : (0 < j ∧ j < P) := ⟨h0, by omega⟩
      have hj0 : j ≠ 0 := by omega
      have hm : (j + 1) % 2 ≠ j % 2 := by omega
      have hm2 : j % 2 ≠ (j + 1) % 2 := by omega
      by_cases hP : j = P - 1
      · have : ¬ (j + 1 < P) := by omega
        simp [gram_ring_events_step, Requests.run, Requests.step, h1, hj0, ← hP, this]
      · have : j + 1 < P := by omega
        simp [gram_ring_events_step, Requests.run, Requests.step, h1, hj0, hP, this, hm, hm2]

/-- C15: the order of the events of one process in the ring loops of `ttm`
and of `gram` and `ttt_except`, for `P ≥ 1` steps.  At every step `i < P - 1`
the send of `buf[i % 2]` and the receive into `buf[(i + 1) % 2]` are posted
together, and a step posts nothing else; a step that posts is a step
`i < P - 1`; every step `i + 1` begins with the waits on both requests, before
any kernel or post touches the two buffers; step `0` issues no wait; run from
the start, no event of the loop is out of order (no write to a buffer of a
pending request, no post on a pending request, no wait without a pending
request), both requests are pending between two steps, and none is pending
when the loop exits. -/
theorem ring_event_order (P : Nat) (hP : 1 ≤ P) :
    (∀ i < P,
      (i < P - 1 →
        [RingEvent.isend (i % 2), RingEvent.irecv ((i + 1) % 2)] <:+: ttm_ring_events_step P i) ∧
      (∀ b, RingEvent.isend b ∈ ttm_ring_events_step P i → b = i % 2 ∧ i < P - 1) ∧
      (∀ b, RingEvent.irecv b ∈ ttm_ring_events_step P i → b = (i + 1) % 2 ∧ i < P - 1) ∧
      (0 < i → [RingEvent.wait_send, RingEvent.wait_recv] <+: ttm_ring_events_step P i)) ∧
    (RingEvent.wait_send ∉ ttm_ring_events_step P 0 ∧
      RingEvent.wait_recv ∉ ttm_ring_events_step P 0) ∧
    (∀ j, 0 < j → j < P →
      Requests.run ⟨none, none⟩ (ring_events (ttm_ring_events_step P) j) =
        some ⟨some ((j - 1) % 2), some (j % 2)⟩) ∧
    Requests.run ⟨none, none⟩ (ring_events (ttm_ring_events_step P) P) = some ⟨none, none⟩ ∧
    (∀ i < P,
      (i < P - 1 →
        [RingEvent.isend (i % 2), RingEvent.irecv ((i + 1) % 2)] <:+: gram_ring_events_step P i) ∧
      (∀ b, RingEvent.isend b ∈ gram_ring_events_step P i → b = i % 2 ∧ i < P - 1) ∧
      (∀ b, RingEvent.irecv b ∈ gram_ring_events_step P i → b = (i + 1) % 2 ∧ i < P - 1) ∧
      (0 < i → [RingEvent.wait_send, RingEvent.wait_recv] <+: gram_ring_events_step P i)) ∧
    (RingEvent.wait_send ∉ gram_ring_events_step P 0 ∧
      RingEvent.wait_recv ∉ gram_ring_events_step P 0) ∧
    (∀ j, 0 < j → j < P →
      Requests.run ⟨none, none⟩ (ring_events (gram_ring_events_step P) j) =
        some ⟨some ((j - 1) % 2), some (j % 2)⟩) ∧
    Requests.run ⟨none, none⟩ (ring_events (gram_ring_events_step P) P) = some ⟨none, none⟩ := by
  refine ⟨?_, ?_, ?_, ?_, ?_, ?_, ?_, ?_⟩
  · intro i hi
    refine ⟨?_, ?_, ?_, ?_⟩
    · intro h
      have hne : i ≠ P - 1 := by omega
      rw [ttm_ring_events_step, if_pos hne]
      exact ⟨_, [], List.append_nil _⟩
    · intro b hb
      simp only [ttm_ring_events_step] at hb
      split_ifs at hb <;> simp at hb <;> exact ⟨hb, by omega⟩
    · intro b hb
      simp only [ttm_ring_events_step] at hb
      split_ifs at hb <;> simp at hb <;> exact ⟨hb, by omega⟩
    · intro h0
      have hne : i ≠ 0 := by omega
      rw [ttm_ring_events_step, if_pos hne]
      exact ⟨_, rfl⟩
  · have h0 : ¬ ((0 : Nat) ≠ 0) := by simp
    constructor <;>
    · simp only [ttm_ring_events_step, if_neg h0]
      split_ifs <;> simp
  · intro j h0 hj
    rw [ttm_ring_requests P j (by omega), if_pos ⟨h0, hj⟩]
  · rw [ttm_ring_requests P P le_rfl, if_neg (by omega)]
  · intro i hi
    refine ⟨?_, ?_, ?_, ?_⟩
    · intro h
      have hne : i ≠ P - 1 := by omega
      rw [gram_ring_events_step, if_pos hne]
      exact ⟨_, _, rfl⟩
    · intro b hb
      simp only [gram_ring_events_step] at hb
      split_ifs at hb <;> simp at hb <;> exact ⟨hb, by omega⟩
    · intro b hb
      simp only [gram_ring_events_step] at hb
      split_ifs at hb <;> simp at hb <;> exact ⟨hb, by omega⟩
    · intro h0
      have hne : i ≠ 0 := by omega
      rw [gram_ring_events_step, if_pos hne]
      exact ⟨_, rfl⟩
  · have h0 : ¬ ((0 : Nat) ≠ 0) := by simp
    constructor <;>
    · simp only [gram_ring_events_step, if_neg h0]
      split_ifs <;> simp
  · intro j h0 hj
    rw [gram_ring_requests P j (by omega), if_pos ⟨h0, hj⟩]
  · rw [gram_ring_requests P P le_rfl, if_neg (by omega)]

/-- Witness of C15: a ring of `P = 3` steps. -/
theorem ring_event_order_witness :
    (∀ i < 3,
      (i < 3 - 1 →
        [RingEvent.isend (i % 2), RingEvent.irecv ((i + 1) % 2)] <:+: ttm_ring_events_step 3 i) ∧
      (∀ b, RingEvent.isend b ∈ ttm_ring_events_step 3 i → b = i % 2 ∧ i < 3 - 1) ∧
      (∀ b, RingEvent.irecv b ∈ ttm_ring_events_step 3 i → b = (i + 1) % 2 ∧ i < 3 - 1) ∧
      (0 < i → [RingEvent.wait_send, RingEvent.wait_recv] <+: ttm_ring_events_step 3 i)) ∧
    (RingEvent.wait_send ∉ ttm_ring_events_step 3 0 ∧
      RingEvent.wait_recv ∉ ttm_ring_events_step 3 0) ∧
    (∀ j, 0 < j → j < 3 →
      Requests.run ⟨none, none⟩ (ring_events (ttm_ring_events_step 3) j) =
        some ⟨some ((j - 1) % 2), some (j % 2)⟩) ∧
    Requests.run ⟨none, none⟩ (ring_events (ttm_ring_events_step 3) 3) = some ⟨none, none⟩ ∧
    (∀ i < 3,
      (i < 3 - 1 →
        [RingEvent.isend (i % 2), RingEvent.irecv ((i + 1) % 2)] <:+: gram_ring_events_step 3 i) ∧
      (∀ b, RingEvent.isend b ∈ gram_ring_events_step 3 i → b = i % 2 ∧ i < 3 - 1) ∧
      (∀ b, RingEvent.irecv b ∈ gram_ring_events_step 3 i → b = (i + 1) % 2 ∧ i < 3 - 1) ∧
      (0 < i → [RingEvent.wait_send, RingEvent.wait_recv] <+: gram_ring_events_step 3 i)) ∧
    (RingEvent.wait_send ∉ gram_ring_events_step 3 0 ∧
      RingEvent.wait_recv ∉ gram_ring_events_step 3 0) ∧
    (∀ j, 0 < j → j < 3 →
      Requests.run ⟨none, none⟩ (ring_events (gram_ring_events_step 3) j) =
        some ⟨some ((j - 1) % 2), some (j % 2)⟩) ∧
    Requests.run ⟨none, none⟩ (ring_events (gram_ring_events_step 3) 3) = some ⟨none, none⟩ :=
  ring_event_order 3 (by decide)

theorem forall₂_getD_lt {c par : List Nat} (h : List.Forall₂ (· < ·) c par) :
    ∀ k < par.length, c.getD k 0 < par.getD k 0 := by
  induction h with
  | nil => intro k hk; simp at hk
  | cons h1 _ ih =>
    intro k hk
    cases k with
    | zero => simpa using h1
    | succ k =>
      simp only [List.getD_cons_succ]
      exact ih k (by simpa using hk)

/-- The value of `pre` after `d` iterations: the product of the grid extents
of the modes below `d` other than `n`. -/
theorem new_color_loop_pre (coord par : List Nat) (n : Nat) : ∀ d,
    (new_color_loop coord par n d).2 = ∏ k in (range d).filter (fun k => k ≠ n), par.getD k 0
  | 0 => by simp [new_color_loop]
  | d + 1 => by
    have ih := new_color_loop_pre coord par n d
    simp only [new_color_loop]
    by_cases hd : d = n
    · rw [if_neg (not_not.2 hd), ih, Finset.range_succ, Finset.filter_insert,
        if_neg (not_not.2 hd)]
    · rw [if_pos hd, Finset.range_succ, Finset.filter_insert, if_pos hd,
        Finset.prod_insert (by simp), ← ih]
      exact Nat.mul_comm _ _

/-- After `d` iterations `new_color` is a mixed-radix numeral below `pre`. -/
theorem new_color_loop_lt (c par : List Nat) (n : Nat)
    (hc : ∀ k < par.length, c.getD k 0 < par.getD k 0) : ∀ d, d ≤ par.length →
    (new_color_loop c par n d).1 < (new_color_loop c par n d).2
  | 0, _ => by simp [new_color_loop]
  | d + 1, hd => by
    have ih := new_color_loop_lt c par n hc d (by omega)
    simp only [new_color_loop]
    split_ifs with h
    · have h1 := hc d (by omega)
      show _ + _ * _ < _ * _
      calc (new_color_loop c par n d).1 + c.getD d 0 * (new_color_loop c par n d).2
          < (new_color_loop c par n d).2 + c.getD d 0 * (new_color_loop c par n d).2 := by omega
        _ = (new_color_loop c par n d).2 * (c.getD d 0 + 1) := by ring
        _ ≤ (new_color_loop c par n d).2 * par.getD d 0 := Nat.mul_le_mul_left _ h1
    · exact ih

/-- Two valid coordinates have the same partial colour exactly when they agree
on the modes seen so far, `n` excepted. -/
theorem new_color_loop_inj (c c' par : List Nat) (n : Nat)
    (hc : ∀ k < par.length, c.getD k 0 < par.getD k 0)
    (hc' : ∀ k < par.length, c'.getD k 0 < par.getD k 0) : ∀ d, d ≤ par.length →
    ((new_color_loop c par n d).1 = (new_color_loop c' par n d).1 ↔
      ∀ k < d, k ≠ n → c.getD k 0 = c'.getD k 0)
  | 0, _ => by simp [new_color_loop]
  | d + 1, hd => by
    have ih := new_color_loop_inj c c' par n hc hc' d (by omega)
    have hlt := new_color_loop_lt c par n hc d (by omega)
    have hlt' := new_color_loop_lt c' par n hc' d (by omega)
    have hpre : (new_color_loop c par n d).2 = (new_color_loop c' par n d).2 := by
      rw [new_color_loop_pre, new_color_loop_pre]
    simp only [new_color_loop]
    by_cases h : d = n
    · rw [if_neg (not_not.2 h), if_neg (not_not.2 h), ih]
      constructor
      · intro hk k hk1 hk2
        have : k < d := by omega
        exact hk k this hk2
      · intro hk k hk1 hk2
        exact hk k (by omega) hk2
    · rw [if_pos h, if_pos h]
      show _ + _ * _ = _ + _ * _ ↔ _
      rw [← hpre] at hlt' ⊢
      set p := (new_color_loop c par n d).2 with hp
      constructor
      · intro e k hk1 hk2
        have e1 : ((new_color_loop c par n d).1 + c.getD d 0 * p) % p =
            ((new_color_loop c' par n d).1 + c'.getD d 0 * p) % p := by rw [e]
        have e2 : ((new_color_loop c par n d).1 + c.getD d 0 * p) / p =
            ((new_color_loop c' par n d).1 + c'.getD d 0 * p) / p := by rw [e]
        rw [Nat.add_mul_mod_self_right, Nat.add_mul_mod_self_right, Nat.mod_eq_of_lt hlt,
          Nat.mod_eq_of_lt hlt'] at e1
        rw [Nat.add_mul_div_right _ _ (by omega), Nat.add_mul_div_right _ _ (by omega),
          Nat.div_eq_of_lt hlt, Nat.div_eq_of_lt hlt', Nat.zero_add, Nat.zero_add] at e2
        rcases Nat.lt_or_ge k d with hkd | hkd
        · exact ih.1 e1 k hkd hk2
        · have : k = d := by omega
          rw [this]
          exact e2
      · intro hk
        rw [ih.2 (fun k hk1 hk2 => hk k (by omega) hk2), hk d (by omega) h]

/-- C17: the communicator split of the reduce-scatter `ttm` realises the
mode-`n` fiber.  For any two valid coordinates `c`, `c'` of the grid `par`, the
colours are equal exactly when `c` and `c'` agree on every mode other than `n`;
the colour is below the product of the grid extents of the modes other than
`n`; and the key `new_rank` is the coordinate `c_n`. -/
theorem comm_split_fiber (par c c' : List Nat) (n : Nat)
    (hc : List.Forall₂ (· < ·) c par) (hc' : List.Forall₂ (· < ·) c' par) :
    (new_color c par n par.length = new_color c' par n par.length ↔
      ∀ k < par.length, k ≠ n → c.getD k 0 = c'.getD k 0) ∧
    new_color c par n par.length <
      ∏ k in (range par.length).filter (fun k => k ≠ n), par.getD k 0 ∧
    new_rank c n = c.getD n 0 := by
  have h := forall₂_getD_lt hc
  have h' := forall₂_getD_lt hc'
  refine ⟨new_color_loop_inj c c' par n h h' par.length le_rfl, ?_, rfl⟩
  rw [← new_color_loop_pre c par n par.length]
  exact new_color_loop_lt c par n h par.length le_rfl

/-- Witness of C17: on the grid `(2, 3, 2)` the processes `(1, 0, 1)` and
`(1, 2, 1)` lie in the same fiber of mode `1`. -/
theorem comm_split_fiber_witness :
    (new_color [1, 0, 1] [2, 3, 2] 1 [2, 3, 2].length =
        new_color [1, 2, 1] [2, 3, 2] 1 [2, 3, 2].length ↔
      ∀ k < [2, 3, 2].length, k ≠ 1 → [1, 0, 1].getD k 0 = [1, 2, 1].getD k 0) ∧
    new_color [1, 0, 1] [2, 3, 2] 1 [2, 3, 2].length <
      ∏ k in (range [2, 3, 2].length).filter (fun k => k ≠ 1), [2, 3, 2].getD k 0 ∧
    new_rank [1, 0, 1] 1 = [1, 0, 1].getD 1 0 :=
  comm_split_fiber [2, 3, 2] [1, 0, 1] [1, 2, 1] 1
    (.cons (by decide) (.cons (by decide) (.cons (by decide) .nil)))
    (.cons (by decide) (.cons (by decide) (.cons (by decide) .nil)))

/-- C16: evaluation of the `recvcounts` loop of the reduce-scatter `ttm` for a
tensor of global shape `(2, 1)` on the grid `(2, 1)`, mode `0` and a matrix
with `J = 3` rows.  On rank `0`, of coordinate `(0, 0)`, the loop yields
`recvcounts = (2, 2)`: entry `1` is not the block length
`⌈3·2/2⌉ − ⌈3·1/2⌉ = 1` of fiber member `1`, and the sum `4` is not the length
`J * remain_size = 3` of the reduced buffer.  On rank `1`, of coordinate
`(1, 0)`, the entry `recvcounts[c_n] = 2` is not the local size `1` of the
returned tensor. -/
theorem recvcounts_reads_own_coordinate :
    coord [2, 1] 0 = [0, 0] ∧
    (distributed [2, 1] [2, 1] (fun _ _ => (0 : Int)) 0).size /
      (distributed [2, 1] [2, 1] (fun _ _ => (0 : Int)) 0).shape.getD 0 0 = 1 ∧
    recvcounts (coord [2, 1] 0) [2, 1] 0 3 1 0 = some 2 ∧
    recvcounts (coord [2, 1] 0) [2, 1] 0 3 1 1 = some 2 ∧
    (DIANA_CEILDIV (3 * (1 + 1)) 2 - DIANA_CEILDIV (3 * 1) 2) * 1 = 1 ∧
    2 + 2 ≠ 3 * 1 ∧
    coord [2, 1] 1 = [1, 0] ∧
    recvcounts (coord [2, 1] 1) [2, 1] 0 3 1 ((coord [2, 1] 1).getD 0 0) = some 2 ∧
    (Tensor.new_distributed (.kCartesianBlock [2, 1] 1) [3, 1] (fun _ => (0 : Int))).size = 1 := by
  refine ⟨by decide, by decide, by decide, by decide, by decide, by decide, by decide,
    by decide, by decide⟩

/-- Every block of a mode is non-empty exactly when the global extent is at
least the grid extent. -/
theorem block_len_pos_iff {S P : Nat} (hP : 0 < P) :
    (∀ c < P, 1 ≤ block_len S P c) ↔ P ≤ S := by
  constructor
  · intro h
    have hs := sum_block_len (S := S) hP
    have h1 : ∑ _c in range P, 1 ≤ ∑ c in range P, block_len S P c :=
      Finset.sum_le_sum (fun c hc => h c (Finset.mem_range.1 hc))
    simp only [Finset.sum_const, Finset.card_range, smul_eq_mul, Nat.mul_one] at h1
    omega
  · intro h c _
    exact block_len_pos hP h

theorem exists_empty_block {S P : Nat} (hP : 0 < P) (h : S < P) :
    ∃ c < P, block_len S P c = 0 := by
  by_contra hne
  push_neg at hne
  have := (block_len_pos_iff (S := S) hP).1 (fun c hc => Nat.pos_of_ne_zero (hne c hc))
  omega

/-- The coordinate `(0, ..., 0)` is valid on a grid without empty extent. -/
theorem forall₂_zeros : ∀ (par : List Nat), (∀ P ∈ par, 0 < P) →
    List.Forall₂ (· < ·) (List.replicate par.length 0) par
  | [], _ => List.Forall₂.nil
  | P :: ps, h => by
    refine List.Forall₂.cons (h P (List.mem_cons_self _ _)) (forall₂_zeros ps ?_)
    intro Q hQ
    exact h Q (List.mem_cons_of_mem _ hQ)

/-- On a non-empty grid there is, for every mode-`n` coordinate `c`, a process
whose divisor `A.shape()[n]` is the length of block `c`. -/
theorem exists_rank_with_coord {α : Type} (Ppre Ppost Ipre Ipost : List Nat) (Pn In c : Nat)
    (data : Nat → Buf α) (hl1 : Ppre.length = Ipre.length)
    (hpos : 0 < (Ppre ++ Pn :: Ppost).prod) (hc : c < Pn) :
    ∃ r < (Ppre ++ Pn :: Ppost).prod,
      (coord (Ppre ++ Pn :: Ppost) r).getD Ipre.length 0 = c ∧
      (coord (Ppre ++ Pn :: Ppost) r).set Ipre.length c = coord (Ppre ++ Pn :: Ppost) r ∧
      (distributed (Ppre ++ Pn :: Ppost) (Ipre ++ In :: Ipost) data r).shape.getD Ipre.length 0 =
        block_len In Pn c := by
  have hall := pos_of_prod_pos hpos
  have hpre : List.Forall₂ (· < ·) (List.replicate Ppre.length 0) Ppre :=
    forall₂_zeros Ppre (fun P hP => hall P (by simp [hP]))
  have hpost : List.Forall₂ (· < ·) (List.replicate Ppost.length 0) Ppost :=
    forall₂_zeros Ppost (fun P hP => hall P (by simp [hP]))
  have hv := forall₂_mid hpre hc hpost
  have hlen : (List.replicate Ppre.length 0).length = Ipre.length := by simp [hl1]
  refine ⟨rank_of _ (List.replicate Ppre.length 0 ++ c :: List.replicate Ppost.length 0),
    rank_of_lt hv, ?_, ?_, ?_⟩
  · rw [coord_rank_of hv]
    exact getD_mid_of _ _ _ _ _ hlen
  · rw [coord_rank_of hv, ← hlen, set_mid]
  · rw [distributed_shape_mid Ppre Ppost Ipre Ipost _ _ Pn In c data hl1 hpre hc hpost]
    exact getD_mid_of _ _ _ _ _
      ((local_shape_length Ppre _ Ipre (by simp) hl1).trans hl1)

/-- C18: the divisor `A.shape()[n]` of the divisions `A.size() / A.shape()[n]`
in `ttm`, `gram` and `ttt_except` is non-zero on every rank exactly when the
global extent `In` is at least the grid extent `Pn`: every block length
`⌈In·(c+1)/Pn⌉ − ⌈In·c/Pn⌉`, `c < Pn`, is at least `1` iff `In ≥ Pn`; for a
tensor block-distributed over a non-empty grid the local extent of mode `n` is
non-zero on every rank iff `In ≥ Pn`; and when `In < Pn` some rank owns an
empty block of mode `n`, on which the three calls divide by zero. -/
theorem division_nonzero_iff {α : Type} [Semiring α] (Ppre Ppost Ipre Ipost : List Nat)
    (Pn In : Nat) (data : Nat → Buf α) (hl1 : Ppre.length = Ipre.length)
    (hpos : 0 < (Ppre ++ Pn :: Ppost).prod) :
    ((∀ c < Pn, 1 ≤ block_len In Pn c) ↔ Pn ≤ In) ∧
    ((∀ r < (Ppre ++ Pn :: Ppost).prod,
        (distributed (Ppre ++ Pn :: Ppost) (Ipre ++ In :: Ipost) data r).shape.getD
          Ipre.length 0 ≠ 0) ↔ Pn ≤ In) ∧
    (In < Pn → ∃ r < (Ppre ++ Pn :: Ppost).prod,
      (distributed (Ppre ++ Pn :: Ppost) (Ipre ++ In :: Ipost) data r).shape.getD
        Ipre.length 0 = 0 ∧
      (∀ scratch mem,
        gram (distributed (Ppre ++ Pn :: Ppost) (Ipre ++ In :: Ipost) data) Ipre.length
          scratch mem r = .error "Division by zero: A.size() / kLocalShapeN") ∧
      (∀ (M : Tensor α) scratch mem,
        (M.distribution = none ∨ M.distribution = some .kGlobal) → M.shape.length = 2 →
        M.shape.getD 1 0 = In →
        ttm (distributed (Ppre ++ Pn :: Ppost) (Ipre ++ In :: Ipost) data) M Ipre.length
          scratch mem r = .error "Division by zero: A.size() / A.shape()[n]") ∧
      (∀ (B : Nat → Tensor α) scratch mem,
        (∀ i < (distributed (Ppre ++ Pn :: Ppost) (Ipre ++ In :: Ipost) data r).ndim,
          i ≠ Ipre.length →
          (distributed (Ppre ++ Pn :: Ppost) (Ipre ++ In :: Ipost) data r).shape_global.getD i 0 =
            (B r).shape_global.getD i 0 ∧
          (distributed (Ppre ++ Pn :: Ppost) (Ipre ++ In :: Ipost) data r).shape.getD i 0 =
            (B r).shape.getD i 0) →
        ttt_except (distributed (Ppre ++ Pn :: Ppost) (Ipre ++ In :: Ipost) data) B Ipre.length
          scratch mem r = .error "Division by zero: A.size() / kALocalShapeN")) := by
  have hPn : 0 < Pn := pos_of_prod_pos hpos Pn (by simp)
  have hiff := block_len_pos_iff (S := In) hPn
  refine ⟨hiff, ⟨?_, ?_⟩, ?_⟩
  · intro h
    refine hiff.1 (fun c hc => ?_)
    obtain ⟨r, hr, _, _, hs⟩ :=
      exists_rank_with_coord Ppre Ppost Ipre Ipost Pn In c data hl1 hpos hc
    have := h r hr
    rw [hs] at this
    exact Nat.pos_of_ne_zero this
  · intro h r hr
    obtain ⟨cpre, cn, cpost, _, hcn, _, _, _, hshape, hlen⟩ :=
      distributed_shape_split Ppre Ppost Ipre Ipost Pn In data hl1 r hr
    rw [hshape, getD_mid_of _ _ _ _ _ hlen]
    exact Nat.pos_iff_ne_zero.1 (block_len_pos hPn h)
  · intro hlt
    obtain ⟨c, hc, hc0⟩ := exists_empty_block (S := In) hPn hlt
    obtain ⟨r, hr, hcr, hset, hs⟩ :=
      exists_rank_with_coord Ppre Ppost Ipre Ipost Pn In c data hl1 hpos hc
    rw [hc0] at hs
    have hn : Ppre.length = Ipre.length := hl1
    have hd : (distributed (Ppre ++ Pn :: Ppost) (Ipre ++ In :: Ipost) data r).distribution =
        some (.kCartesianBlock (Ppre ++ Pn :: Ppost) r) := rfl
    refine ⟨r, hr, hs, ?_, ?_, ?_⟩
    · intro scratch mem
      unfold gram
      rw [hd]
      simp only
      rw [if_pos ⟨r, hr, hs⟩]
    · intro M scratch mem hM hMl hMc
      unfold ttm
      rw [hd]
      simp only
      have hg : (distributed (Ppre ++ Pn :: Ppost) (Ipre ++ In :: Ipost) data r).shape_global.getD
          Ipre.length 0 = M.shape.getD 1 0 := by
        rw [hMc]
        exact getD_mid _ _ _ _
      have hz : ∃ q < (Ppre ++ Pn :: Ppost).getD Ipre.length 0,
          (distributed (Ppre ++ Pn :: Ppost) (Ipre ++ In :: Ipost) data
            (rank_of (Ppre ++ Pn :: Ppost)
              ((coord (Ppre ++ Pn :: Ppost) r).set Ipre.length q))).shape.getD Ipre.length 0 = 0 := by
        refine ⟨c, ?_, ?_⟩
        · rw [getD_mid_of _ _ _ _ _ hn]
          exact hc
        · rw [hset, rank_of_coord _ r hr]
          exact hs
      rw [if_pos hM, if_neg (not_not.2 hMl), if_neg (not_not.2 hg), if_pos hz]
    · intro B scratch mem hassert
      unfold ttt_except
      rw [hd]
      simp only
      rw [if_neg (not_not.2 hassert), if_pos ⟨r, hr, hs⟩]

/-- Witness of C18: the grid `(2, 3)` and the global shape `(5, 2)` at mode
`1`, where `In = 2 < 3 = Pn`. -/
theorem division_nonzero_iff_witness :
    ((∀ c < 3, 1 ≤ block_len 2 3 c) ↔ 3 ≤ 2) ∧
    ((∀ r < ([2] ++ 3 :: []).prod,
        (distributed ([2] ++ 3 :: []) ([5] ++ 2 :: []) (fun _ _ => (1 : Int)) r).shape.getD
          [5].length 0 ≠ 0) ↔ 3 ≤ 2) ∧
    (2 < 3 → ∃ r < ([2] ++ 3 :: []).prod,
      (distributed ([2] ++ 3 :: []) ([5] ++ 2 :: []) (fun _ _ => (1 : Int)) r).shape.getD
        [5].length 0 = 0 ∧
      (∀ scratch mem,
        gram (distributed ([2] ++ 3 :: []) ([5] ++ 2 :: []) (fun _ _ => (1 : Int))) [5].length
          scratch mem r = .error "Division by zero: A.size() / kLocalShapeN") ∧
      (∀ (M : Tensor Int) scratch mem,
        (M.distribution = none ∨ M.distribution = some .kGlobal) → M.shape.length = 2 →
        M.shape.getD 1 0 = 2 →
        ttm (distributed ([2] ++ 3 :: []) ([5] ++ 2 :: []) (fun _ _ => (1 : Int))) M [5].length
          scratch mem r = .error "Division by zero: A.size() / A.shape()[n]") ∧
      (∀ (B : Nat → Tensor Int) scratch mem,
        (∀ i < (distributed ([2] ++ 3 :: []) ([5] ++ 2 :: []) (fun _ _ => (1 : Int)) r).ndim,
          i ≠ [5].length →
          (distributed ([2] ++ 3 :: []) ([5] ++ 2 :: []) (fun _ _ => (1 : Int)) r).shape_global.getD i 0 =
            (B r).shape_global.getD i 0 ∧
          (distributed ([2] ++ 3 :: []) ([5] ++ 2 :: []) (fun _ _ => (1 : Int)) r).shape.getD i 0 =
            (B r).shape.getD i 0) →
        ttt_except (distributed ([2] ++ 3 :: []) ([5] ++ 2 :: []) (fun _ _ => (1 : Int))) B [5].length
          scratch mem r = .error "Division by zero: A.size() / kALocalShapeN")) :=
  division_nonzero_iff [2] [] [5] [] 3 2 (fun _ _ => (1 : Int)) rfl (by decide)

end DianaTucker
